import Mathlib

/-!
# helm-hooks: a shallow embedding of `internal/hook`

The Go package `internal/hook` (files `naming.go`, `validator.go`,
`processor.go`, `splitter.go`) translated function by function.

* A Go `string` is its sequence of bytes: `GoString := List Nat`, one
  entry per byte (a well-formed string has every entry below 256), so
  `len(s)` is `List.length` and `s[:n]` is `List.take n`.
* Go `int` is the 64-bit signed integer; values are `Int`, and the one
  place where wrap-around can happen (`-n` in the splitter's `itoa`) wraps
  explicitly.
* A `*yaml.Node` tree is the value `Node`; in-place mutation becomes a
  function returning the new tree.
* A Go `error` is a value of `HookError`, one constructor per message
  format of the source.
* The YAML encoder and decoder are a parameter, `Yaml`, of the functions
  that call them on the split path.
-/

set_option autoImplicit false

namespace HelmHooks

/-! ## Strings -/

/-- A Go string: its bytes in order. -/
abbrev GoString := List Nat

/-- The UTF-8 bytes of one code point. -/
def utf8Bytes (c : Nat) : List Nat :=
  if c < 128 then [c]
  else if c < 2048 then [192 + c / 64, 128 + c % 64]
  else if c < 65536 then [224 + c / 4096, 128 + c / 64 % 64, 128 + c % 64]
  else [240 + c / 262144, 128 + c / 4096 % 64, 128 + c / 64 % 64, 128 + c % 64]

/-- A string literal of the source as a Go string (its UTF-8 bytes). -/
def str (s : String) : GoString :=
  s.toList.flatMap (fun c => utf8Bytes c.toNat)

/-- The byte of the separator character, 0x2D. -/
def dash : Nat := 45

/-- Go strings.TrimRight(s, "-"): drop every trailing 0x2D byte. -/
def trimRightDash (s : GoString) : GoString :=
  s.rdropWhile (fun b => b == dash)

/-- Whether the string ends with the separator character. -/
def endsWithDash (s : GoString) : Bool :=
  s.getLast? == some dash

/-! ## crypto/sha256 and encoding/hex -/

/-- The 64 round constants of SHA-256 (FIPS 180-4, section 4.2.2). -/
def sha256K : List Nat :=
  [1116352408, 1899447441, 3049323471, 3921009573, 961987163, 1508970993,
   2453635748, 2870763221, 3624381080, 310598401, 607225278, 1426881987,
   1925078388, 2162078206, 2614888103, 3248222580, 3835390401, 4022224774,
   264347078, 604807628, 770255983, 1249150122, 1555081692, 1996064986,
   2554220882, 2821834349, 2952996808, 3210313671, 3336571891, 3584528711,
   113926993, 338241895, 666307205, 773529912, 1294757372, 1396182291,
   1695183700, 1986661051, 2177026350, 2456956037, 2730485921, 2820302411,
   3259730800, 3345764771, 3516065817, 3600352804, 4094571909, 275423344,
   430227734, 506948616, 659060556, 883997877, 958139571, 1322822218,
   1537002063, 1747873779, 1955562222, 2024104815, 2227730452, 2361852424,
   2428436474, 2756734187, 3204031479, 3329325298]

/-- The eight 32-bit words of a SHA-256 chaining value. -/
structure Sha256State where
  a : Nat
  b : Nat
  c : Nat
  d : Nat
  e : Nat
  f : Nat
  g : Nat
  h : Nat
deriving DecidableEq, Repr

/-- The initial hash value of SHA-256 (FIPS 180-4, section 5.3.3). -/
def sha256Init : Sha256State :=
  ⟨1779033703, 3144134277, 1013904242, 2773480762, 1359893119, 2600822924, 528734635, 1541459225⟩

def word32 (x : Nat) : Nat := x % 4294967296

def rotr32 (n x : Nat) : Nat := word32 ((x >>> n) ||| (x <<< (32 - n)))

def not32 (x : Nat) : Nat := 4294967295 - word32 x

def bigSigma0 (x : Nat) : Nat := rotr32 2 x ^^^ rotr32 13 x ^^^ rotr32 22 x

def bigSigma1 (x : Nat) : Nat := rotr32 6 x ^^^ rotr32 11 x ^^^ rotr32 25 x

def smallSigma0 (x : Nat) : Nat := rotr32 7 x ^^^ rotr32 18 x ^^^ (x >>> 3)

def smallSigma1 (x : Nat) : Nat := rotr32 17 x ^^^ rotr32 19 x ^^^ (x >>> 10)

def sha256Ch (x y z : Nat) : Nat := (x &&& y) ^^^ (not32 x &&& z)

def sha256Maj (x y z : Nat) : Nat := (x &&& y) ^^^ (x &&& z) ^^^ (y &&& z)

/-- The message followed by 0x80, zero bytes up to 56 modulo 64, and the
bit length as eight big-endian bytes. -/
def sha256Pad (msg : List Nat) : List Nat :=
  let bits := 8 * msg.length
  msg ++ [128] ++ List.replicate ((119 - msg.length % 64) % 64) 0 ++
    (List.range 8).map (fun i => bits / 256 ^ (7 - i) % 256)

/-- Big-endian 32-bit words of a byte sequence. -/
def sha256Words : List Nat → List Nat
  | b0 :: b1 :: b2 :: b3 :: rest =>
      (((b0 * 256 + b1) * 256 + b2) * 256 + b3) :: sha256Words rest
  | _ => []

/-- The 64-entry message schedule of one block of sixteen words. -/
def sha256Schedule (block : List Nat) : List Nat :=
  (List.range 48).foldl
    (fun w i =>
      w ++ [word32 (smallSigma1 (w.getD (i + 14) 0) + w.getD (i + 9) 0 +
                    smallSigma0 (w.getD (i + 1) 0) + w.getD i 0)])
    block

def sha256Round (s : Sha256State) (kw : Nat × Nat) : Sha256State :=
  let t1 := word32 (s.h + bigSigma1 s.e + sha256Ch s.e s.f s.g + kw.1 + kw.2)
  let t2 := word32 (bigSigma0 s.a + sha256Maj s.a s.b s.c)
  ⟨word32 (t1 + t2), s.a, s.b, s.c, word32 (s.d + t1), s.e, s.f, s.g⟩

def sha256Block (s : Sha256State) (block : List Nat) : Sha256State :=
  let r := (sha256K.zip (sha256Schedule block)).foldl sha256Round s
  ⟨word32 (s.a + r.a), word32 (s.b + r.b), word32 (s.c + r.c), word32 (s.d + r.d),
   word32 (s.e + r.e), word32 (s.f + r.f), word32 (s.g + r.g), word32 (s.h + r.h)⟩

/-- Fold the compression function over the sixteen-word blocks. -/
def sha256Blocks (fuel : Nat) (s : Sha256State) (ws : List Nat) : Sha256State :=
  match fuel with
  | 0 => s
  | fuel + 1 =>
      if ws.isEmpty then s
      else sha256Blocks fuel (sha256Block s (ws.take 16)) (ws.drop 16)

def wordBytes (w : Nat) : List Nat :=
  [w / 16777216 % 256, w / 65536 % 256, w / 256 % 256, w % 256]

/-- Go sha256.Sum256: the 32 digest bytes. -/
def sha256Sum256 (msg : List Nat) : List Nat :=
  let ws := sha256Words (sha256Pad msg)
  let s := sha256Blocks ws.length sha256Init ws
  wordBytes s.a ++ wordBytes s.b ++ wordBytes s.c ++ wordBytes s.d ++
    wordBytes s.e ++ wordBytes s.f ++ wordBytes s.g ++ wordBytes s.h

/-- One character of the table "0123456789abcdef". -/
def hexDigit (n : Nat) : Nat := if n < 10 then 48 + n else 87 + n

/-- Go hex.EncodeToString: two lower-case hexadecimal characters per byte. -/
def hexEncodeToString (bs : List Nat) : GoString :=
  bs.flatMap (fun b => [hexDigit (b / 16), hexDigit (b % 16)])

/-- A character of the table "0123456789abcdef". -/
def isHexChar (c : Nat) : Bool :=
  (48 ≤ c ∧ c ≤ 57) ∨ (97 ≤ c ∧ c ≤ 102)

/-! ## strings and strconv -/

/-- Go strings.Split(s, sep) for a one-byte separator: the pieces between
the separators, in order; the empty string gives one empty piece. -/
def Split (s : GoString) (sep : Nat) : List GoString :=
  match s with
  | [] => [[]]
  | b :: rest =>
      if b = sep then [] :: Split rest sep
      else
        match Split rest sep with
        | [] => [[b]]
        | piece :: pieces => (b :: piece) :: pieces

/-- Go strings.SplitN(s, sep, 2) for a one-byte separator: the whole string
when the separator is absent, else the parts before and after its first
occurrence. -/
def SplitN2 (s : GoString) (sep : Nat) : List GoString :=
  match s.span (fun b => b != sep) with
  | (before, []) => [before]
  | (before, _ :: after) => [before, after]

/-- The one-byte white-space runes: U+0009..U+000D and U+0020. -/
def isSpace1 (b : Nat) : Bool :=
  (9 ≤ b ∧ b ≤ 13) ∨ b = 32

/-- The two-byte white-space runes: U+0085 and U+00A0. -/
def isSpace2 (b c : Nat) : Bool :=
  b = 194 ∧ (c = 133 ∨ c = 160)

/-- The three-byte white-space runes: U+1680, U+2000..U+200A, U+2028,
U+2029, U+202F, U+205F and U+3000. -/
def isSpace3 (b c d : Nat) : Bool :=
  (b = 225 ∧ c = 154 ∧ d = 128) ∨
  (b = 226 ∧ c = 128 ∧ ((128 ≤ d ∧ d ≤ 138) ∨ d = 168 ∨ d = 169 ∨ d = 175)) ∨
  (b = 226 ∧ c = 129 ∧ d = 159) ∨
  (b = 227 ∧ c = 128 ∧ d = 128)

/-- Width in bytes of the white-space rune (unicode.IsSpace) whose UTF-8
encoding starts the string, 0 when the string does not start with one. -/
def spaceWidth (s : GoString) : Nat :=
  match s with
  | [] => 0
  | b :: rest =>
      if isSpace1 b then 1
      else
        match rest with
        | [] => 0
        | c :: rest2 =>
            if isSpace2 b c then 2
            else
              match rest2 with
              | [] => 0
              | d :: _ => if isSpace3 b c d then 3 else 0

/-- Width of the white-space rune whose UTF-8 encoding ends the string;
the argument is the string reversed. -/
def spaceWidthRev (r : GoString) : Nat :=
  match r with
  | [] => 0
  | b :: rest =>
      if isSpace1 b then 1
      else
        match rest with
        | [] => 0
        | c :: rest2 =>
            if isSpace2 c b then 2
            else
              match rest2 with
              | [] => 0
              | d :: _ => if isSpace3 d c b then 3 else 0

/-- Go strings.TrimLeftFunc(s, unicode.IsSpace). -/
def trimLeftSpace : GoString → GoString
  | [] => []
  | b :: rest =>
      match spaceWidth (b :: rest), rest with
      | 0, _ => b :: rest
      | 1, r => trimLeftSpace r
      | 2, _ :: r => trimLeftSpace r
      | _, _ :: _ :: r => trimLeftSpace r
      | _, _ => b :: rest

/-- The reversed string without its leading (originally trailing)
white-space runes. -/
def trimLeftSpaceRev : GoString → GoString
  | [] => []
  | b :: rest =>
      match spaceWidthRev (b :: rest), rest with
      | 0, _ => b :: rest
      | 1, r => trimLeftSpaceRev r
      | 2, _ :: r => trimLeftSpaceRev r
      | _, _ :: _ :: r => trimLeftSpaceRev r
      | _, _ => b :: rest

/-- Go strings.TrimSpace: leading and trailing white space removed. -/
def TrimSpace (s : GoString) : GoString :=
  (trimLeftSpaceRev (trimLeftSpace s).reverse).reverse

/-- Go strings.Contains(s, sep) for a one-byte separator. -/
def Contains (s : GoString) (sep : Nat) : Bool :=
  s.contains sep

/-- Go strings.ToLower on ASCII: A..Z become a..z and every other byte is
kept. The source compares the result only with "true" and "false"; no rune
outside ASCII lowers to a letter of those words, so the comparisons agree
with Go on every string. -/
def ToLower (s : GoString) : GoString :=
  s.map (fun b => if 65 ≤ b ∧ b ≤ 90 then b + 32 else b)

/-- The value of a non-empty run of decimal digits. -/
def parseDigits (s : GoString) : Option Nat :=
  match s with
  | [] => none
  | _ :: _ =>
      s.foldl
        (fun acc b =>
          match acc with
          | none => none
          | some n => if 48 ≤ b ∧ b ≤ 57 then some (n * 10 + (b - 48)) else none)
        (some 0)

/-- Go strconv.Atoi on a 64-bit platform: an optional sign and decimal
digits, within the range of int64; none stands for the error result. -/
def Atoi (s : GoString) : Option Int :=
  match s with
  | [] => none
  | b :: rest =>
      if b = 45 then
        match parseDigits rest with
        | some n => if n ≤ 9223372036854775808 then some (-(n : Int)) else none
        | none => none
      else
        match parseDigits (if b = 43 then rest else b :: rest) with
        | some n => if n < 9223372036854775808 then some (n : Int) else none
        | none => none

/-- Decimal digits of n in front of acc, most significant first. -/
def decimalLoop : Nat → Nat → GoString → GoString
  | 0, _, acc => acc
  | fuel + 1, n, acc =>
      if n = 0 then acc else decimalLoop fuel (n / 10) ((48 + n % 10) :: acc)

/-- Go strconv.Itoa: the canonical decimal string of an integer. -/
def Itoa (n : Int) : GoString :=
  if n = 0 then str "0"
  else if n < 0 then str "-" ++ decimalLoop n.natAbs n.natAbs []
  else decimalLoop n.natAbs n.natAbs []

/-! ## Maps and errors -/

deriving instance DecidableEq for Except

/-- A Go map with string keys, read only through lookups. -/
abbrev GoMap (β : Type) := GoString → Option β

/-- The empty map, make(map[string]T). -/
def GoMap.empty {β : Type} : GoMap β := fun _ => none

/-- The assignment m[k] = v. -/
def GoMap.set {β : Type} (m : GoMap β) (k : GoString) (v : β) : GoMap β :=
  fun k2 => if k2 = k then some v else m k2

/-- The read m[k] of a map of ints: the zero value for a missing key. -/
def GoMap.at (m : GoMap Int) (k : GoString) : Int := (m k).getD 0

/-- The errors of the package, one constructor per message format. -/
inductive HookError where
  /-- resource %q has invalid hook %q -/
  | invalidHook (resourceName hook : GoString)
  /-- resource %q has duplicate hook %q -/
  | duplicateHook (resourceName hook : GoString)
  /-- resource %q has empty helm.sh/hook annotation -/
  | emptyHook (resourceName : GoString)
  /-- invalid weight mapping %q, expected format hook=weight -/
  | invalidWeightMapping (pair : GoString)
  /-- no hooks found in hook-weights -/
  | noHooksFound
  /-- weight specified for unknown hook %q -/
  | unknownHook (hookName : GoString)
  /-- invalid weight for hook %q: %w -/
  | invalidWeightForHook (hookName : GoString)
  /-- invalid weight %q: %w -/
  | invalidWeight (value : GoString)
  /-- hook count (%d) does not match weight count (%d) -/
  | countMismatch (hookCount weightCount : Nat)
  /-- resource %q: %w -/
  | inResource (resourceName : GoString) (err : HookError)
  /-- parsing YAML: %w -/
  | parsingYAML
  /-- An error of the YAML encoder or decoder, returned as it is. -/
  | yamlError
deriving DecidableEq, Repr

/-! ## validator.go, first half -/

def comma : Nat := 44

def equalsSign : Nat := 61

/-- The keys of the validHooks map; every key maps to true. -/
def validHooks : List GoString :=
  [str "pre-install", str "post-install", str "pre-delete", str "post-delete",
   str "pre-upgrade", str "post-upgrade", str "pre-rollback", str "post-rollback",
   str "test", str "test-success", str "test-failure"]

/-- The loop of validateHooks; seen holds the keys set so far. -/
def validateHooksLoop (resourceName : GoString) :
    List GoString → List GoString → Except HookError Unit
  | [], _ => .ok ()
  | h :: rest, seen =>
      if ¬ (h ∈ validHooks) then .error (.invalidHook resourceName h)
      else if h ∈ seen then .error (.duplicateHook resourceName h)
      else validateHooksLoop resourceName rest (h :: seen)

/-- The source's validateHooks. -/
def validateHooks (hooks : List GoString) (resourceName : GoString) : Except HookError Unit :=
  validateHooksLoop resourceName hooks []

/-! ## processor.go: annotation constants and the resolver -/

def annotationHook : GoString := str "helm.sh/hook"

def annotationHookWeight : GoString := str "helm.sh/hook-weight"

def annotationHookWeights : GoString := str "helm.sh/hook-weights"

def annotationHookEnv : GoString := str "helm.sh/hook-env"

def annotationHookNameSuffix : GoString := str "helm.sh/hook-name-suffix"

/-- The default weight when not specified. -/
def defaultWeight : Int := 0

/-- The loop of extractHooksFromWeights over the comma-separated pairs. -/
def extractHooksLoop : List GoString → List GoString → Except HookError (List GoString)
  | [], hooks => .ok hooks
  | pair :: rest, hooks =>
      let pair := TrimSpace pair
      if pair = [] then extractHooksLoop rest hooks
      else
        let parts := SplitN2 pair equalsSign
        if parts.length ≠ 2 then .error (.invalidWeightMapping pair)
        else
          let hookName := TrimSpace (parts.getD 0 [])
          if hookName ≠ [] then extractHooksLoop rest (hooks ++ [hookName])
          else extractHooksLoop rest hooks

/-- The source's extractHooksFromWeights. -/
def extractHooksFromWeights (value : GoString) : Except HookError (List GoString) :=
  match extractHooksLoop (Split value comma) [] with
  | .error e => .error e
  | .ok hooks => if hooks.length = 0 then .error .noHooksFound else .ok hooks

/-- The source's isSingleValidWeight. -/
def isSingleValidWeight (value : GoString) : Bool :=
  let value := TrimSpace value
  if Contains value comma then false
  else (Atoi value).isSome

/-- The source's parseHookEvents: the trimmed, non-empty pieces in order. -/
def parseHookEvents (value : GoString) : List GoString :=
  (Split value comma).foldl
    (fun hooks h =>
      let h := TrimSpace h
      if h ≠ [] then hooks ++ [h] else hooks)
    []

/-- Every hook set to the default weight, in turn. -/
def initWeights (hooks : List GoString) : GoMap Int :=
  hooks.foldl (fun weights h => weights.set h defaultWeight) GoMap.empty

/-- The loop of parseExplicitWeights over the comma-separated pairs. -/
def parseExplicitLoop (hooks : List GoString) :
    List GoString → GoMap Int → Except HookError (GoMap Int)
  | [], weights => .ok weights
  | pair :: rest, weights =>
      let pair := TrimSpace pair
      if pair = [] then parseExplicitLoop hooks rest weights
      else
        let parts := SplitN2 pair equalsSign
        if parts.length ≠ 2 then .error (.invalidWeightMapping pair)
        else
          let hookName := TrimSpace (parts.getD 0 [])
          let weightStr := TrimSpace (parts.getD 1 [])
          if ¬ (hookName ∈ hooks) then .error (.unknownHook hookName)
          else
            match Atoi weightStr with
            | none => .error (.invalidWeightForHook hookName)
            | some w => parseExplicitLoop hooks rest (weights.set hookName w)

/-- The source's parseExplicitWeights. -/
def parseExplicitWeights (value : GoString) (hooks : List GoString) :
    Except HookError (GoMap Int) :=
  parseExplicitLoop hooks (Split value comma) (initWeights hooks)

/-- The positional loop of parseWeights: the i-th weight part goes to the
i-th hook. -/
def parsePositionalLoop :
    List GoString → List GoString → GoMap Int → Except HookError (GoMap Int)
  | h :: hooks, part :: weightParts, weights =>
      match Atoi (TrimSpace part) with
      | none => .error (.invalidWeight part)
      | some w => parsePositionalLoop hooks weightParts (weights.set h w)
  | _, _, weights => .ok weights

/-- The source's parseWeights. -/
def parseWeights (annotations : GoMap GoString) (hooks : List GoString) :
    Except HookError (GoMap Int) :=
  let weights := initWeights hooks
  match annotations annotationHookWeights with
  | some weightsVal => parseExplicitWeights weightsVal hooks
  | none =>
      match annotations annotationHookWeight with
      | some weightVal =>
          let weightParts := Split weightVal comma
          if weightParts.length = 1 then
            match Atoi (TrimSpace (weightParts.getD 0 [])) with
            | none => .error (.invalidWeight weightVal)
            | some w => .ok (hooks.foldl (fun weights h => weights.set h w) weights)
          else if weightParts.length ≠ hooks.length then
            .error (.countMismatch hooks.length weightParts.length)
          else parsePositionalLoop hooks weightParts weights
      | none => .ok weights

/-! ## validator.go, second half -/

/-- The source's ValidateAnnotations; none is the nil error. -/
def ValidateAnnotations (annotations : GoMap GoString) (resourceName : GoString) :
    Option HookError :=
  match annotations annotationHook with
  | none => none
  | some hookValue =>
      let hooks := parseHookEvents hookValue
      if hooks.length = 0 then some (.emptyHook resourceName)
      else
        match validateHooks hooks resourceName with
        | .error e => some e
        | .ok _ =>
            match annotations annotationHookWeights with
            | some weightsVal =>
                match parseExplicitWeights weightsVal hooks with
                | .error e => some (.inResource resourceName e)
                | .ok _ => none
            | none =>
                match annotations annotationHookWeight with
                | some weightVal =>
                    let weightParts := Split weightVal comma
                    if weightParts.length > 1 ∧ weightParts.length ≠ hooks.length then
                      some (.inResource resourceName
                        (.countMismatch hooks.length weightParts.length))
                    else none
                | none => none

/-! ## yaml.Node

The tree type of gopkg.in/yaml.v3 with the fields this package reads or
writes (Kind, Style, Tag, Value, Content); the remaining fields (anchor,
comments, position) travel in `NodeInfo` and are never touched. The Alias
pointer of an alias node is never followed by the package and is left out.
The Content of a mapping node holds its keys and values alternately, as
the decoder builds it. -/

inductive Kind where
  | DocumentNode
  | SequenceNode
  | MappingNode
  | ScalarNode
  | AliasNode
deriving DecidableEq, Repr

/-- The fields of a yaml.Node the package neither reads nor writes. -/
structure NodeInfo where
  anchor : GoString
  headComment : GoString
  lineComment : GoString
  footComment : GoString
  line : Nat
  column : Nat
deriving DecidableEq, Repr

/-- The zero value of the untouched fields, as in a node literal. -/
def NodeInfo.zero : NodeInfo := ⟨[], [], [], [], 0, 0⟩

inductive Node where
  | mk (kind : Kind) (style : Nat) (tag : GoString) (value : GoString)
      (info : NodeInfo) (content : List Node)
deriving Repr

/-- The style constant yaml.DoubleQuotedStyle. -/
def DoubleQuotedStyle : Nat := 2

def Node.kind : Node → Kind
  | .mk kind _ _ _ _ _ => kind

def Node.style : Node → Nat
  | .mk _ style _ _ _ _ => style

def Node.tag : Node → GoString
  | .mk _ _ tag _ _ _ => tag

def Node.value : Node → GoString
  | .mk _ _ _ value _ _ => value

def Node.content : Node → List Node
  | .mk _ _ _ _ _ content => content

/-- The assignment n.Content = content. -/
def Node.setContent : Node → List Node → Node
  | .mk kind style tag value info _, content => .mk kind style tag value info content

/-- The assignment n.Value = value. -/
def Node.setValue : Node → GoString → Node
  | .mk kind style tag _ info content, value => .mk kind style tag value info content

/-- The three assignments Value = value, Tag = "!!str", Style = DoubleQuotedStyle. -/
def Node.setQuoted : Node → GoString → Node
  | .mk kind _ _ _ info content, value =>
      .mk kind DoubleQuotedStyle (str "!!str") value info content

/-- The literal &yaml.Node{Kind: yaml.ScalarNode, Value: value}. -/
def scalarNode (value : GoString) : Node :=
  .mk .ScalarNode 0 [] value NodeInfo.zero []

/-- The literal &yaml.Node{Kind: yaml.ScalarNode, Value: value, Tag: "!!str",
Style: yaml.DoubleQuotedStyle}. -/
def quotedNode (value : GoString) : Node :=
  .mk .ScalarNode DoubleQuotedStyle (str "!!str") value NodeInfo.zero []

/-- The loop shared by the helpers that look for the first entry of a
mapping with a given key, hand its value to one function and return. -/
def updateFirst (key : GoString) (f : Node → Node) : List Node → List Node
  | k :: v :: rest =>
      if k.value = key then k :: f v :: rest
      else k :: v :: updateFirst key f rest
  | rest => rest

/-- The edit every helper starts with: the first child of a document node
that has one, else the node itself. -/
def onContent (node : Node) (f : Node → Node) : Node :=
  match node.kind, node.content with
  | .DocumentNode, c :: cs => node.setContent (f c :: cs)
  | _, _ => f node

/-- The node the helpers navigate to: content = node.Content[0] for a
document node that has one. -/
def documentContent (node : Node) : Node :=
  match node.kind, node.content with
  | .DocumentNode, c :: _ => c
  | _, _ => node

/-! ## processor.go: the resource descriptor -/

/-- The source's Resource, without its node pointer. -/
structure Resource where
  Kind : GoString
  Name : GoString
  Annotations : GoMap GoString

/-- The annotation loop of parseMetadata. -/
def parseAnnotationsLoop : List Node → GoMap GoString → GoMap GoString
  | k :: v :: rest, annotations => parseAnnotationsLoop rest (annotations.set k.value v.value)
  | _, annotations => annotations

/-- The loop of parseMetadata over the entries of metadata. -/
def parseMetadataLoop : List Node → Resource → Resource
  | k :: v :: rest, res =>
      if k.value = str "name" then
        parseMetadataLoop rest { res with Name := v.value }
      else if k.value = str "annotations" then
        if v.kind = .MappingNode then
          parseMetadataLoop rest
            { res with Annotations := parseAnnotationsLoop v.content res.Annotations }
        else parseMetadataLoop rest res
      else parseMetadataLoop rest res
  | _, res => res

/-- The source's parseMetadata; its error result is always nil. -/
def parseMetadata (node : Node) (res : Resource) : Resource :=
  if node.kind ≠ .MappingNode then res
  else parseMetadataLoop node.content res

/-- The loop of parseResource over the entries of the root mapping. -/
def parseResourceLoop : List Node → Resource → Resource
  | k :: v :: rest, res =>
      if k.value = str "kind" then parseResourceLoop rest { res with Kind := v.value }
      else if k.value = str "metadata" then parseResourceLoop rest (parseMetadata v res)
      else parseResourceLoop rest res
  | _, res => res

/-- The source's parseResource; its error result is always nil. -/
def parseResource (node : Node) : Resource :=
  let res : Resource := ⟨[], [], GoMap.empty⟩
  let content := documentContent node
  if content.kind ≠ .MappingNode then res
  else parseResourceLoop content.content res

/-! ## processor.go and splitter.go: the tree mutators -/

/-- The source's setNameInMetadata. -/
def setNameInMetadata (metadata : Node) (name : GoString) : Node :=
  if metadata.kind ≠ .MappingNode then metadata
  else metadata.setContent
    (updateFirst (str "name") (fun v => v.setValue name) metadata.content)

/-- The source's setMetadataName. -/
def setMetadataName (node : Node) (name : GoString) : Node :=
  if node.kind ≠ .MappingNode then node
  else node.setContent
    (updateFirst (str "metadata") (fun m => setNameInMetadata m name) node.content)

/-- The loop of setAnnotationValue: overwrite the first entry with the key,
or append a new pair. -/
def setAnnotationLoop (key value : GoString) : List Node → List Node
  | k :: v :: rest =>
      if k.value = key then k :: v.setQuoted value :: rest
      else k :: v :: setAnnotationLoop key value rest
  | rest => rest ++ [scalarNode key, quotedNode value]

/-- The source's setAnnotationValue. -/
def setAnnotationValue (annotations : Node) (key value : GoString) : Node :=
  if annotations.kind ≠ .MappingNode then annotations
  else annotations.setContent (setAnnotationLoop key value annotations.content)

/-- The source's setAnnotationInMetadata. -/
def setAnnotationInMetadata (metadata : Node) (key value : GoString) : Node :=
  if metadata.kind ≠ .MappingNode then metadata
  else metadata.setContent
    (updateFirst (str "annotations") (fun a => setAnnotationValue a key value) metadata.content)

/-- The source's setAnnotation. -/
def setAnnotation (node : Node) (key value : GoString) : Node :=
  if node.kind ≠ .MappingNode then node
  else node.setContent
    (updateFirst (str "metadata") (fun m => setAnnotationInMetadata m key value) node.content)

/-- The loop of removeAnnotationKey: drop the first pair with the key. -/
def removeKeyLoop (key : GoString) : List Node → List Node
  | k :: v :: rest =>
      if k.value = key then rest
      else k :: v :: removeKeyLoop key rest
  | rest => rest

/-- The source's removeAnnotationKey. -/
def removeAnnotationKey (annotations : Node) (key : GoString) : Node :=
  if annotations.kind ≠ .MappingNode then annotations
  else annotations.setContent (removeKeyLoop key annotations.content)

/-- The source's removeAnnotationFromMetadata. -/
def removeAnnotationFromMetadata (metadata : Node) (key : GoString) : Node :=
  if metadata.kind ≠ .MappingNode then metadata
  else metadata.setContent
    (updateFirst (str "annotations") (fun a => removeAnnotationKey a key) metadata.content)

/-- The source's removeAnnotation. -/
def removeAnnotation (node : Node) (key : GoString) : Node :=
  if node.kind ≠ .MappingNode then node
  else node.setContent
    (updateFirst (str "metadata") (fun m => removeAnnotationFromMetadata m key) node.content)

/-! ## processor.go: environment injection -/

/-- Whether an env item has an entry name: <name>. -/
def itemHasName (name : GoString) : List Node → Bool
  | k :: v :: rest => (k.value = str "name" ∧ v.value = name) || itemHasName name rest
  | _ => false

/-- The inner loop of addOrUpdateEnvVar: overwrite the first value entry of
the item, or append one. -/
def setEnvValueLoop (value : GoString) : List Node → List Node
  | k :: v :: rest =>
      if k.value = str "value" then k :: v.setQuoted value :: rest
      else k :: v :: setEnvValueLoop value rest
  | rest => rest ++ [scalarNode (str "value"), quotedNode value]

/-- The outer loop of addOrUpdateEnvVar over the items of the env list. -/
def addOrUpdateLoop (name value : GoString) : List Node → List Node
  | [] =>
      [.mk .MappingNode 0 [] [] NodeInfo.zero
        [scalarNode (str "name"), scalarNode name, scalarNode (str "value"), quotedNode value]]
  | item :: rest =>
      if item.kind = .MappingNode ∧ itemHasName name item.content then
        item.setContent (setEnvValueLoop value item.content) :: rest
      else item :: addOrUpdateLoop name value rest

/-- The source's addOrUpdateEnvVar. -/
def addOrUpdateEnvVar (envNode : Node) (name value : GoString) : Node :=
  if envNode.kind ≠ .SequenceNode then envNode
  else envNode.setContent (addOrUpdateLoop name value envNode.content)

/-- Whether a mapping has an entry with the key. -/
def hasKey (key : GoString) : List Node → Bool
  | k :: _ :: rest => k.value = key || hasKey key rest
  | _ => false

/-- The two upserts injectEnvInContainer applies to the env node. -/
def injectEnvEntries (envNode : Node) (hookEvent : GoString) (weight : Int) : Node :=
  addOrUpdateEnvVar (addOrUpdateEnvVar envNode (str "HELM_HOOK_EVENT") hookEvent)
    (str "HELM_HOOK_WEIGHT") (Itoa weight)

/-- The source's injectEnvInContainer. -/
def injectEnvInContainer (container : Node) (hookEvent : GoString) (weight : Int) : Node :=
  if hasKey (str "env") container.content then
    container.setContent
      (updateFirst (str "env") (fun e => injectEnvEntries e hookEvent weight) container.content)
  else
    container.setContent
      (container.content ++
        [scalarNode (str "env"),
         injectEnvEntries (.mk .SequenceNode 0 [] [] NodeInfo.zero []) hookEvent weight])

/-- The source's injectEnvInContainers. -/
def injectEnvInContainers (containers : Node) (hookEvent : GoString) (weight : Int) : Node :=
  if containers.kind ≠ .SequenceNode then containers
  else containers.setContent
    (containers.content.map
      (fun c => if c.kind = .MappingNode then injectEnvInContainer c hookEvent weight else c))

/-- The loop of injectEnvInPodSpec: every containers and initContainers entry. -/
def injectEnvInPodSpecLoop (hookEvent : GoString) (weight : Int) : List Node → List Node
  | k :: v :: rest =>
      if k.value = str "containers" ∨ k.value = str "initContainers" then
        k :: injectEnvInContainers v hookEvent weight :: injectEnvInPodSpecLoop hookEvent weight rest
      else k :: v :: injectEnvInPodSpecLoop hookEvent weight rest
  | rest => rest

/-- The source's injectEnvInPodSpec. -/
def injectEnvInPodSpec (podSpec : Node) (hookEvent : GoString) (weight : Int) : Node :=
  if podSpec.kind ≠ .MappingNode then podSpec
  else podSpec.setContent (injectEnvInPodSpecLoop hookEvent weight podSpec.content)

/-- The source's injectEnvInPodTemplate. -/
def injectEnvInPodTemplate (template : Node) (hookEvent : GoString) (weight : Int) : Node :=
  if template.kind ≠ .MappingNode then template
  else template.setContent
    (updateFirst (str "spec") (fun p => injectEnvInPodSpec p hookEvent weight) template.content)

mutual

/-- The source's injectEnvInSpec. -/
def injectEnvInSpec (hookEvent : GoString) (weight : Int) : Node → Node
  | .mk kind style tag value info content =>
      if kind ≠ .MappingNode then .mk kind style tag value info content
      else .mk kind style tag value info (injectEnvInSpecLoop hookEvent weight content)

/-- The loop of injectEnvInSpec: template and jobTemplate end it, containers
and initContainers are injected in passing. -/
def injectEnvInSpecLoop (hookEvent : GoString) (weight : Int) : List Node → List Node
  | k :: v :: rest =>
      if k.value = str "template" then k :: injectEnvInPodTemplate v hookEvent weight :: rest
      else if k.value = str "jobTemplate" then k :: injectEnvInJobTemplate hookEvent weight v :: rest
      else if k.value = str "containers" ∨ k.value = str "initContainers" then
        k :: injectEnvInContainers v hookEvent weight :: injectEnvInSpecLoop hookEvent weight rest
      else k :: v :: injectEnvInSpecLoop hookEvent weight rest
  | rest => rest

/-- The source's injectEnvInJobTemplate. -/
def injectEnvInJobTemplate (hookEvent : GoString) (weight : Int) : Node → Node
  | .mk kind style tag value info content =>
      if kind ≠ .MappingNode then .mk kind style tag value info content
      else .mk kind style tag value info (injectEnvInJobTemplateLoop hookEvent weight content)

/-- The loop of injectEnvInJobTemplate: the first spec entry. -/
def injectEnvInJobTemplateLoop (hookEvent : GoString) (weight : Int) : List Node → List Node
  | k :: v :: rest =>
      if k.value = str "spec" then k :: injectEnvInSpec hookEvent weight v :: rest
      else k :: v :: injectEnvInJobTemplateLoop hookEvent weight rest
  | rest => rest

end

/-- The source's injectEnvVars. -/
def injectEnvVars (node : Node) (hookEvent : GoString) (weight : Int) : Node :=
  if node.kind ≠ .MappingNode then node
  else node.setContent
    (updateFirst (str "spec") (fun sp => injectEnvInSpec hookEvent weight sp) node.content)

/-- The source's injectEnvVarsOnly. -/
def injectEnvVarsOnly (node : Node) (hookEvent : GoString) (weight : Int) : Node :=
  onContent node (fun content => injectEnvVars content hookEvent weight)

/-! ## naming.go -/

/-- The Kubernetes name limit. -/
def maxNameLength : Nat := 63

/-- The length of the truncation hash suffix. -/
def hashLength : Nat := 8

/-- The source's truncateName: cut to maxLen bytes and drop trailing dashes. -/
def truncateName (name : GoString) (maxLen : Int) : GoString :=
  if (name.length : Int) ≤ maxLen then name
  else trimRightDash (name.take maxLen.toNat)

/-- The source's truncateWithHash. -/
def truncateWithHash (originalName hookEvent : GoString) : GoString :=
  let fullName := originalName ++ str "-" ++ hookEvent
  let hashStr := (hexEncodeToString (sha256Sum256 fullName)).take hashLength
  let hookPart := str "-" ++ hookEvent
  let hashPart := str "-" ++ hashStr
  let separatorLen : Int := hookPart.length + hashPart.length
  let availableLen : Int := maxNameLength - separatorLen
  let availableLen : Int :=
    if availableLen < 1 then
      let availableLen : Int := maxNameLength - hashPart.length - 1
      if availableLen < 1 then 1 else availableLen
    else availableLen
  let truncatedBase := truncateName originalName availableLen
  let result := truncatedBase ++ hookPart ++ hashPart
  let result := if result.length > maxNameLength then result.take maxNameLength else result
  trimRightDash result

/-- The source's GenerateName. -/
def GenerateName (originalName hookEvent : GoString) : GoString :=
  let suffixedName := originalName ++ str "-" ++ hookEvent
  if suffixedName.length ≤ maxNameLength then suffixedName
  else truncateWithHash originalName hookEvent

/-! ## splitter.go and the pipeline of processor.go

The YAML library is an external collaborator. A document is handled as the
tree the decoder built, and the result of processDocument is the list of
trees it hands to marshalNode for output, in order. On the pass-through, the
fast path and the single-event rewrite that tree is the decoder's own tree
with, at most, event names and decimal strings written into it, and its
encoding is left to the library. On the split path the library is part of
the computation: every replica is made from the tree cloneNode reads back
from the encoder's bytes, it carries a generated name, which truncateName
may have cut inside a multi-byte character, and the loop ends with the error
of the first clone or replica the library refuses. There the encoder and the
decoder are the two partial functions of `Yaml`, left open: what is proved
of processDocument holds for every library. -/

/-- The YAML library behind marshalNode and yaml.Unmarshal: the bytes the
encoder writes for a tree and the tree the decoder builds from bytes, none
for an error. The bytes themselves are never looked at. -/
structure Yaml where
  Bytes : Type
  encode : Node → Option Bytes
  decode : Bytes → Option Node

/-- A library that never fails and reads back the tree that was written:
its bytes are the tree itself. The sample runs use it. -/
def exactYaml : Yaml := ⟨Node, some, some⟩

/-- The source's marshalNode. -/
def marshalNode (y : Yaml) (node : Node) : Except HookError y.Bytes :=
  match y.encode node with
  | none => .error .yamlError
  | some data => .ok data

/-- The source's enhanceResource; its error result is always nil. -/
def enhanceResource (node : Node) (hookEvent : GoString) (weight : Int) (envEnabled : Bool) :
    Node :=
  onContent node (fun content =>
    let content := setAnnotation content annotationHookWeight (Itoa weight)
    let content := setAnnotation content annotationHook hookEvent
    let content := removeAnnotation content annotationHookWeights
    if envEnabled then injectEnvVars content hookEvent weight else content)

/-- The result of a 64-bit signed operation: wrapped into -2^63 .. 2^63 - 1. -/
def wrapInt64 (x : Int) : Int :=
  (x + 9223372036854775808) % 18446744073709551616 - 9223372036854775808

/-- The loop of the splitter's itoa: while n > 0, put the byte '0' + n%10 in
front of digits and divide n by 10. -/
def itoaLoop : Nat → Int → GoString → GoString
  | 0, _, digits => digits
  | fuel + 1, n, digits =>
      if n > 0 then itoaLoop fuel (n.tdiv 10) (((48 + n.tmod 10) % 256).toNat :: digits)
      else digits

/-- The splitter's own itoa. The loop runs at most n times, so n steps of
fuel never run out. -/
def itoa (n : Int) : GoString :=
  if n = 0 then str "0"
  else
    let negative : Bool := n < 0
    let n := if negative then wrapInt64 (-n) else n
    let digits := itoaLoop n.toNat n []
    if negative then str "-" ++ digits else digits

/-- The source's updateSplitResource; its error result is always nil. -/
def updateSplitResource (node : Node) (hookEvent : GoString) (weight : Int)
    (newName : GoString) (envEnabled : Bool) : Node :=
  onContent node (fun content =>
    let content := setMetadataName content newName
    let content := setAnnotation content annotationHook hookEvent
    let content := setAnnotation content annotationHookWeight (itoa weight)
    let content := removeAnnotation content annotationHookWeights
    if envEnabled then injectEnvVars content hookEvent weight else content)

/-- The source's cloneNode: the tree is encoded and read back. -/
def cloneNode (y : Yaml) (node : Node) : Except HookError Node :=
  match marshalNode y node with
  | .error e => .error e
  | .ok data =>
      match y.decode data with
      | none => .error .yamlError
      | some cloned => .ok cloned

/-- The source's splitResource: for each hook event in order, a clone of the
node is updated and encoded; the first error of the library ends the loop
with no document. The result holds the updated clones. -/
def splitResource (y : Yaml) (node : Node) (res : Resource) (hooks : List GoString)
    (weights : GoMap Int) (envEnabled nameSuffixEnabled : Bool) :
    Except HookError (List Node) :=
  match hooks with
  | [] => .ok []
  | hookEvent :: rest =>
      match cloneNode y node with
      | .error e => .error e
      | .ok cloned =>
          let newName := if nameSuffixEnabled then GenerateName res.Name hookEvent else res.Name
          let cloned :=
            updateSplitResource cloned hookEvent (weights.at hookEvent) newName envEnabled
          match marshalNode y cloned with
          | .error e => .error e
          | .ok _ =>
              match splitResource y node res rest weights envEnabled nameSuffixEnabled with
              | .error e => .error e
              | .ok results => .ok (cloned :: results)

/-- The env toggle: enabled unless helm.sh/hook-env is present and does not
lower to "true". -/
def envEnabledOf (annotations : GoMap GoString) : Bool :=
  match annotations annotationHookEnv with
  | some envVal => ToLower envVal = str "true"
  | none => true

/-- The name-suffix toggle: enabled unless helm.sh/hook-name-suffix is
present and lowers to "false". -/
def nameSuffixEnabledOf (annotations : GoMap GoString) : Bool :=
  match annotations annotationHookNameSuffix with
  | some suffixVal => ToLower suffixVal ≠ str "false"
  | none => true

/-- The hook events of a resource, the first half of processDocument. -/
def resolveHooks (res : Resource) : Except HookError (List GoString) :=
  match res.Annotations annotationHook, res.Annotations annotationHookWeights with
  | none, some weightsValue =>
      match extractHooksFromWeights weightsValue with
      | .error e => .error (.inResource res.Name e)
      | .ok hooks => .ok hooks
  | hookValue, _ =>
      let hooks := parseHookEvents (hookValue.getD [])
      if hooks.length = 0 then .error (.emptyHook res.Name) else .ok hooks

/-- The source's processDocument: the documents handed to the encoder, or
the error; for two or more events, the result of splitResource. -/
def processDocument (y : Yaml) (node : Node) : Except HookError (List Node) :=
  let res := parseResource node
  let hasHook := (res.Annotations annotationHook).isSome
  let hasWeights := (res.Annotations annotationHookWeights).isSome
  let hasWeight := (res.Annotations annotationHookWeight).isSome
  let weightValue := (res.Annotations annotationHookWeight).getD []
  if !hasHook && !hasWeights then .ok [node]
  else
    match resolveHooks res with
    | .error e => .error e
    | .ok hooks =>
        match validateHooks hooks res.Name with
        | .error e => .error e
        | .ok _ =>
            if hooks.length = 1 ∧ !hasWeights ∧ (!hasWeight ∨ isSingleValidWeight weightValue) then
              if envEnabledOf res.Annotations then
                let weight : Int :=
                  if hasWeight then (Atoi (TrimSpace weightValue)).getD 0 else 0
                .ok [injectEnvVarsOnly node (hooks.getD 0 []) weight]
              else .ok [node]
            else
              match parseWeights res.Annotations hooks with
              | .error e => .error (.inResource res.Name e)
              | .ok weights =>
                  let envEnabled := envEnabledOf res.Annotations
                  let nameSuffixEnabled := nameSuffixEnabledOf res.Annotations
                  if hooks.length = 1 then
                    .ok [enhanceResource node (hooks.getD 0 [])
                          (weights.at (hooks.getD 0 [])) envEnabled]
                  else splitResource y node res hooks weights envEnabled nameSuffixEnabled

/-- The source's combineDocuments: the documents joined by "---\n". -/
def combineDocuments : List GoString → GoString
  | [] => []
  | doc :: docs => docs.foldl (fun result d => result ++ str "---\n" ++ d) doc

/-- How many entries of a mapping have the key. -/
def countKey (key : GoString) : List Node → Nat
  | k :: _ :: rest => (if k.value = key then 1 else 0) + countKey key rest
  | _ => 0

/-- The value of the first entry of a mapping with the key. -/
def lookupKey (key : GoString) : List Node → Option Node
  | k :: v :: rest => if k.value = key then some v else lookupKey key rest
  | _ => none

/-- The name the descriptor reads from a root mapping. -/
def rootName (n : Node) : GoString :=
  (parseResourceLoop n.content ⟨[], [], GoMap.empty⟩).Name

/-- The keys of a mapping, in order. -/
def keysOf : List Node → List GoString
  | k :: _ :: rest => k.value :: keysOf rest
  | _ => []

/-- The root mapping has exactly one metadata entry, a mapping with exactly
one annotations entry, the mapping an. -/
def AnnotationsAt (root an : Node) : Prop :=
  root.kind = .MappingNode ∧
    ∃ md, countKey (str "metadata") root.content = 1 ∧
      lookupKey (str "metadata") root.content = some md ∧ md.kind = .MappingNode ∧
      countKey (str "annotations") md.content = 1 ∧
      lookupKey (str "annotations") md.content = some an ∧ an.kind = .MappingNode

/-- The annotations mapping the mutators reach: the first annotations entry
of the first metadata entry of the root. -/
def annotationsNode (doc : Node) : Option Node :=
  match lookupKey (str "metadata") (documentContent doc).content with
  | some md => lookupKey (str "annotations") md.content
  | none => none

/-- Every weight of the map is at least the least 64-bit integer. -/
def WeightsInRange (m : GoMap Int) : Prop :=
  ∀ k v, m k = some v → -9223372036854775808 ≤ v

/-- A plain scalar as the decoder builds it for the text s. -/
def plain (s : String) : Node := scalarNode (str s)

/-- A mapping node with the given keys and values. -/
def mappingOf (content : List Node) : Node :=
  .mk .MappingNode 0 [] [] NodeInfo.zero content

/-- A sequence node with the given items. -/
def sequenceOf (content : List Node) : Node :=
  .mk .SequenceNode 0 [] [] NodeInfo.zero content

/-- A document node around its root. -/
def documentOf (root : Node) : Node :=
  .mk .DocumentNode 0 [] [] NodeInfo.zero [root]

/-- A Job with two hook events that leaves its name to the API server
(metadata.generateName and no metadata.name). -/
def namelessHookJob : Node :=
  documentOf (mappingOf
    [plain "kind", plain "Job",
     plain "metadata", mappingOf
       [plain "generateName", plain "migrate-",
        plain "annotations", mappingOf
          [plain "helm.sh/hook", plain "pre-install,post-install"]]])

/-- A Job with two hook events whose metadata holds two name entries; the
descriptor reads the last one. -/
def twoNamesHookJob : Node :=
  documentOf (mappingOf
    [plain "kind", plain "Job",
     plain "metadata", mappingOf
       [plain "name", plain "first",
        plain "name", plain "second",
        plain "annotations", mappingOf
          [plain "helm.sh/hook", plain "pre-install,post-install"]]])

/-- The Job of TestProcess_MultiHook. -/
def multiHookJob : Node :=
  documentOf (mappingOf
    [plain "apiVersion", plain "batch/v1",
     plain "kind", plain "Job",
     plain "metadata", mappingOf
       [plain "name", plain "myapp-migration",
        plain "annotations", mappingOf
          [plain "helm.sh/hook", plain "pre-install,post-upgrade",
           plain "helm.sh/hook-weight", plain "-100,200"]],
     plain "spec", mappingOf
       [plain "template", mappingOf
          [plain "spec", mappingOf
             [plain "containers", sequenceOf
                [mappingOf [plain "name", plain "migrate", plain "image", plain "busybox"]]]]]])

/-- The Job of TestProcess_MultiHook with the least 64-bit weight for its
first event. -/
def minWeightJob : Node :=
  documentOf (mappingOf
    [plain "apiVersion", plain "batch/v1",
     plain "kind", plain "Job",
     plain "metadata", mappingOf
       [plain "name", plain "myapp-migration",
        plain "annotations", mappingOf
          [plain "helm.sh/hook", plain "pre-install,post-upgrade",
           plain "helm.sh/hook-weight", plain "-9223372036854775808,200"]],
     plain "spec", mappingOf
       [plain "template", mappingOf
          [plain "spec", mappingOf
             [plain "containers", sequenceOf
                [mappingOf [plain "name", plain "migrate", plain "image", plain "busybox"]]]]]])

/-! ## The pairs of helm.sh/hook-weights, as the claims read them -/

/-- The event a pair 'event=weight' names: its trimmed key; none for an
empty pair and for a pair without '='. -/
def pairKey (pair : GoString) : Option GoString :=
  if TrimSpace pair = [] then none
  else
    match SplitN2 (TrimSpace pair) equalsSign with
    | [k, _] => some (TrimSpace k)
    | _ => none

/-- The integer a pair 'event=weight' gives: its trimmed weight read as a
decimal integer. -/
def pairInt (pair : GoString) : Option Int :=
  match SplitN2 (TrimSpace pair) equalsSign with
  | [_, w] => Atoi (TrimSpace w)
  | _ => none

/-- A pair that parseExplicitWeights passes over: an empty one, or one that
names a listed event and gives an integer. -/
def pairAccepted (hooks : List GoString) (pair : GoString) : Prop :=
  TrimSpace pair = [] ∨ ∃ k w, pairKey pair = some k ∧ k ∈ hooks ∧ pairInt pair = some w

/-- The keys of a map are the listed events. -/
def KeysAre (m : GoMap Int) (hooks : List GoString) : Prop :=
  ∀ k, (m k).isSome = true ↔ k ∈ hooks

/-! ## The text of a helm.sh/hook-weights value -/

/-- A string of white-space runes (unicode.IsSpace) in UTF-8. -/
inductive Spaces : GoString → Prop
  | nil : Spaces []
  | one (b : Nat) (rest : GoString) : isSpace1 b = true → Spaces rest → Spaces (b :: rest)
  | two (b c : Nat) (rest : GoString) : isSpace2 b c = true → Spaces rest →
      Spaces (b :: c :: rest)
  | three (b c d : Nat) (rest : GoString) : isSpace3 b c d = true → Spaces rest →
      Spaces (b :: c :: d :: rest)

/-- An ASCII byte that is not white space. -/
def plainByte (b : Nat) : Bool := b < 128 && !isSpace1 b

/-- A string that begins and ends with an ASCII byte that is not white
space. -/
def plainEnds (s : GoString) : Bool :=
  (s.head?.map plainByte).getD false && (s.getLast?.map plainByte).getD false

/-- Go strings.Join(pieces, ","). -/
def joinComma : List GoString → GoString
  | [] => []
  | [a] => a
  | a :: b :: rest => a ++ comma :: joinComma (b :: rest)

/-- One pair of a helm.sh/hook-weights value as it is written: an event and
the text of an integer around '=', with white space allowed before, between
and after them. -/
structure WeightPair where
  lead : GoString
  event : GoString
  gap1 : GoString
  gap2 : GoString
  digits : GoString
  trail : GoString
  weight : Int

/-- The text of the pair. -/
def WeightPair.text (p : WeightPair) : GoString :=
  p.lead ++ p.event ++ p.gap1 ++ [equalsSign] ++ p.gap2 ++ p.digits ++ p.trail

/-- The pair is well written: white space where white space is allowed, an
event of the vocabulary, and digits that read as the integer. -/
def WeightPair.WellFormed (p : WeightPair) : Prop :=
  Spaces p.lead ∧ Spaces p.gap1 ∧ Spaces p.gap2 ∧ Spaces p.trail ∧
    p.event ∈ validHooks ∧ Atoi p.digits = some p.weight

/-! ## Frames: what the env injection may change, and sample documents -/

/-- The second tree is the first one up to the env entries of mappings: the
trees agree node by node, except that a mapping may have the value of its
first env entry replaced, or an env entry added at its end. -/
inductive EnvOnly : Node → Node → Prop
  | same (n : Node) : EnvOnly n n
  | children (kind : Kind) (style : Nat) (tag value : GoString) (info : NodeInfo)
      (c1 c2 : List Node) : List.Forall₂ EnvOnly c1 c2 →
      EnvOnly (.mk kind style tag value info c1) (.mk kind style tag value info c2)
  | envValue (n e : Node) : n.kind = .MappingNode →
      EnvOnly n (n.setContent (updateFirst (str "env") (fun _ => e) n.content))
  | envAdded (n e : Node) : n.kind = .MappingNode →
      EnvOnly n (n.setContent (n.content ++ [scalarNode (str "env"), e]))

/-- The Job of TestProcess_SingleHook with a weight: one hook event and a
single integer weight. -/
def singleHookJob : Node :=
  documentOf (mappingOf
    [plain "apiVersion", plain "batch/v1",
     plain "kind", plain "Job",
     plain "metadata", mappingOf
       [plain "name", plain "myapp-migration",
        plain "annotations", mappingOf
          [plain "helm.sh/hook", plain "pre-install",
           plain "helm.sh/hook-weight", plain " 5"]],
     plain "spec", mappingOf
       [plain "template", mappingOf
          [plain "spec", mappingOf
             [plain "containers", sequenceOf
                [mappingOf [plain "name", plain "migrate", plain "image", plain "busybox"]]]]]])

/-- A ConfigMap that carries helm.sh/hook-weight and no hook annotation. -/
def weightOnlyConfigMap : Node :=
  documentOf (mappingOf
    [plain "kind", plain "ConfigMap",
     plain "metadata", mappingOf
       [plain "name", plain "settings",
        plain "annotations", mappingOf [plain "helm.sh/hook-weight", plain "5"]],
     plain "data", mappingOf [plain "key", plain "value"]])

/-- The values of all the entries of a mapping with the key, in order. -/
def valuesAt (key : GoString) : List Node → List Node
  | k :: v :: rest => if k.value = key then v :: valuesAt key rest else valuesAt key rest
  | _ => []

/-- The value of the first entry with the key, for a mapping node. -/
def child (key : GoString) (n : Node) : Option Node :=
  if n.kind = .MappingNode then lookupKey key n.content else none

/-- The mapping entries of a containers list: none when the node is not a
sequence. -/
def itemsOf (list : Node) : List Node :=
  if list.kind = .SequenceNode then list.content.filter (fun c => c.kind = .MappingNode) else []

/-- The mapping entries of every containers or initContainers list of a pod
spec. -/
def containersOf (podSpec : Node) : List Node :=
  if podSpec.kind = .MappingNode then
    (valuesAt (str "containers") podSpec.content ++
      valuesAt (str "initContainers") podSpec.content).flatMap itemsOf
  else []

/-- The pod spec of a Job-shaped spec: spec.template.spec. -/
def templatePodSpec (spec : Node) : Option Node :=
  (child (str "template") spec).bind (child (str "spec"))

/-- The pod specs the claims name for a root mapping: spec itself,
spec.template.spec and spec.jobTemplate.spec.template.spec. -/
def podSpecs (root : Node) : List Node :=
  let spec := child (str "spec") root
  spec.toList ++ (spec.bind templatePodSpec).toList ++
    (((spec.bind (child (str "jobTemplate"))).bind (child (str "spec"))).bind
      templatePodSpec).toList

/-- Every mapping entry of every containers or initContainers list located
directly under spec, under spec.template.spec, or under
spec.jobTemplate.spec.template.spec. -/
def containerTargets (root : Node) : List Node :=
  (podSpecs root).flatMap containersOf

/-- Whether an env item is a mapping named name whose value entry is a
scalar that holds value. -/
def envItemIs (name value : GoString) (item : Node) : Bool :=
  item.kind = .MappingNode && itemHasName name item.content &&
    ((lookupKey (str "value") item.content).map (fun v => (v.kind, v.value)) ==
      some (.ScalarNode, value))

/-- Whether the container has an env list with an entry named name with
value value. -/
def hasEnvVar (container : Node) (name value : GoString) : Bool :=
  match lookupKey (str "env") container.content with
  | some env => env.kind = .SequenceNode && env.content.any (envItemIs name value)
  | none => false

mutual

/-- Every mapping node of the tree holds its keys and values in pairs, as in
every tree the decoder builds. -/
def Node.paired : Node → Bool
  | .mk kind _ _ _ _ content =>
      (kind != .MappingNode || content.length % 2 == 0) && pairedList content

/-- Every tree of the list is paired. -/
def pairedList : List Node → Bool
  | [] => true
  | n :: rest => n.paired && pairedList rest

end

/-- The env item addOrUpdateEnvVar appends: name and quoted value. -/
def newEnvItem (name value : GoString) : Node :=
  .mk .MappingNode 0 [] [] NodeInfo.zero
    [scalarNode (str "name"), scalarNode name, scalarNode (str "value"), quotedNode value]

/-- The env item after addOrUpdateEnvVar has written the value into it. -/
def withEnvValue (value : GoString) (item : Node) : Node :=
  item.setContent (setEnvValueLoop value item.content)

/-- An env item the loop of addOrUpdateEnvVar takes for the variable: a
mapping with an entry name: <name>. -/
def itemNamed (name : GoString) (item : Node) : Prop :=
  item.kind = .MappingNode ∧ itemHasName name item.content = true

instance (name : GoString) (item : Node) : Decidable (itemNamed name item) := by
  unfold itemNamed; infer_instance

/-- The metadata.name node of a document: the first name entry of the first
metadata entry of a root mapping, metadata being a mapping. -/
def nameNode (doc : Node) : Option Node :=
  (child (str "metadata") (documentContent doc)).bind (child (str "name"))

/-- The root of the document is a mapping with exactly one metadata entry, a
mapping with exactly one name entry, a scalar. -/
def NamedOnce (doc : Node) : Prop :=
  (documentContent doc).kind = .MappingNode ∧
    ∃ md, countKey (str "metadata") (documentContent doc).content = 1 ∧
      lookupKey (str "metadata") (documentContent doc).content = some md ∧
      md.kind = .MappingNode ∧ countKey (str "name") md.content = 1 ∧
      ∃ n, lookupKey (str "name") md.content = some n ∧ n.kind = .ScalarNode

/-- The tree splitResource hands to marshalNode for one hook event: the
clone after updateSplitResource. -/
def splitReplica (res : Resource) (weights : GoMap Int) (envEnabled nameSuffixEnabled : Bool)
    (cloned : Node) (hookEvent : GoString) : Node :=
  updateSplitResource cloned hookEvent (weights.at hookEvent)
    (if nameSuffixEnabled then GenerateName res.Name hookEvent else res.Name) envEnabled

/-- The containers of a Job-shaped root: the mapping entries of the
containers and initContainers lists under spec.template.spec. -/
def jobContainers (root : Node) : List Node :=
  ((child (str "spec") root).bind templatePodSpec).toList.flatMap containersOf

/-- A CronJob with an init container and a container that already sets
HELM_HOOK_WEIGHT. -/
def cronJobSample : Node :=
  mappingOf
    [plain "kind", plain "CronJob",
     plain "metadata", mappingOf [plain "name", plain "nightly"],
     plain "spec", mappingOf
       [plain "schedule", plain "0 3 * * *",
        plain "jobTemplate", mappingOf
          [plain "spec", mappingOf
             [plain "template", mappingOf
                [plain "spec", mappingOf
                   [plain "initContainers", sequenceOf
                      [mappingOf [plain "name", plain "wait", plain "image", plain "busybox"]],
                    plain "containers", sequenceOf
                      [mappingOf
                         [plain "name", plain "run",
                          plain "env", sequenceOf
                            [mappingOf [plain "name", plain "HELM_HOOK_WEIGHT",
                                        plain "value", plain "1"]]]]]]]]]]

/-- A root whose spec lists its containers after a template entry. -/
def templateFirstPod : Node :=
  mappingOf
    [plain "spec", mappingOf
       [plain "template", mappingOf
          [plain "spec", mappingOf
             [plain "containers", sequenceOf [mappingOf [plain "name", plain "inner"]]]],
        plain "containers", sequenceOf [mappingOf [plain "name", plain "outer"]]]]

/-- A Pod whose container has an env entry that carries both variable names. -/
def doubleNamePod : Node :=
  mappingOf
    [plain "spec", mappingOf
       [plain "containers", sequenceOf
          [mappingOf
             [plain "name", plain "main",
              plain "env", sequenceOf
                [mappingOf [plain "name", plain "HELM_HOOK_EVENT",
                            plain "name", plain "HELM_HOOK_WEIGHT",
                            plain "value", plain "x"]]]]]]

/-- The Job of TestProcess_SingleHook whose container has an env entry that
carries both variable names. -/
def doubleNameJob : Node :=
  documentOf (mappingOf
    [plain "apiVersion", plain "batch/v1",
     plain "kind", plain "Job",
     plain "metadata", mappingOf
       [plain "name", plain "myapp-migration",
        plain "annotations", mappingOf [plain "helm.sh/hook", plain "pre-install"]],
     plain "spec", mappingOf
       [plain "template", mappingOf
          [plain "spec", mappingOf
             [plain "containers", sequenceOf
                [mappingOf
                   [plain "name", plain "migrate",
                    plain "env", sequenceOf
                      [mappingOf [plain "name", plain "HELM_HOOK_EVENT",
                                  plain "name", plain "HELM_HOOK_WEIGHT",
                                  plain "value", plain "x"]]]]]]]])

/-! ## Digest-independent naming -/

/-- The source's truncateWithHash with the hexadecimal digest of the full
name left open: hash stands for hex.EncodeToString(sha256.Sum256(.)). -/
def truncateWithHashBy (hash : GoString → GoString) (originalName hookEvent : GoString) :
    GoString :=
  let fullName := originalName ++ str "-" ++ hookEvent
  let hashStr := (hash fullName).take hashLength
  let hookPart := str "-" ++ hookEvent
  let hashPart := str "-" ++ hashStr
  let separatorLen : Int := hookPart.length + hashPart.length
  let availableLen : Int := maxNameLength - separatorLen
  let availableLen : Int :=
    if availableLen < 1 then
      let availableLen : Int := maxNameLength - hashPart.length - 1
      if availableLen < 1 then 1 else availableLen
    else availableLen
  let truncatedBase := truncateName originalName availableLen
  let result := truncatedBase ++ hookPart ++ hashPart
  let result := if result.length > maxNameLength then result.take maxNameLength else result
  trimRightDash result

/-- The source's GenerateName with the digest left open. -/
def GenerateNameBy (hash : GoString → GoString) (originalName hookEvent : GoString) : GoString :=
  let suffixedName := originalName ++ str "-" ++ hookEvent
  if suffixedName.length ≤ maxNameLength then suffixedName
  else truncateWithHashBy hash originalName hookEvent

/-- A digest function whose first eight characters are always there and
hexadecimal. -/
def HexDigest (hash : GoString → GoString) : Prop :=
  ∀ s, ((hash s).take hashLength).length = 8 ∧ ∀ c ∈ (hash s).take hashLength, isHexChar c = true

/-! ## Further samples and the validator's failure tests -/

/-- Whether a result is an error. -/
def failed {α : Type} : Except HookError α → Bool
  | .error _ => true
  | .ok _ => false

/-- Whether a result is an error other than the invalid-weight error of
parseWeights (a helm.sh/hook-weight part that is not an integer). -/
def failedOtherThanWeightValue {α : Type} : Except HookError α → Bool
  | .error (.invalidWeight _) => false
  | .error _ => true
  | .ok _ => false

/-- The claim's reading of a failing resolution of an annotation map whose
helm.sh/hook value is hookValue: parseHookEvents yields no event, or
validateHooks rejects the events, or parseWeights returns an error. -/
def resolutionFails (annotations : GoMap GoString) (resourceName hookValue : GoString) : Bool :=
  let hooks := parseHookEvents hookValue
  decide (hooks.length = 0) || failed (validateHooks hooks resourceName) ||
    failed (parseWeights annotations hooks)

/-- A ConfigMap with one hook event and a helm.sh/hook-weight that is not an
integer. -/
def wordWeightConfigMap : Node :=
  documentOf (mappingOf
    [plain "kind", plain "ConfigMap",
     plain "metadata", mappingOf
       [plain "name", plain "cfg",
        plain "annotations", mappingOf
          [plain "helm.sh/hook", plain "pre-install",
           plain "helm.sh/hook-weight", plain "abc"]]])

/-- A ConfigMap with two hook events and two helm.sh/hook-weight parts, the
second not an integer. -/
def wordWeightsConfigMap : Node :=
  documentOf (mappingOf
    [plain "kind", plain "ConfigMap",
     plain "metadata", mappingOf
       [plain "name", plain "cfg",
        plain "annotations", mappingOf
          [plain "helm.sh/hook", plain "pre-install,post-install",
           plain "helm.sh/hook-weight", plain "1,x"]]])

/-! ## The error results of the tree mutators

The mutators above return the tree; these are the error results of the same
source functions, one branch for each return statement, none for nil.
removeAnnotation and its helpers have no error result in the source. -/

/-- The error result of setAnnotationValue. -/
def setAnnotationValueErr (annotations : Node) (key _value : GoString) : Option HookError :=
  if annotations.kind ≠ .MappingNode then none
  else if hasKey key annotations.content then none
  else none

/-- The error result of setAnnotationInMetadata. -/
def setAnnotationInMetadataErr (metadata : Node) (key value : GoString) : Option HookError :=
  if metadata.kind ≠ .MappingNode then none
  else
    match lookupKey (str "annotations") metadata.content with
    | some annotations => setAnnotationValueErr annotations key value
    | none => none

/-- The error result of setAnnotation. -/
def setAnnotationErr (node : Node) (key value : GoString) : Option HookError :=
  if node.kind ≠ .MappingNode then none
  else
    match lookupKey (str "metadata") node.content with
    | some metadata => setAnnotationInMetadataErr metadata key value
    | none => none

/-- The error result of setNameInMetadata. -/
def setNameInMetadataErr (metadata : Node) (_name : GoString) : Option HookError :=
  if metadata.kind ≠ .MappingNode then none
  else if hasKey (str "name") metadata.content then none
  else none

/-- The error result of setMetadataName. -/
def setMetadataNameErr (node : Node) (name : GoString) : Option HookError :=
  if node.kind ≠ .MappingNode then none
  else
    match lookupKey (str "metadata") node.content with
    | some metadata => setNameInMetadataErr metadata name
    | none => none

/-- The error result of injectEnvInPodSpec. -/
def injectEnvInPodSpecErr (podSpec : Node) (_hookEvent : GoString) (_weight : Int) :
    Option HookError :=
  if podSpec.kind ≠ .MappingNode then none else none

/-- The error result of injectEnvInPodTemplate. -/
def injectEnvInPodTemplateErr (template : Node) (hookEvent : GoString) (weight : Int) :
    Option HookError :=
  if template.kind ≠ .MappingNode then none
  else
    match lookupKey (str "spec") template.content with
    | some podSpec => injectEnvInPodSpecErr podSpec hookEvent weight
    | none => none

mutual

/-- The error result of injectEnvInSpec. -/
def injectEnvInSpecErr (hookEvent : GoString) (weight : Int) : Node → Option HookError
  | .mk kind _ _ _ _ content =>
      if kind ≠ .MappingNode then none
      else injectEnvInSpecLoopErr hookEvent weight content

/-- The error result of the loop of injectEnvInSpec. -/
def injectEnvInSpecLoopErr (hookEvent : GoString) (weight : Int) : List Node → Option HookError
  | k :: v :: rest =>
      if k.value = str "template" then injectEnvInPodTemplateErr v hookEvent weight
      else if k.value = str "jobTemplate" then injectEnvInJobTemplateErr hookEvent weight v
      else injectEnvInSpecLoopErr hookEvent weight rest
  | _ => none

/-- The error result of injectEnvInJobTemplate. -/
def injectEnvInJobTemplateErr (hookEvent : GoString) (weight : Int) : Node → Option HookError
  | .mk kind _ _ _ _ content =>
      if kind ≠ .MappingNode then none
      else injectEnvInJobTemplateLoopErr hookEvent weight content

/-- The error result of the loop of injectEnvInJobTemplate. -/
def injectEnvInJobTemplateLoopErr (hookEvent : GoString) (weight : Int) :
    List Node → Option HookError
  | k :: v :: rest =>
      if k.value = str "spec" then injectEnvInSpecErr hookEvent weight v
      else injectEnvInJobTemplateLoopErr hookEvent weight rest
  | _ => none

end

/-- The error result of injectEnvVars. -/
def injectEnvVarsErr (node : Node) (hookEvent : GoString) (weight : Int) : Option HookError :=
  if node.kind ≠ .MappingNode then none
  else
    match lookupKey (str "spec") node.content with
    | some spec => injectEnvInSpecErr hookEvent weight spec
    | none => none

/-- The annotations mapping setAnnotation and removeAnnotation write to: the
value of the first annotations entry of the first metadata entry of a root
mapping, when metadata and that value are mappings. -/
def annotationsMapping (root : Node) : Option Node :=
  ((child (str "metadata") root).bind (child (str "annotations"))).filter
    (fun an => an.kind = .MappingNode)

/-- A ConfigMap without annotations. -/
def bareConfigMap : Node :=
  mappingOf
    [plain "kind", plain "ConfigMap",
     plain "metadata", mappingOf [plain "labels", mappingOf [plain "app", plain "web"]],
     plain "data", mappingOf [plain "key", plain "value"]]

/-- A ConfigMap with one annotation and a spec that is a scalar. -/
def annotatedConfigMap : Node :=
  mappingOf
    [plain "kind", plain "ConfigMap",
     plain "metadata", mappingOf
       [plain "annotations", mappingOf [plain "helm.sh/hook", plain "pre-install"]],
     plain "spec", plain "none"]

/-! ## The text of a helm.sh/hook value, and value nodes as the claims read them -/

/-- One comma-separated segment of a helm.sh/hook value as it is written: an
element with white space before and after it, or white space only. -/
structure HookSegment where
  lead : GoString
  element : Option GoString
  trail : GoString

/-- The text of the segment. -/
def HookSegment.text (s : HookSegment) : GoString :=
  s.lead ++ s.element.getD [] ++ s.trail

/-- The segment is well written: white space where white space is allowed,
and an element that is not empty, holds no comma, and neither starts nor ends
with a white-space rune. -/
def HookSegment.WellFormed (s : HookSegment) : Prop :=
  Spaces s.lead ∧ Spaces s.trail ∧
    ∀ e, s.element = some e →
      e ≠ [] ∧ comma ∉ e ∧ spaceWidth e = 0 ∧ spaceWidthRev e.reverse = 0

/-- The elements of the segments, in order. -/
def elementsOf (segments : List HookSegment) : List GoString :=
  segments.filterMap (fun s => s.element)

/-- An env list whose first entry names HELM_HOOK_EVENT and holds a list as
its value. -/
def listValueEnv : Node :=
  sequenceOf
    [mappingOf [plain "name", plain "HELM_HOOK_EVENT", plain "value", sequenceOf [plain "a"]],
     mappingOf [plain "name", plain "OTHER", plain "value", plain "x"]]

/-- A Job with one hook event whose container has the env list listValueEnv. -/
def listValueEnvJob : Node :=
  documentOf (mappingOf
    [plain "apiVersion", plain "batch/v1",
     plain "kind", plain "Job",
     plain "metadata", mappingOf
       [plain "name", plain "myapp-migration",
        plain "annotations", mappingOf [plain "helm.sh/hook", plain "pre-install"]],
     plain "spec", mappingOf
       [plain "template", mappingOf
          [plain "spec", mappingOf
             [plain "containers", sequenceOf
                [mappingOf [plain "name", plain "migrate", plain "env", listValueEnv]]]]]])

/-- What the claims read of a value node: kind, value, tag and style. -/
def nodeHeader (n : Node) : Kind × GoString × GoString × Nat :=
  (n.kind, n.value, n.tag, n.style)

/-- The headers of the value nodes of the entries of an env list, in order. -/
def envValueHeaders (env : Node) : List (Option (Kind × GoString × GoString × Nat)) :=
  env.content.map (fun item => (lookupKey (str "value") item.content).map nodeHeader)

/-- A ConfigMap with one hook event, an explicit weight mapping, and a
helm.sh/hook-weight annotation that holds a list. -/
def listWeightConfigMap : Node :=
  mappingOf
    [plain "kind", plain "ConfigMap",
     plain "metadata", mappingOf
       [plain "name", plain "cfg",
        plain "annotations", mappingOf
          [plain "helm.sh/hook", plain "pre-install",
           plain "helm.sh/hook-weights", plain "pre-install=5",
           plain "helm.sh/hook-weight", sequenceOf [plain "1"]]]]

/-- The header of the value node of an annotation, as setAnnotation reaches
it. -/
def annotationHeader (root : Node) (key : GoString) :
    Option (Kind × GoString × GoString × Nat) :=
  ((annotationsMapping root).bind (fun an => lookupKey key an.content)).map nodeHeader

/-! # Theorems -/

/-! ## Properties of the name generator -/

theorem trimRightDash_length_le (s : GoString) : (trimRightDash s).length ≤ s.length :=
  (List.rdropWhile_prefix (fun b => b == dash) s).length_le

theorem endsWithDash_trimRightDash (s : GoString) : endsWithDash (trimRightDash s) = false := by
  unfold endsWithDash trimRightDash
  by_cases h : List.rdropWhile (fun b => b == dash) s = []
  · rw [h]; rfl
  · have hlast := List.rdropWhile_last_not (fun b => b == dash) s h
    rw [List.getLast?_eq_getLast _ h]
    simpa using hlast

theorem endsWithDash_append (s t : GoString) (ht : t ≠ []) :
    endsWithDash (s ++ t) = endsWithDash t := by
  unfold endsWithDash
  rw [List.getLast?_append_of_ne_nil _ ht]

theorem str_dash : str "-" = [dash] := by decide

theorem GenerateName_eq (base event : GoString) :
    GenerateName base event =
      if (base ++ str "-" ++ event).length ≤ maxNameLength then base ++ str "-" ++ event
      else truncateWithHash base event := rfl

theorem cap_length_le (r : GoString) :
    (if r.length > maxNameLength then r.take maxNameLength else r).length ≤ 63 := by
  split
  · rw [List.length_take]; exact Nat.min_le_left _ _
  · rename_i h; simpa [maxNameLength] using h

/-- C3. The length of GenerateName(base, event) is at most 63, whatever the
lengths of base and event. -/
theorem GenerateName_length_le_63 (base event : GoString) :
    (GenerateName base event).length ≤ 63 := by
  rw [GenerateName_eq]
  by_cases h : (base ++ str "-" ++ event).length ≤ maxNameLength
  · rw [if_pos h]; exact h
  · rw [if_neg h]
    unfold truncateWithHash
    exact le_trans (trimRightDash_length_le _) (cap_length_le _)

theorem GenerateName_of_fits (base event : GoString)
    (h : base.length + 1 + event.length ≤ 63) :
    GenerateName base event = base ++ str "-" ++ event := by
  have h2 : (base ++ str "-" ++ event).length ≤ maxNameLength := by
    simp only [str_dash, maxNameLength, List.length_append, List.length_singleton]; omega
  rw [GenerateName_eq, if_pos h2]

/-- C5. When len(base) + 1 + len(event) is at most 63, GenerateName returns
base + "-" + event unchanged. -/
theorem GenerateName_short (base event : GoString)
    (h : base.length + 1 + event.length ≤ 63) :
    GenerateName base event = base ++ str "-" ++ event :=
  GenerateName_of_fits base event h

theorem GenerateName_short_witness :
    (str "myapp").length + 1 + (str "pre-install").length ≤ 63 ∧
      GenerateName (str "myapp") (str "pre-install") = str "myapp-pre-install" :=
  ⟨by decide, (GenerateName_short (str "myapp") (str "pre-install") (by decide)).trans (by decide)⟩

/-- C4, refuted as stated: on the short path the name is returned unchanged,
so an event that ends with the separator gives a name that ends with it. -/
theorem GenerateName_trailing_dash_counterexample :
    GenerateName (str "app") (str "pre-") = str "app-pre-" ∧
      endsWithDash (GenerateName (str "app") (str "pre-")) = true := by
  decide

/-- C4, amended. GenerateName(base, event) does not end with the separator
when the event is non-empty and does not end with it, or when
base + "-" + event is longer than 63 bytes (the truncating path). -/
theorem GenerateName_no_trailing_dash (base event : GoString)
    (h : (event ≠ [] ∧ endsWithDash event = false) ∨ 63 < base.length + 1 + event.length) :
    endsWithDash (GenerateName base event) = false := by
  rw [GenerateName_eq]
  by_cases hlen : (base ++ str "-" ++ event).length ≤ maxNameLength
  · rw [if_pos hlen]
    rcases h with ⟨hne, hev⟩ | hlong
    · rw [endsWithDash_append _ _ hne]; exact hev
    · simp only [str_dash, maxNameLength, List.length_append, List.length_singleton] at hlen
      omega
  · rw [if_neg hlen]
    unfold truncateWithHash
    exact endsWithDash_trimRightDash _

theorem GenerateName_no_trailing_dash_witness :
    endsWithDash (GenerateName (str "app-") (str "post-upgrade")) = false :=
  GenerateName_no_trailing_dash (str "app-") (str "post-upgrade") (Or.inl (by decide))

/-- C6, refuted as stated: two distinct events longer than the limit are cut
to the same 63 bytes, whatever their hashes. -/
theorem GenerateName_collision_counterexample :
    List.replicate 59 97 ++ str "x" ≠ List.replicate 59 97 ++ str "y" ∧
      GenerateName (str "app") (List.replicate 59 97 ++ str "x") =
        GenerateName (str "app") (List.replicate 59 97 ++ str "y") := by
  decide

theorem hexEncodeToString_append (a b : List Nat) :
    hexEncodeToString (a ++ b) = hexEncodeToString a ++ hexEncodeToString b := by
  simp [hexEncodeToString]

theorem hexDigit_isHex : ∀ n, n < 16 → isHexChar (hexDigit n) = true := by
  decide

/-- The hash suffix is the hex form of the first digest word. -/
theorem hashStr_eq (s : GoString) :
    ∃ w, (hexEncodeToString (sha256Sum256 s)).take hashLength = hexEncodeToString (wordBytes w) := by
  refine ⟨(sha256Blocks (sha256Words (sha256Pad s)).length sha256Init
    (sha256Words (sha256Pad s))).a, ?_⟩
  unfold sha256Sum256
  simp only [hexEncodeToString_append, List.append_assoc]
  exact List.take_left' rfl

theorem hashStr_length (s : GoString) :
    ((hexEncodeToString (sha256Sum256 s)).take hashLength).length = 8 := by
  obtain ⟨w, hw⟩ := hashStr_eq s
  rw [hw]; rfl

theorem hashStr_hex (s : GoString) :
    ∀ c ∈ (hexEncodeToString (sha256Sum256 s)).take hashLength, isHexChar c = true := by
  obtain ⟨w, hw⟩ := hashStr_eq s
  rw [hw]
  intro c hc
  simp only [hexEncodeToString, wordBytes, List.flatMap_cons, List.flatMap_nil, List.cons_append,
    List.nil_append, List.mem_cons, List.mem_singleton, List.not_mem_nil, or_false] at hc
  rcases hc with h | h | h | h | h | h | h | h <;> subst h <;> apply hexDigit_isHex <;> omega

theorem trimRightDash_of_hex_end (s h : GoString) (hlen : h.length = 8)
    (hhex : ∀ c ∈ h, isHexChar c = true) : trimRightDash (s ++ h) = s ++ h := by
  have hne : h ≠ [] := by intro h0; rw [h0] at hlen; simp at hlen
  obtain ⟨h', c, rfl⟩ : ∃ h' c, h = h' ++ [c] := ⟨h.dropLast, h.getLast hne, (List.dropLast_append_getLast hne).symm⟩
  have hc : isHexChar c = true := hhex c (by simp)
  unfold trimRightDash
  rw [← List.append_assoc]
  apply List.rdropWhile_concat_neg
  intro hd
  have : c = dash := by simpa using hd
  subst this
  revert hc; decide

/-- The shape of a truncated name when the event leaves room for the base. -/
theorem truncateWithHash_shape (base event : GoString) (hev : event.length ≤ 52)
    (hlong : 63 < base.length + 1 + event.length) :
    truncateWithHash base event =
      trimRightDash (base.take (53 - event.length)) ++ [dash] ++ event ++ [dash] ++
        (hexEncodeToString (sha256Sum256 (base ++ str "-" ++ event))).take hashLength := by
  unfold truncateWithHash
  dsimp only
  have hl := hashStr_length (base ++ str "-" ++ event)
  have hx := hashStr_hex (base ++ str "-" ++ event)
  generalize (hexEncodeToString (sha256Sum256 (base ++ str "-" ++ event))).take hashLength = hs at hl hx
  simp only [str_dash, List.length_append, List.length_singleton, List.length_cons, List.length_nil, Nat.zero_add, hl, maxNameLength]
  have h1 : ¬ (((63 : Nat) : Int) - (((1 + event.length : Nat) : Int) + ((1 + 8 : Nat) : Int)) < 1) := by
    push_cast; omega
  rw [if_neg h1]
  have h2 : (((63 : Nat) : Int) - (((1 + event.length : Nat) : Int) + ((1 + 8 : Nat) : Int))).toNat
      = 53 - event.length := by
    push_cast; omega
  have h3 : ¬ ((base.length : Int) ≤ ((63 : Nat) : Int) - (((1 + event.length : Nat) : Int) + ((1 + 8 : Nat) : Int))) := by
    push_cast; omega
  unfold truncateName
  rw [if_neg h3, h2]
  have hle := trimRightDash_length_le (base.take (53 - event.length))
  rw [List.length_take] at hle
  have h4 : ¬ ((trimRightDash (List.take (53 - event.length) base)).length + (1 + event.length) + (1 + 8) > 63) := by
    omega
  rw [if_neg h4]
  have := trimRightDash_of_hex_end
    (trimRightDash (List.take (53 - event.length) base) ++ ([dash] ++ event) ++ [dash]) hs hl hx
  simpa [List.append_assoc] using this

theorem validHooks_length : ∀ e ∈ validHooks, 4 ≤ e.length ∧ e.length ≤ 13 := by
  decide

theorem validHooks_tail_not_hex :
    ∀ e ∈ validHooks, (e.reverse.take 4).all isHexChar = false := by
  decide

theorem validHooks_dash_suffix :
    ∀ e1 ∈ validHooks, ∀ e2 ∈ validHooks,
      (e1.reverse ++ [dash]) <+: (e2.reverse ++ [dash]) → e1 = e2 := by
  decide

/-- A name generated for a vocabulary event is either base-event or
truncatedBase-event-hash with eight hexadecimal characters of hash. -/
theorem GenerateName_vocab_shape (base e : GoString) (he : e ∈ validHooks) :
    GenerateName base e = base ++ [dash] ++ e ∨
      ∃ p h, GenerateName base e = p ++ [dash] ++ e ++ [dash] ++ h ∧ h.length = 8 ∧
        ∀ c ∈ h, isHexChar c = true := by
  have hl := validHooks_length e he
  by_cases hshort : base.length + 1 + e.length ≤ 63
  · left
    rw [GenerateName_of_fits base e hshort, str_dash]
  · right
    have hlen : ¬ (base ++ str "-" ++ e).length ≤ maxNameLength := by
      simp only [str_dash, maxNameLength, List.length_append, List.length_singleton]; omega
    refine ⟨trimRightDash (base.take (53 - e.length)),
      (hexEncodeToString (sha256Sum256 (base ++ str "-" ++ e))).take hashLength, ?_,
      hashStr_length _, hashStr_hex _⟩
    rw [GenerateName_eq, if_neg hlen]
    exact truncateWithHash_shape base e (by omega) (by omega)

theorem short_ne_long (base p e1 e2 h : GoString) (he1 : e1 ∈ validHooks)
    (hlen : h.length = 8) (hhex : ∀ c ∈ h, isHexChar c = true) :
    base ++ [dash] ++ e1 ≠ p ++ [dash] ++ e2 ++ [dash] ++ h := by
  intro heq
  have hl := validHooks_length e1 he1
  have hrev := congrArg (fun l => l.reverse.take 4) heq
  simp only [List.reverse_append, List.append_assoc] at hrev
  rw [List.take_append_of_le_length (by simp; omega),
    List.take_append_of_le_length (by simp; omega)] at hrev
  have hall : (e1.reverse.take 4).all isHexChar = true := by
    rw [hrev, List.all_eq_true]
    intro c hc
    exact hhex c (List.mem_reverse.mp (List.mem_of_mem_take hc))
  rw [validHooks_tail_not_hex e1 he1] at hall
  exact Bool.noConfusion hall

theorem long_ne_long (p1 p2 e1 e2 h1 h2 : GoString) (he1 : e1 ∈ validHooks)
    (he2 : e2 ∈ validHooks) (hne : e1 ≠ e2) (hl1 : h1.length = 8) (hl2 : h2.length = 8) :
    p1 ++ [dash] ++ e1 ++ [dash] ++ h1 ≠ p2 ++ [dash] ++ e2 ++ [dash] ++ h2 := by
  intro heq
  have h3 := (List.append_inj' heq (by rw [hl1, hl2])).1
  have h4 := (List.append_inj' h3 rfl).1
  have hrev := congrArg List.reverse h4
  simp only [List.reverse_append, List.reverse_cons, List.reverse_nil, List.nil_append,
    List.append_assoc] at hrev
  have hpre1 : (e1.reverse ++ [dash]) <+: (e1.reverse ++ ([dash] ++ p1.reverse)) :=
    ⟨p1.reverse, by simp⟩
  have hpre2 : (e2.reverse ++ [dash]) <+: (e1.reverse ++ ([dash] ++ p1.reverse)) :=
    ⟨p2.reverse, by rw [hrev]; simp⟩
  rcases Nat.le_total (e1.reverse ++ [dash]).length (e2.reverse ++ [dash]).length with hle | hle
  · exact hne (validHooks_dash_suffix e1 he1 e2 he2
      (List.prefix_of_prefix_length_le hpre1 hpre2 hle))
  · exact hne (validHooks_dash_suffix e2 he2 e1 he1
      (List.prefix_of_prefix_length_le hpre2 hpre1 hle)).symm

/-- Distinct vocabulary events never share a generated name. -/
theorem GenerateName_vocab_ne (base e1 e2 : GoString) (he1 : e1 ∈ validHooks)
    (he2 : e2 ∈ validHooks) (hne : e1 ≠ e2) :
    GenerateName base e1 ≠ GenerateName base e2 := by
  rcases GenerateName_vocab_shape base e1 he1 with hs1 | ⟨p1, h1, hs1, hl1, hx1⟩ <;>
    rcases GenerateName_vocab_shape base e2 he2 with hs2 | ⟨p2, h2, hs2, hl2, hx2⟩ <;>
    rw [hs1, hs2]
  · intro heq
    exact hne (List.append_cancel_left heq)
  · exact short_ne_long base p2 e1 e2 h2 he1 hl2 hx2
  · exact (short_ne_long base p1 e2 e1 h1 he2 hl1 hx1).symm
  · exact long_ne_long p1 p2 e1 e2 h1 h2 he1 he2 hne hl1 hl2

/-- C6, amended. For every base and every two distinct events of the fixed
hook vocabulary, GenerateName(base, e1) differs from GenerateName(base, e2). -/
theorem GenerateName_distinct_on_vocabulary (base e1 e2 : GoString)
    (he1 : e1 ∈ validHooks) (he2 : e2 ∈ validHooks) (hne : e1 ≠ e2) :
    GenerateName base e1 ≠ GenerateName base e2 :=
  GenerateName_vocab_ne base e1 e2 he1 he2 hne

theorem GenerateName_distinct_on_vocabulary_witness :
    GenerateName (List.replicate 60 97) (str "pre-install") ≠
      GenerateName (List.replicate 60 97) (str "post-install") :=
  GenerateName_distinct_on_vocabulary (List.replicate 60 97) (str "pre-install")
    (str "post-install") (by decide) (by decide) (by decide)

/-! ## Properties of the validator -/

theorem validateHooksLoop_ok_iff (name : GoString) (hooks seen : List GoString) :
    validateHooksLoop name hooks seen = .ok () ↔
      (∀ h ∈ hooks, h ∈ validHooks) ∧ hooks.Nodup ∧ ∀ h ∈ hooks, h ∉ seen := by
  induction hooks generalizing seen with
  | nil => simp [validateHooksLoop]
  | cons h t ih =>
    unfold validateHooksLoop
    by_cases hv : h ∈ validHooks
    · by_cases hs : h ∈ seen
      · simp [hv, hs]
      · simp only [hv, hs, not_true_eq_false, if_false, ih, List.mem_cons, forall_eq_or_imp,
          List.nodup_cons, not_or, true_and, not_false_eq_true]
        constructor
        · rintro ⟨h1, h2, h3⟩
          refine ⟨h1, ⟨fun hm => (h3 h hm).1 rfl, h2⟩, fun a ha => (h3 a ha).2⟩
        · rintro ⟨h1, ⟨h2, h3⟩, h4⟩
          refine ⟨h1, h3, fun a ha => ⟨fun hah => h2 (hah ▸ ha), h4 a ha⟩⟩
    · simp [hv]

/-- C7. validateHooks succeeds exactly when every event is one of the eleven
vocabulary strings and no event occurs twice. -/
theorem validateHooks_ok_iff (hooks : List GoString) (resourceName : GoString) :
    validateHooks hooks resourceName = .ok () ↔
      (∀ h ∈ hooks, h ∈ [str "pre-install", str "post-install", str "pre-delete",
          str "post-delete", str "pre-upgrade", str "post-upgrade", str "pre-rollback",
          str "post-rollback", str "test", str "test-success", str "test-failure"]) ∧
        hooks.Nodup := by
  unfold validateHooks
  rw [validateHooksLoop_ok_iff]
  simp [validHooks]

/-- C8, refuted as stated: an invalid event that stands after a repeated
valid one is never reached; the error is the duplicate-hook error. -/
theorem validateHooks_invalid_counterexample :
    str "bogus" ∉ validHooks ∧
      validateHooks [str "pre-install", str "pre-install", str "bogus"] (str "job") =
        .error (.duplicateHook (str "job") (str "pre-install")) := by
  decide

theorem validateHooksLoop_invalid (name bad : GoString) (pre rest seen : List GoString)
    (hpre : ∀ h ∈ pre, h ∈ validHooks) (hbad : bad ∉ validHooks) :
    ((pre.Nodup ∧ ∀ h ∈ pre, h ∉ seen) →
        validateHooksLoop name (pre ++ bad :: rest) seen = .error (.invalidHook name bad)) ∧
      (¬ (pre.Nodup ∧ ∀ h ∈ pre, h ∉ seen) →
        ∃ d ∈ pre, validateHooksLoop name (pre ++ bad :: rest) seen =
          .error (.duplicateHook name d)) := by
  induction pre generalizing seen with
  | nil => simp [validateHooksLoop, hbad]
  | cons h t ih =>
    have hv : h ∈ validHooks := hpre h (by simp)
    have ih2 := ih (h :: seen) (fun a ha => hpre a (by simp [ha]))
    simp only [List.cons_append]
    unfold validateHooksLoop
    by_cases hs : h ∈ seen
    · simp only [hv, hs, not_true_eq_false, if_false, if_true]
      constructor
      · rintro ⟨_, h2⟩
        exact absurd hs (h2 h (by simp))
      · intro _
        exact ⟨h, by simp, rfl⟩
    · simp only [hv, hs, not_true_eq_false, if_false]
      constructor
      · rintro ⟨h1, h2⟩
        rw [List.nodup_cons] at h1
        apply ih2.1
        refine ⟨h1.2, fun a ha => ?_⟩
        simp only [List.mem_cons, not_or]
        exact ⟨fun hah => h1.1 (hah ▸ ha), h2 a (by simp [ha])⟩
      · intro hn
        have : ¬ (t.Nodup ∧ ∀ a ∈ t, a ∉ h :: seen) := by
          rintro ⟨h1, h2⟩
          apply hn
          refine ⟨List.nodup_cons.mpr ⟨fun hm => h2 h hm (List.mem_cons_self h seen), h1⟩, ?_⟩
          intro a ha
          rcases List.mem_cons.mp ha with rfl | ha
          · exact hs
          · exact fun hm => (h2 a ha) (List.mem_cons_of_mem _ hm)
        obtain ⟨d, hd, he⟩ := ih2.2 this
        exact ⟨d, List.mem_cons_of_mem _ hd, he⟩

/-- C8, amended. A list whose first event outside the vocabulary is bad
always fails: with the invalid-hook error for bad when the events before it
are pairwise distinct, and with the duplicate-hook error for one of them
otherwise. -/
theorem validateHooks_first_invalid (pre rest : List GoString) (bad resourceName : GoString)
    (hpre : ∀ h ∈ pre, h ∈ validHooks) (hbad : bad ∉ validHooks) :
    (pre.Nodup →
        validateHooks (pre ++ bad :: rest) resourceName =
          .error (.invalidHook resourceName bad)) ∧
      (¬ pre.Nodup →
        ∃ d ∈ pre, validateHooks (pre ++ bad :: rest) resourceName =
          .error (.duplicateHook resourceName d)) := by
  have h := validateHooksLoop_invalid resourceName bad pre rest [] hpre hbad
  unfold validateHooks
  simpa using h

theorem validateHooks_first_invalid_witness :
    validateHooks ([str "pre-install", str "test"] ++ str "bogus" :: [str "pre-install"])
        (str "job") = .error (.invalidHook (str "job") (str "bogus")) :=
  (validateHooks_first_invalid [str "pre-install", str "test"] [str "pre-install"] (str "bogus")
    (str "job") (by decide) (by decide)).1 (by decide)

/-! ## Properties of the weight resolver -/

theorem GoMap.set_same {β : Type} (m : GoMap β) (k : GoString) (v : β) :
    (m.set k v) k = some v := by
  simp [GoMap.set]

theorem GoMap.set_other {β : Type} (m : GoMap β) (k k2 : GoString) (v : β) (h : k2 ≠ k) :
    (m.set k v) k2 = m k2 := by
  simp [GoMap.set, h]

theorem broadcast_get (hooks : List GoString) (w : Int) (m : GoMap Int) (h : GoString) :
    (hooks.foldl (fun weights h => weights.set h w) m) h = if h ∈ hooks then some w else m h := by
  induction hooks generalizing m with
  | nil => simp
  | cons a t ih =>
    rw [List.foldl_cons, ih]
    by_cases ht : h ∈ t
    · simp [ht]
    · by_cases ha : h = a
      · subst ha; simp [ht, GoMap.set]
      · simp [ht, ha, GoMap.set]

theorem parsePositionalLoop_ok (hooks parts : List GoString) (ws : List Int) (m0 : GoMap Int)
    (hnodup : hooks.Nodup) (hlen : parts.length = hooks.length)
    (htok : parts.map (fun t => Atoi (TrimSpace t)) = ws.map some) :
    ∃ m, parsePositionalLoop hooks parts m0 = .ok m ∧
      (∀ (i : Nat) (h : GoString) (w : Int), hooks[i]? = some h → ws[i]? = some w → m h = some w) ∧
      (∀ k, k ∉ hooks → m k = m0 k) := by
  induction hooks generalizing parts ws m0 with
  | nil =>
    refine ⟨m0, ?_, ?_, ?_⟩
    · cases parts <;> rfl
    · intro i h w hi; simp at hi
    · intro k _; rfl
  | cons a t ih =>
    cases parts with
    | nil => simp at hlen
    | cons p ps =>
      cases ws with
      | nil => simp at htok
      | cons w0 ws =>
        simp only [List.map_cons, List.cons.injEq] at htok
        simp only [List.length_cons, add_left_inj] at hlen
        rw [List.nodup_cons] at hnodup
        obtain ⟨m, hm, hget, hframe⟩ := ih ps ws (m0.set a w0) hnodup.2 hlen htok.2
        refine ⟨m, ?_, ?_, ?_⟩
        · unfold parsePositionalLoop
          rw [htok.1]
          exact hm
        · intro i h w hi hw
          cases i with
          | zero =>
            simp only [List.getElem?_cons_zero, Option.some.injEq] at hi hw
            subst hi hw
            rw [hframe _ hnodup.1]
            exact GoMap.set_same _ _ _
          | succ j =>
            simp only [List.getElem?_cons_succ] at hi hw
            exact hget j h w hi hw
        · intro k hk
          simp only [List.mem_cons, not_or] at hk
          rw [hframe k hk.2]
          exact GoMap.set_other _ _ _ _ hk.1

theorem parsePositionalLoop_not_mismatch (hooks parts : List GoString) (m0 : GoMap Int)
    (a b : Nat) : parsePositionalLoop hooks parts m0 ≠ .error (.countMismatch a b) := by
  induction hooks generalizing parts m0 with
  | nil => cases parts <;> simp [parsePositionalLoop]
  | cons h t ih =>
    cases parts with
    | nil => simp [parsePositionalLoop]
    | cons p ps =>
      unfold parsePositionalLoop
      cases Atoi (TrimSpace p) with
      | none => simp
      | some w => exact ih ps _

theorem Split_length_pos (s : GoString) (sep : Nat) : 1 ≤ (Split s sep).length := by
  induction s with
  | nil => simp [Split]
  | cons b rest ih =>
    unfold Split
    split
    · simp
    · split <;> simp

/-- C9. With no helm.sh/hook-weights annotation and a helm.sh/hook-weight
value whose comma-separated tokens are, once trimmed, the integers ws:
a single integer is given to every event, and as many integers as
pairwise-distinct events are given to the events position by position. -/
theorem parseWeights_comma_list (annotations : GoMap GoString) (hooks : List GoString)
    (weightVal : GoString) (ws : List Int)
    (hnw : annotations annotationHookWeights = none)
    (hw : annotations annotationHookWeight = some weightVal)
    (hnodup : hooks.Nodup)
    (htok : (Split weightVal comma).map (fun t => Atoi (TrimSpace t)) = ws.map some) :
    (∀ w, ws = [w] →
        ∃ m, parseWeights annotations hooks = .ok m ∧ ∀ h ∈ hooks, m h = some w) ∧
      (ws.length = hooks.length →
        ∃ m, parseWeights annotations hooks = .ok m ∧
          ∀ (i : Nat) (h : GoString) (w : Int), hooks[i]? = some h → ws[i]? = some w → m h = some w) := by
  have hlen : (Split weightVal comma).length = ws.length := by
    have := congrArg List.length htok
    simpa using this
  have hbroadcast : ∀ w, ws = [w] →
      ∃ m, parseWeights annotations hooks = .ok m ∧ ∀ h ∈ hooks, m h = some w := by
    intro w hws
    subst hws
    unfold parseWeights
    simp only [hnw, hw]
    rw [if_pos (by simpa using hlen)]
    obtain ⟨p, hp⟩ : ∃ p, Split weightVal comma = [p] := List.length_eq_one.mp (by simpa using hlen)
    rw [hp] at htok ⊢
    simp only [List.map_cons, List.map_nil, List.cons.injEq, and_true] at htok
    simp only [List.getD_cons_zero, htok]
    exact ⟨_, rfl, fun h hh => by rw [broadcast_get]; simp [hh]⟩
  refine ⟨hbroadcast, fun hcount => ?_⟩
  by_cases hone : ws.length = 1
  · obtain ⟨w, hws⟩ := List.length_eq_one.mp hone
    obtain ⟨m, hm, hall⟩ := hbroadcast w hws
    refine ⟨m, hm, fun i h w2 hi hw2 => ?_⟩
    subst hws
    cases i with
    | zero =>
      simp only [List.getElem?_cons_zero, Option.some.injEq] at hw2
      subst hw2
      exact hall h (List.getElem?_mem hi)
    | succ j => simp at hw2
  · unfold parseWeights
    simp only [hnw, hw]
    rw [if_neg (by rw [hlen]; exact hone), if_neg (by rw [hlen, hcount]; simp)]
    obtain ⟨m, hm, hget, _⟩ := parsePositionalLoop_ok hooks (Split weightVal comma) ws
      (initWeights hooks) hnodup (by rw [hlen, hcount]) htok
    exact ⟨m, hm, hget⟩

theorem parseWeights_comma_list_witness :
    (∃ m, parseWeights (GoMap.empty.set annotationHookWeight (str "-100, 200"))
        [str "pre-install", str "post-upgrade"] = .ok m ∧
      ∀ (i : Nat) (h : GoString) (w : Int),
        [str "pre-install", str "post-upgrade"][i]? = some h →
          [(-100 : Int), 200][i]? = some w → m h = some w) :=
  (parseWeights_comma_list (GoMap.empty.set annotationHookWeight (str "-100, 200"))
    [str "pre-install", str "post-upgrade"] (str "-100, 200") [-100, 200]
    (by decide) (by decide) (by decide) (by decide)).2 (by decide)

/-- C10. With no helm.sh/hook-weights annotation and a helm.sh/hook-weight
value of m comma-separated tokens, parseWeights fails with the count-mismatch
error exactly when m is neither 1 nor the number n of events, and the error
then reports n and m; the tokens themselves play no part. -/
theorem parseWeights_countMismatch_iff (annotations : GoMap GoString) (hooks : List GoString)
    (weightVal : GoString)
    (hnw : annotations annotationHookWeights = none)
    (hw : annotations annotationHookWeight = some weightVal) :
    ((∃ a b, parseWeights annotations hooks = .error (.countMismatch a b)) ↔
        ((Split weightVal comma).length ≠ 1 ∧ (Split weightVal comma).length ≠ hooks.length)) ∧
      (((Split weightVal comma).length ≠ 1 ∧ (Split weightVal comma).length ≠ hooks.length) →
        parseWeights annotations hooks =
          .error (.countMismatch hooks.length (Split weightVal comma).length)) := by
  have hmis : ((Split weightVal comma).length ≠ 1 ∧
      (Split weightVal comma).length ≠ hooks.length) →
      parseWeights annotations hooks =
        .error (.countMismatch hooks.length (Split weightVal comma).length) := by
    rintro ⟨h1, h2⟩
    unfold parseWeights
    simp only [hnw, hw]
    rw [if_neg h1, if_pos h2]
  refine ⟨⟨?_, fun h => ⟨_, _, hmis h⟩⟩, hmis⟩
  rintro ⟨a, b, hab⟩
  by_contra hcon
  unfold parseWeights at hab
  simp only [hnw, hw] at hab
  by_cases h1 : (Split weightVal comma).length = 1
  · rw [if_pos h1] at hab
    cases hA : Atoi (TrimSpace ((Split weightVal comma).getD 0 [])) with
    | none => rw [hA] at hab; simp at hab
    | some w => rw [hA] at hab; simp at hab
  · rw [if_neg h1] at hab
    by_cases h2 : (Split weightVal comma).length = hooks.length
    · rw [if_neg (by simpa using h2)] at hab
      exact parsePositionalLoop_not_mismatch _ _ _ _ _ hab
    · exact hcon ⟨h1, h2⟩

theorem parseWeights_countMismatch_iff_witness :
    parseWeights (GoMap.empty.set annotationHookWeight (str "1,x"))
        [str "pre-install", str "post-install", str "test"] = .error (.countMismatch 3 2) :=
  (parseWeights_countMismatch_iff (GoMap.empty.set annotationHookWeight (str "1,x"))
    [str "pre-install", str "post-install", str "test"] (str "1,x")
    (by decide) (by decide)).2 (by decide)

/-! ## Properties of the splitter -/

theorem pairs_induction {P : List Node → Prop} (h0 : P []) (h1 : ∀ k, P [k])
    (h2 : ∀ k v rest, P rest → P (k :: v :: rest)) : ∀ l, P l := by
  have key : ∀ l, P l ∧ ∀ x, P (x :: l) := by
    intro l
    induction l with
    | nil => exact ⟨h0, h1⟩
    | cons a t ih => exact ⟨ih.2 a, fun x => h2 x a t ih.1⟩
  exact fun l => (key l).1

@[simp] theorem Node.kind_setContent (n : Node) (c : List Node) :
    (n.setContent c).kind = n.kind := by
  cases n; rfl

@[simp] theorem Node.content_setContent (n : Node) (c : List Node) :
    (n.setContent c).content = c := by
  cases n; rfl

@[simp] theorem Node.value_setContent (n : Node) (c : List Node) :
    (n.setContent c).value = n.value := by
  cases n; rfl

@[simp] theorem Node.value_setValue (n : Node) (v : GoString) : (n.setValue v).value = v := by
  cases n; rfl

theorem parseMetadataLoop_Name_congr (c : List Node) :
    ∀ r1 r2 : Resource, r1.Name = r2.Name →
      (parseMetadataLoop c r1).Name = (parseMetadataLoop c r2).Name := by
  induction c using pairs_induction with
  | h0 => intro r1 r2 h; simpa [parseMetadataLoop] using h
  | h1 k => intro r1 r2 h; simpa [parseMetadataLoop] using h
  | h2 k v rest ih =>
    intro r1 r2 h
    unfold parseMetadataLoop
    split
    · exact ih _ _ rfl
    · split
      · split
        · exact ih _ _ h
        · exact ih _ _ h
      · exact ih _ _ h

theorem parseMetadata_Name_congr (md : Node) (r1 r2 : Resource) (h : r1.Name = r2.Name) :
    (parseMetadata md r1).Name = (parseMetadata md r2).Name := by
  unfold parseMetadata
  split
  · exact h
  · exact parseMetadataLoop_Name_congr _ _ _ h

theorem parseResourceLoop_Name_congr (c : List Node) :
    ∀ r1 r2 : Resource, r1.Name = r2.Name →
      (parseResourceLoop c r1).Name = (parseResourceLoop c r2).Name := by
  induction c using pairs_induction with
  | h0 => intro r1 r2 h; simpa [parseResourceLoop] using h
  | h1 k => intro r1 r2 h; simpa [parseResourceLoop] using h
  | h2 k v rest ih =>
    intro r1 r2 h
    unfold parseResourceLoop
    split
    · exact ih _ _ h
    · split
      · exact ih _ _ (parseMetadata_Name_congr v r1 r2 h)
      · exact ih _ _ h

/-- An edit of an entry other than name leaves the name read from metadata. -/
theorem parseMetadataLoop_updateFirst_Name (key : GoString) (g : Node → Node)
    (hkey : key ≠ str "name") (c : List Node) :
    ∀ res : Resource,
      (parseMetadataLoop (updateFirst key g c) res).Name = (parseMetadataLoop c res).Name := by
  induction c using pairs_induction with
  | h0 => intro res; rfl
  | h1 k => intro res; rfl
  | h2 k v rest ih =>
    intro res
    unfold updateFirst
    by_cases hk : k.value = key
    · rw [if_pos hk]
      have hkn : k.value ≠ str "name" := hk ▸ hkey
      unfold parseMetadataLoop
      rw [if_neg hkn, if_neg hkn]
      split
      · split <;> split <;> exact parseMetadataLoop_Name_congr _ _ _ rfl
      · rfl
    · rw [if_neg hk]
      unfold parseMetadataLoop
      split
      · exact ih _
      · split
        · split <;> exact ih _
        · exact ih _

theorem parseMetadataLoop_no_name (c : List Node) :
    ∀ res : Resource, countKey (str "name") c = 0 →
      (parseMetadataLoop c res).Name = res.Name := by
  induction c using pairs_induction with
  | h0 => intro res _; rfl
  | h1 k => intro res _; rfl
  | h2 k v rest ih =>
    intro res hc
    unfold countKey at hc
    have hk : k.value ≠ str "name" := by
      intro hk; rw [if_pos hk] at hc; omega
    rw [if_neg hk] at hc
    unfold parseMetadataLoop
    rw [if_neg hk]
    split
    · split
      · rw [ih _ (by omega)]
      · exact ih _ (by omega)
    · exact ih _ (by omega)

/-- Overwriting the only name entry makes it the name read from metadata. -/
theorem parseMetadataLoop_setName (name : GoString) (c : List Node) :
    ∀ res : Resource, countKey (str "name") c = 1 →
      (parseMetadataLoop (updateFirst (str "name") (fun v => v.setValue name) c) res).Name
        = name := by
  induction c using pairs_induction with
  | h0 => intro res hc; simp [countKey] at hc
  | h1 k => intro res hc; simp [countKey] at hc
  | h2 k v rest ih =>
    intro res hc
    unfold countKey at hc
    unfold updateFirst
    by_cases hk : k.value = str "name"
    · rw [if_pos hk] at hc ⊢
      unfold parseMetadataLoop
      rw [if_pos hk, parseMetadataLoop_no_name _ _ (by omega)]
      simp
    · rw [if_neg hk] at hc ⊢
      unfold parseMetadataLoop
      rw [if_neg hk]
      split
      · split <;> exact ih _ (by omega)
      · exact ih _ (by omega)

theorem parseResourceLoop_no_metadata (c : List Node) :
    ∀ res : Resource, countKey (str "metadata") c = 0 →
      (parseResourceLoop c res).Name = res.Name := by
  induction c using pairs_induction with
  | h0 => intro res _; rfl
  | h1 k => intro res _; rfl
  | h2 k v rest ih =>
    intro res hc
    unfold countKey at hc
    have hk : k.value ≠ str "metadata" := by
      intro hk; rw [if_pos hk] at hc; omega
    rw [if_neg hk] at hc
    unfold parseResourceLoop
    rw [if_neg hk]
    split
    · rw [ih _ (by omega)]
    · exact ih _ (by omega)

/-- An edit of a root entry other than metadata leaves the name. -/
theorem parseResourceLoop_updateFirst_other (key : GoString) (g : Node → Node)
    (hkey : key ≠ str "metadata") (c : List Node) :
    ∀ res : Resource,
      (parseResourceLoop (updateFirst key g c) res).Name = (parseResourceLoop c res).Name := by
  induction c using pairs_induction with
  | h0 => intro res; rfl
  | h1 k => intro res; rfl
  | h2 k v rest ih =>
    intro res
    unfold updateFirst
    by_cases hk : k.value = key
    · rw [if_pos hk]
      have hkn : k.value ≠ str "metadata" := hk ▸ hkey
      unfold parseResourceLoop
      rw [if_neg hkn, if_neg hkn]
      split
      · exact parseResourceLoop_Name_congr _ _ _ rfl
      · rfl
    · rw [if_neg hk]
      unfold parseResourceLoop
      split
      · exact ih _
      · split <;> exact ih _

/-- An edit of the metadata entry that keeps the name read from it leaves
the name of the resource. -/
theorem parseResourceLoop_updateFirst_metadata (g : Node → Node)
    (hg : ∀ (md : Node) (res : Resource), (parseMetadata (g md) res).Name = (parseMetadata md res).Name)
    (c : List Node) :
    ∀ res : Resource,
      (parseResourceLoop (updateFirst (str "metadata") g c) res).Name =
        (parseResourceLoop c res).Name := by
  induction c using pairs_induction with
  | h0 => intro res; rfl
  | h1 k => intro res; rfl
  | h2 k v rest ih =>
    intro res
    unfold updateFirst
    by_cases hk : k.value = str "metadata"
    · rw [if_pos hk]
      have hkk : k.value ≠ str "kind" := by rw [hk]; decide
      unfold parseResourceLoop
      rw [if_neg hkk, if_neg hkk, if_pos hk, if_pos hk]
      exact parseResourceLoop_Name_congr _ _ _ (hg v res)
    · rw [if_neg hk]
      unfold parseResourceLoop
      rw [if_neg hk]
      split <;> exact ih _

theorem parseResourceLoop_setName (name : GoString) (md : Node) (c : List Node) :
    ∀ res : Resource, countKey (str "metadata") c = 1 →
      lookupKey (str "metadata") c = some md → md.kind = .MappingNode →
      countKey (str "name") md.content = 1 →
      (parseResourceLoop (updateFirst (str "metadata") (fun m => setNameInMetadata m name) c)
        res).Name = name := by
  induction c using pairs_induction with
  | h0 => intro res hc; simp [countKey] at hc
  | h1 k => intro res hc; simp [countKey] at hc
  | h2 k v rest ih =>
    intro res hc hl hmk hn
    unfold countKey at hc
    unfold lookupKey at hl
    unfold updateFirst
    by_cases hk : k.value = str "metadata"
    · rw [if_pos hk] at hc hl ⊢
      have hkk : k.value ≠ str "kind" := by rw [hk]; decide
      have hv : v = md := Option.some.inj hl
      subst hv
      unfold parseResourceLoop
      rw [if_neg hkk, if_pos hk, parseResourceLoop_no_metadata _ _ (by omega)]
      unfold parseMetadata setNameInMetadata
      simp only [hmk, ne_eq, not_true_eq_false, if_false, Node.kind_setContent,
        Node.content_setContent]
      exact parseMetadataLoop_setName name _ _ hn
    · rw [if_neg hk] at hc hl ⊢
      unfold parseResourceLoop
      rw [if_neg hk]
      split
      · exact ih _ (by omega) hl hmk hn
      · exact ih _ (by omega) hl hmk hn

/-- The name read from a root mapping. -/
theorem parseResource_of_mapping (n : Node) (h : (documentContent n).kind = .MappingNode) :
    parseResource n = parseResourceLoop (documentContent n).content ⟨[], [], GoMap.empty⟩ := by
  unfold parseResource
  simp [h]

theorem documentContent_onContent (doc : Node) (f : Node → Node)
    (hroot : (documentContent doc).kind = .MappingNode) (hf : ∀ n, (f n).kind = n.kind) :
    documentContent (onContent doc f) = f (documentContent doc) := by
  obtain ⟨kind, style, tag, value, info, content⟩ := doc
  cases kind <;> cases content <;>
    simp_all [documentContent, onContent, Node.kind, Node.content, Node.setContent]

theorem setMetadataName_kind (n : Node) (name : GoString) :
    (setMetadataName n name).kind = n.kind := by
  unfold setMetadataName; split <;> simp

theorem setAnnotation_kind (n : Node) (key value : GoString) :
    ( setAnnotation n key value).kind = n.kind := by
  unfold setAnnotation; split <;> simp

theorem removeAnnotation_kind (n : Node) (key : GoString) :
    ( removeAnnotation n key).kind = n.kind := by
  unfold removeAnnotation; split <;> simp

theorem injectEnvVars_kind (n : Node) (hookEvent : GoString) (weight : Int) :
    (injectEnvVars n hookEvent weight).kind = n.kind := by
  unfold injectEnvVars; split <;> simp

theorem rootName_setAnnotation_eq (n : Node) (key value : GoString) :
    rootName ( setAnnotation n key value) = rootName n := by
  unfold rootName setAnnotation
  split
  · rfl
  · rw [Node.content_setContent]
    apply parseResourceLoop_updateFirst_metadata
    intro md res
    unfold parseMetadata setAnnotationInMetadata
    by_cases hk : md.kind = .MappingNode
    · simp only [hk, ne_eq, not_true_eq_false, if_false, Node.kind_setContent,
        Node.content_setContent]
      exact parseMetadataLoop_updateFirst_Name _ _ (by decide) _ _
    · simp [hk]

theorem rootName_removeAnnotation_eq (n : Node) (key : GoString) :
    rootName ( removeAnnotation n key) = rootName n := by
  unfold rootName removeAnnotation
  split
  · rfl
  · rw [Node.content_setContent]
    apply parseResourceLoop_updateFirst_metadata
    intro md res
    unfold parseMetadata removeAnnotationFromMetadata
    by_cases hk : md.kind = .MappingNode
    · simp only [hk, ne_eq, not_true_eq_false, if_false, Node.kind_setContent,
        Node.content_setContent]
      exact parseMetadataLoop_updateFirst_Name _ _ (by decide) _ _
    · simp [hk]

theorem rootName_injectEnvVars (n : Node) (hookEvent : GoString) (weight : Int) :
    rootName (injectEnvVars n hookEvent weight) = rootName n := by
  unfold rootName injectEnvVars
  split
  · rfl
  · rw [Node.content_setContent]
    exact parseResourceLoop_updateFirst_other _ _ (by decide) _ _

theorem rootName_setMetadataName (n md : Node) (name : GoString)
    (hk : n.kind = .MappingNode) (hc : countKey (str "metadata") n.content = 1)
    (hl : lookupKey (str "metadata") n.content = some md) (hmk : md.kind = .MappingNode)
    (hn : countKey (str "name") md.content = 1) :
    rootName (setMetadataName n name) = name := by
  unfold rootName setMetadataName
  simp only [hk, ne_eq, not_true_eq_false, if_false, Node.content_setContent]
  exact parseResourceLoop_setName name md _ _ hc hl hmk hn

/-- The name of a split replica is the name it was given, when the root
has one metadata mapping with one name entry. -/
theorem updateSplitResource_Name (doc md : Node) (hookEvent newName : GoString) (weight : Int)
    (envEnabled : Bool)
    (hroot : (documentContent doc).kind = .MappingNode)
    (hc : countKey (str "metadata") (documentContent doc).content = 1)
    (hl : lookupKey (str "metadata") (documentContent doc).content = some md)
    (hmk : md.kind = .MappingNode) (hn : countKey (str "name") md.content = 1) :
    (parseResource (updateSplitResource doc hookEvent weight newName envEnabled)).Name
      = newName := by
  have hkind : ∀ n : Node,
      ((fun content =>
        let content := setMetadataName content newName
        let content := setAnnotation content annotationHook hookEvent
        let content := setAnnotation content annotationHookWeight (itoa weight)
        let content := removeAnnotation content annotationHookWeights
        if envEnabled then injectEnvVars content hookEvent weight else content) n).kind
        = n.kind := by
    intro n
    dsimp only
    split <;>
      simp only [injectEnvVars_kind, removeAnnotation_kind, setAnnotation_kind,
        setMetadataName_kind]
  unfold updateSplitResource
  rw [parseResource_of_mapping _ (by rw [documentContent_onContent doc _ hroot hkind, hkind, hroot]),
    documentContent_onContent doc _ hroot hkind]
  dsimp only
  have hbase := rootName_setMetadataName (documentContent doc) md newName hroot hc hl hmk hn
  unfold rootName at hbase
  split
  · have := rootName_injectEnvVars ( removeAnnotation ( setAnnotation ( setAnnotation
      (setMetadataName (documentContent doc) newName) annotationHook hookEvent)
      annotationHookWeight (itoa weight)) annotationHookWeights) hookEvent weight
    rw [rootName_removeAnnotation_eq, rootName_setAnnotation_eq, rootName_setAnnotation_eq] at this
    unfold rootName at this
    rw [this, hbase]
  · have := rootName_removeAnnotation_eq ( setAnnotation ( setAnnotation
      (setMetadataName (documentContent doc) newName) annotationHook hookEvent)
      annotationHookWeight (itoa weight)) annotationHookWeights
    rw [rootName_setAnnotation_eq, rootName_setAnnotation_eq] at this
    unfold rootName at this
    rw [this, hbase]

/-- The loop of splitResource ends with the error of cloneNode. -/
theorem splitResource_clone_error (y : Yaml) (node : Node) (res : Resource)
    (hooks : List GoString) (weights : GoMap Int) (envEnabled nameSuffixEnabled : Bool)
    (err : HookError) (hne : hooks ≠ []) (hc : cloneNode y node = .error err) :
    splitResource y node res hooks weights envEnabled nameSuffixEnabled = .error err := by
  cases hooks with
  | nil => exact absurd rfl hne
  | cons e rest => rw [splitResource, hc]

/-- The loop of splitResource when every replica is encoded: the updated
clones, in the order of hooks. -/
theorem splitResource_ok (y : Yaml) (node : Node) (res : Resource) (weights : GoMap Int)
    (envEnabled nameSuffixEnabled : Bool) (c : Node) (hc : cloneNode y node = .ok c)
    (hooks : List GoString)
    (henc : ∀ e ∈ hooks,
      (y.encode (splitReplica res weights envEnabled nameSuffixEnabled c e)).isSome = true) :
    splitResource y node res hooks weights envEnabled nameSuffixEnabled =
      .ok (hooks.map (splitReplica res weights envEnabled nameSuffixEnabled c)) := by
  induction hooks with
  | nil => rfl
  | cons e rest ih =>
      have he := henc e (List.mem_cons_self _ _)
      rw [splitResource, hc]
      dsimp only
      unfold splitReplica at he
      unfold marshalNode
      cases hx : y.encode (updateSplitResource c e (weights.at e)
          (if nameSuffixEnabled = true then GenerateName res.Name e else res.Name)
          envEnabled) with
      | none => rw [hx] at he; cases he
      | some data =>
          dsimp only
          rw [ih (fun e2 h2 => henc e2 (List.mem_cons_of_mem _ h2))]
          rfl

/-- The loop of splitResource ends with the error of the encoder when a
replica is not encoded. -/
theorem splitResource_encode_error (y : Yaml) (node : Node) (res : Resource)
    (weights : GoMap Int) (envEnabled nameSuffixEnabled : Bool) (c : Node)
    (hc : cloneNode y node = .ok c) (hooks : List GoString)
    (hbad : ∃ e ∈ hooks,
      y.encode (splitReplica res weights envEnabled nameSuffixEnabled c e) = none) :
    splitResource y node res hooks weights envEnabled nameSuffixEnabled = .error .yamlError := by
  induction hooks with
  | nil =>
      obtain ⟨e, he, _⟩ := hbad
      simp at he
  | cons e rest ih =>
      rw [splitResource, hc]
      dsimp only
      unfold marshalNode
      cases hx : y.encode (updateSplitResource c e (weights.at e)
          (if nameSuffixEnabled = true then GenerateName res.Name e else res.Name)
          envEnabled) with
      | none => rfl
      | some data =>
          dsimp only
          obtain ⟨e2, he2, hnone⟩ := hbad
          rcases List.mem_cons.mp he2 with rfl | hmem
          · unfold splitReplica at hnone
            rw [hx] at hnone
            cases hnone
          · rw [ih ⟨e2, hmem, hnone⟩]

/-- The split path of processDocument: two or more resolved events with
resolved weights go to splitResource. -/
theorem processDocument_split (y : Yaml) (doc : Node) (hooks : List GoString)
    (weights : GoMap Int)
    (hres : resolveHooks (parseResource doc) = .ok hooks)
    (hvalid : validateHooks hooks (parseResource doc).Name = .ok ())
    (hweights : parseWeights (parseResource doc).Annotations hooks = .ok weights)
    (hN : 2 ≤ hooks.length) :
    processDocument y doc =
      splitResource y doc (parseResource doc) hooks weights
        (envEnabledOf (parseResource doc).Annotations)
        (nameSuffixEnabledOf (parseResource doc).Annotations) := by
  have hhook : ¬ ((parseResource doc).Annotations annotationHook = none ∧
      (parseResource doc).Annotations annotationHookWeights = none) := by
    rintro ⟨h1, h2⟩
    unfold resolveHooks at hres
    rw [h1, h2] at hres
    simp [parseHookEvents, Split, TrimSpace, trimLeftSpace, trimLeftSpaceRev] at hres
  have h1 : ¬ hooks.length = 1 := by omega
  unfold processDocument
  simp only [hres, hvalid, hweights, h1, false_and, if_false]
  rw [if_neg]
  intro hc
  apply hhook
  simp only [Bool.and_eq_true, Bool.not_eq_true'] at hc
  obtain ⟨hc1, hc2⟩ := hc
  constructor
  · cases h : (parseResource doc).Annotations annotationHook with
    | none => rfl
    | some x => rw [h] at hc1; simp at hc1
  · cases h : (parseResource doc).Annotations annotationHookWeights with
    | none => rfl
    | some x => rw [h] at hc2; simp at hc2

/-- C1, refuted as stated: a hook resource without a metadata.name entry
resolves to two events, and both replicas are left without a name instead
of carrying GenerateName(base, event). -/
theorem processDocument_nameless_counterexample :
    resolveHooks (parseResource namelessHookJob) = .ok [str "pre-install", str "post-install"] ∧
      (parseResource namelessHookJob).Name = [] ∧
      GenerateName (parseResource namelessHookJob).Name (str "pre-install")
        = str "-pre-install" ∧
      (processDocument exactYaml namelessHookJob).map
          (fun docs => docs.map (fun d => (parseResource d).Name))
        = .ok [[], []] := by
  decide

/-- A second way for C1 to fail: with two name entries the descriptor reads
the last one, the splitter overwrites the first, and the replicas are read
back under the name of the source. -/
theorem processDocument_two_names_example :
    (parseResource twoNamesHookJob).Name = str "second" ∧
      (processDocument exactYaml twoNamesHookJob).map
          (fun docs => docs.map (fun d => (parseResource d).Name))
        = .ok [str "second", str "second"] := by
  decide

/-! ## Annotations of a split replica -/

theorem lookupKey_updateFirst_same (key : GoString) (g : Node → Node) (c : List Node) :
    lookupKey key (updateFirst key g c) = (lookupKey key c).map g := by
  induction c using pairs_induction with
  | h0 => rfl
  | h1 k => rfl
  | h2 k v rest ih =>
    unfold updateFirst
    by_cases hk : k.value = key
    · simp [lookupKey, hk]
    · simp [lookupKey, hk, ih]

theorem lookupKey_updateFirst_other (key key2 : GoString) (g : Node → Node) (c : List Node)
    (h : key2 ≠ key) : lookupKey key2 (updateFirst key g c) = lookupKey key2 c := by
  induction c using pairs_induction with
  | h0 => rfl
  | h1 k => rfl
  | h2 k v rest ih =>
    unfold updateFirst
    by_cases hk : k.value = key
    · have : k.value ≠ key2 := fun h2 => h (h2 ▸ hk)
      simp [lookupKey, hk, this, Ne.symm h]
    · simp only [hk, if_false]
      unfold lookupKey
      rw [ih]

theorem countKey_updateFirst (key key2 : GoString) (g : Node → Node) (c : List Node) :
    countKey key2 (updateFirst key g c) = countKey key2 c := by
  induction c using pairs_induction with
  | h0 => rfl
  | h1 k => rfl
  | h2 k v rest ih =>
    unfold updateFirst
    by_cases hk : k.value = key
    · simp [countKey, hk]
    · simp only [hk, if_false]
      unfold countKey
      rw [ih]

theorem parseMetadataLoop_Annotations_congr (c : List Node) :
    ∀ r1 r2 : Resource, r1.Annotations = r2.Annotations →
      (parseMetadataLoop c r1).Annotations = (parseMetadataLoop c r2).Annotations := by
  induction c using pairs_induction with
  | h0 => intro r1 r2 h; simpa [parseMetadataLoop] using h
  | h1 k => intro r1 r2 h; simpa [parseMetadataLoop] using h
  | h2 k v rest ih =>
    intro r1 r2 h
    unfold parseMetadataLoop
    split
    · exact ih _ _ h
    · split
      · split
        · exact ih _ _ (by simp [h])
        · exact ih _ _ h
      · exact ih _ _ h

theorem parseMetadataLoop_no_annotations (c : List Node) :
    ∀ res : Resource, countKey (str "annotations") c = 0 →
      (parseMetadataLoop c res).Annotations = res.Annotations := by
  induction c using pairs_induction with
  | h0 => intro res _; rfl
  | h1 k => intro res _; rfl
  | h2 k v rest ih =>
    intro res hc
    unfold countKey at hc
    have hk : k.value ≠ str "annotations" := by
      intro hk; rw [if_pos hk] at hc; omega
    rw [if_neg hk] at hc
    unfold parseMetadataLoop
    rw [if_neg hk]
    split
    · rw [ih _ (by omega)]
    · exact ih _ (by omega)

theorem parseMetadataLoop_unique_annotations (an : Node) (c : List Node) :
    ∀ res : Resource, countKey (str "annotations") c = 1 →
      lookupKey (str "annotations") c = some an → an.kind = .MappingNode →
      (parseMetadataLoop c res).Annotations = parseAnnotationsLoop an.content res.Annotations := by
  induction c using pairs_induction with
  | h0 => intro res hc; simp [countKey] at hc
  | h1 k => intro res hc; simp [countKey] at hc
  | h2 k v rest ih =>
    intro res hc hl hk
    unfold countKey at hc
    unfold lookupKey at hl
    by_cases hka : k.value = str "annotations"
    · rw [if_pos hka] at hc hl
      have hkn : k.value ≠ str "name" := by rw [hka]; decide
      have hv : v = an := Option.some.inj hl
      subst hv
      unfold parseMetadataLoop
      rw [if_neg hkn, if_pos hka, if_pos hk, parseMetadataLoop_no_annotations _ _ (by omega)]
    · rw [if_neg hka] at hc hl
      unfold parseMetadataLoop
      rw [if_neg hka]
      split
      · rw [ih _ (by omega) hl hk]
      · exact ih _ (by omega) hl hk

theorem parseResourceLoop_no_metadata_Annotations (c : List Node) :
    ∀ res : Resource, countKey (str "metadata") c = 0 →
      (parseResourceLoop c res).Annotations = res.Annotations := by
  induction c using pairs_induction with
  | h0 => intro res _; rfl
  | h1 k => intro res _; rfl
  | h2 k v rest ih =>
    intro res hc
    unfold countKey at hc
    have hk : k.value ≠ str "metadata" := by
      intro hk; rw [if_pos hk] at hc; omega
    rw [if_neg hk] at hc
    unfold parseResourceLoop
    rw [if_neg hk]
    split
    · rw [ih _ (by omega)]
    · exact ih _ (by omega)

theorem parseResourceLoop_unique_annotations (md an : Node) (c : List Node) :
    ∀ res : Resource, countKey (str "metadata") c = 1 →
      lookupKey (str "metadata") c = some md → md.kind = .MappingNode →
      countKey (str "annotations") md.content = 1 →
      lookupKey (str "annotations") md.content = some an → an.kind = .MappingNode →
      (parseResourceLoop c res).Annotations = parseAnnotationsLoop an.content res.Annotations := by
  induction c using pairs_induction with
  | h0 => intro res hc; simp [countKey] at hc
  | h1 k => intro res hc; simp [countKey] at hc
  | h2 k v rest ih =>
    intro res hc hl hmk hac hal hak
    unfold countKey at hc
    unfold lookupKey at hl
    by_cases hk : k.value = str "metadata"
    · rw [if_pos hk] at hc hl
      have hkk : k.value ≠ str "kind" := by rw [hk]; decide
      have hv : v = md := Option.some.inj hl
      subst hv
      unfold parseResourceLoop
      rw [if_neg hkk, if_pos hk, parseResourceLoop_no_metadata_Annotations _ _ (by omega)]
      unfold parseMetadata
      simp only [hmk, ne_eq, not_true_eq_false, if_false]
      exact parseMetadataLoop_unique_annotations an _ _ hac hal hak
    · rw [if_neg hk] at hc hl
      unfold parseResourceLoop
      rw [if_neg hk]
      split
      · rw [ih _ (by omega) hl hmk hac hal hak]
      · exact ih _ (by omega) hl hmk hac hal hak

/-- With one metadata mapping holding one annotations mapping, the
descriptor reads the annotations of that mapping. -/
theorem parseResource_Annotations_of_at (doc an : Node)
    (h : AnnotationsAt (documentContent doc) an) :
    (parseResource doc).Annotations = parseAnnotationsLoop an.content GoMap.empty := by
  obtain ⟨hroot, md, hc, hl, hmk, hac, hal, hak⟩ := h
  rw [parseResource_of_mapping doc hroot]
  exact parseResourceLoop_unique_annotations md an _ _ hc hl hmk hac hal hak

theorem AnnotationsAt_setMetadataName (root an : Node) (name : GoString)
    (h : AnnotationsAt root an) : AnnotationsAt (setMetadataName root name) an := by
  obtain ⟨hroot, md, hc, hl, hmk, hac, hal, hak⟩ := h
  unfold setMetadataName
  simp only [hroot, ne_eq, not_true_eq_false, if_false]
  refine ⟨by simp [hroot], setNameInMetadata md name, ?_, ?_, ?_, ?_, ?_, hak⟩
  · rw [Node.content_setContent, countKey_updateFirst]; exact hc
  · rw [Node.content_setContent, lookupKey_updateFirst_same, hl]; rfl
  · unfold setNameInMetadata; simp [hmk]
  · unfold setNameInMetadata
    simp only [hmk, ne_eq, not_true_eq_false, if_false, Node.content_setContent]
    rw [countKey_updateFirst]; exact hac
  · unfold setNameInMetadata
    simp only [hmk, ne_eq, not_true_eq_false, if_false, Node.content_setContent]
    rw [lookupKey_updateFirst_other _ _ _ _ (by decide)]; exact hal

theorem AnnotationsAt_setAnnotation_step (root an : Node) (key value : GoString)
    (h : AnnotationsAt root an) :
    AnnotationsAt ( setAnnotation root key value) (setAnnotationValue an key value) := by
  obtain ⟨hroot, md, hc, hl, hmk, hac, hal, hak⟩ := h
  unfold setAnnotation
  simp only [hroot, ne_eq, not_true_eq_false, if_false]
  refine ⟨by simp [hroot], setAnnotationInMetadata md key value, ?_, ?_, ?_, ?_, ?_, ?_⟩
  · rw [Node.content_setContent, countKey_updateFirst]; exact hc
  · rw [Node.content_setContent, lookupKey_updateFirst_same, hl]; rfl
  · unfold setAnnotationInMetadata; simp [hmk]
  · unfold setAnnotationInMetadata
    simp only [hmk, ne_eq, not_true_eq_false, if_false, Node.content_setContent]
    rw [countKey_updateFirst]; exact hac
  · unfold setAnnotationInMetadata
    simp only [hmk, ne_eq, not_true_eq_false, if_false, Node.content_setContent]
    rw [lookupKey_updateFirst_same, hal]; rfl
  · unfold setAnnotationValue; simp [hak]

theorem AnnotationsAt_removeAnnotation_step (root an : Node) (key : GoString)
    (h : AnnotationsAt root an) :
    AnnotationsAt ( removeAnnotation root key) (removeAnnotationKey an key) := by
  obtain ⟨hroot, md, hc, hl, hmk, hac, hal, hak⟩ := h
  unfold removeAnnotation
  simp only [hroot, ne_eq, not_true_eq_false, if_false]
  refine ⟨by simp [hroot], removeAnnotationFromMetadata md key, ?_, ?_, ?_, ?_, ?_, ?_⟩
  · rw [Node.content_setContent, countKey_updateFirst]; exact hc
  · rw [Node.content_setContent, lookupKey_updateFirst_same, hl]; rfl
  · unfold removeAnnotationFromMetadata; simp [hmk]
  · unfold removeAnnotationFromMetadata
    simp only [hmk, ne_eq, not_true_eq_false, if_false, Node.content_setContent]
    rw [countKey_updateFirst]; exact hac
  · unfold removeAnnotationFromMetadata
    simp only [hmk, ne_eq, not_true_eq_false, if_false, Node.content_setContent]
    rw [lookupKey_updateFirst_same, hal]; rfl
  · unfold removeAnnotationKey; simp [hak]

theorem AnnotationsAt_injectEnvVars (root an : Node) (hookEvent : GoString) (weight : Int)
    (h : AnnotationsAt root an) : AnnotationsAt (injectEnvVars root hookEvent weight) an := by
  obtain ⟨hroot, md, hc, hl, hmk, hac, hal, hak⟩ := h
  unfold injectEnvVars
  simp only [hroot, ne_eq, not_true_eq_false, if_false]
  refine ⟨by simp [hroot], md, ?_, ?_, hmk, hac, hal, hak⟩
  · rw [Node.content_setContent, countKey_updateFirst]; exact hc
  · rw [Node.content_setContent, lookupKey_updateFirst_other _ _ _ _ (by decide)]; exact hl

theorem lookupKey_cons (key : GoString) (k v : Node) (rest : List Node) :
    lookupKey key (k :: v :: rest) = if k.value = key then some v else lookupKey key rest := rfl

theorem lookupKey_eq_none_iff (key : GoString) (c : List Node) :
    lookupKey key c = none ↔ key ∉ keysOf c := by
  induction c using pairs_induction with
  | h0 => simp [lookupKey, keysOf]
  | h1 k => simp [lookupKey, keysOf]
  | h2 k v rest ih =>
    unfold lookupKey keysOf
    by_cases hk : k.value = key
    · simp [hk]
    · simp [hk, ih, Ne.symm hk]

/-- With unique keys the descriptor reads each annotation from the first
(and only) entry with its key. -/
theorem parseAnnotationsLoop_get (c : List Node) :
    ∀ (m0 : GoMap GoString) (key : GoString), (keysOf c).Nodup →
      parseAnnotationsLoop c m0 key =
        match lookupKey key c with
        | some v => some v.value
        | none => m0 key := by
  induction c using pairs_induction with
  | h0 => intro m0 key _; rfl
  | h1 k => intro m0 key _; rfl
  | h2 k v rest ih =>
    intro m0 key hnd
    unfold keysOf at hnd
    rw [List.nodup_cons] at hnd
    unfold parseAnnotationsLoop
    rw [ih _ _ hnd.2, lookupKey_cons]
    by_cases hk : k.value = key
    · subst hk
      rw [(lookupKey_eq_none_iff _ _).mpr hnd.1]
      simp [GoMap.set]
    · rw [if_neg hk]
      cases lookupKey key rest with
      | none => simp [GoMap.set, Ne.symm hk]
      | some x => rfl

theorem setAnnotationLoop_spec (key value : GoString) (c : List Node) :
    c.length % 2 = 0 →
      (setAnnotationLoop key value c).length % 2 = 0 ∧
      keysOf (setAnnotationLoop key value c) =
        (if key ∈ keysOf c then keysOf c else keysOf c ++ [key]) ∧
      ∀ k, lookupKey k (setAnnotationLoop key value c) =
        if k = key then
          some (match lookupKey key c with
            | some old => old.setQuoted value
            | none => quotedNode value)
        else lookupKey k c := by
  induction c using pairs_induction with
  | h0 =>
    intro _
    refine ⟨by simp [setAnnotationLoop], by simp [setAnnotationLoop, keysOf, scalarNode, Node.value],
      fun k => ?_⟩
    by_cases hk : k = key
    · subst hk; simp [setAnnotationLoop, lookupKey, scalarNode, Node.value]
    · simp [setAnnotationLoop, lookupKey, scalarNode, Node.value, hk, Ne.symm hk]
  | h1 k => intro h; simp at h
  | h2 k v rest ih =>
    intro hlen
    have hrest : rest.length % 2 = 0 := by
      simp only [List.length_cons] at hlen; omega
    obtain ⟨ih1, ih2, ih3⟩ := ih hrest
    unfold setAnnotationLoop
    by_cases hk : k.value = key
    · rw [if_pos hk]
      refine ⟨by simpa using hlen, by simp [keysOf, hk], fun k2 => ?_⟩
      by_cases hk2 : k2 = key
      · subst hk2; simp [lookupKey, hk]
      · have : k.value ≠ k2 := fun h => hk2 (h ▸ hk)
        simp [lookupKey, hk2, this]
    · rw [if_neg hk]
      refine ⟨by simp only [List.length_cons]; omega, ?_, fun k2 => ?_⟩
      · unfold keysOf
        rw [ih2]
        by_cases hm : key ∈ keysOf rest
        · simp [hm]
        · simp [hm, Ne.symm hk]
      · unfold lookupKey
        rw [ih3]
        by_cases hk2 : k2 = key
        · subst hk2; simp [hk]
        · simp only [hk2, if_false]

theorem removeKeyLoop_spec (key : GoString) (c : List Node) :
    (keysOf c).Nodup →
      (keysOf (removeKeyLoop key c)).Nodup ∧
      ∀ k, lookupKey k (removeKeyLoop key c) = if k = key then none else lookupKey k c := by
  induction c using pairs_induction with
  | h0 => intro _; exact ⟨by simp [removeKeyLoop, keysOf], fun k => by simp [removeKeyLoop, lookupKey]⟩
  | h1 k0 => intro _; exact ⟨by simp [removeKeyLoop, keysOf], fun k => by simp [removeKeyLoop, lookupKey]⟩
  | h2 k0 v rest ih =>
    intro hnd
    unfold keysOf at hnd
    rw [List.nodup_cons] at hnd
    obtain ⟨ih1, ih2⟩ := ih hnd.2
    unfold removeKeyLoop
    by_cases hk : k0.value = key
    · rw [if_pos hk]
      refine ⟨hnd.2, fun k => ?_⟩
      by_cases hk2 : k = key
      · rw [if_pos hk2, hk2, ← hk]
        exact (lookupKey_eq_none_iff _ _).mpr hnd.1
      · have : k0.value ≠ k := fun h => hk2 (h ▸ hk)
        simp [lookupKey, hk2, this]
    · rw [if_neg hk]
      refine ⟨?_, fun k => ?_⟩
      · unfold keysOf
        rw [List.nodup_cons]
        refine ⟨fun hm => hnd.1 ?_, ih1⟩
        have h1 := (lookupKey_eq_none_iff k0.value (removeKeyLoop key rest)).not_left.mpr hm
        rw [ih2, if_neg hk] at h1
        exact (lookupKey_eq_none_iff _ _).not_left.mp h1
      · unfold lookupKey
        rw [ih2]
        by_cases hk2 : k = key
        · subst hk2; simp [hk]
        · simp only [hk2, if_false]

@[simp] theorem Node.value_setQuoted (n : Node) (v : GoString) : (n.setQuoted v).value = v := by
  cases n; rfl

@[simp] theorem Node.tag_setQuoted (n : Node) (v : GoString) :
    (n.setQuoted v).tag = str "!!str" := by
  cases n; rfl

@[simp] theorem Node.style_setQuoted (n : Node) (v : GoString) :
    (n.setQuoted v).style = DoubleQuotedStyle := by
  cases n; rfl

theorem written_value (old : Option Node) (value : GoString) :
    (match old with
      | some o => o.setQuoted value
      | none => quotedNode value).value = value ∧
    (match old with
      | some o => o.setQuoted value
      | none => quotedNode value).tag = str "!!str" ∧
    (match old with
      | some o => o.setQuoted value
      | none => quotedNode value).style = DoubleQuotedStyle := by
  cases old with
  | none => exact ⟨rfl, rfl, rfl⟩
  | some o => simp

theorem nodup_after_set (key : GoString) (ks : List GoString) (h : ks.Nodup) :
    (if key ∈ ks then ks else ks ++ [key]).Nodup := by
  split
  · exact h
  · rename_i hk
    rw [List.nodup_append]
    exact ⟨h, List.nodup_singleton _, by
      intro a ha hb
      rw [List.mem_singleton] at hb
      exact hk (hb ▸ ha)⟩

/-- The content of the annotations mapping after the three annotation
edits of updateSplitResource. -/
theorem split_annotation_edits (c : List Node) (hookEvent weightStr : GoString)
    (heven : c.length % 2 = 0) (hnd : (keysOf c).Nodup) :
    (keysOf (removeKeyLoop annotationHookWeights
      (setAnnotationLoop annotationHookWeight weightStr
        (setAnnotationLoop annotationHook hookEvent c)))).Nodup ∧
    ∀ k, lookupKey k (removeKeyLoop annotationHookWeights
        (setAnnotationLoop annotationHookWeight weightStr
          (setAnnotationLoop annotationHook hookEvent c))) =
      if k = annotationHookWeights then none
      else if k = annotationHookWeight then
        some (match lookupKey annotationHookWeight c with
          | some old => old.setQuoted weightStr
          | none => quotedNode weightStr)
      else if k = annotationHook then
        some (match lookupKey annotationHook c with
          | some old => old.setQuoted hookEvent
          | none => quotedNode hookEvent)
      else lookupKey k c := by
  obtain ⟨e1, k1, l1⟩ := setAnnotationLoop_spec annotationHook hookEvent c heven
  have n1 : (keysOf (setAnnotationLoop annotationHook hookEvent c)).Nodup := by
    rw [k1]; exact nodup_after_set _ _ hnd
  obtain ⟨_, k2, l2⟩ := setAnnotationLoop_spec annotationHookWeight weightStr _ e1
  have n2 : (keysOf (setAnnotationLoop annotationHookWeight weightStr
      (setAnnotationLoop annotationHook hookEvent c))).Nodup := by
    rw [k2]; exact nodup_after_set _ _ n1
  obtain ⟨n3, l3⟩ := removeKeyLoop_spec annotationHookWeights _ n2
  refine ⟨n3, fun k => ?_⟩
  rw [l3, l2, l1 k, l1 annotationHookWeight,
    if_neg (show ¬ annotationHookWeight = annotationHook by decide)]

/-- The annotations of a split replica, for a source with one metadata
mapping, one annotations mapping in it, and unique annotation keys. -/
theorem updateSplitResource_Annotations (doc an : Node) (hookEvent newName : GoString)
    (weight : Int) (envEnabled : Bool)
    (hat : AnnotationsAt (documentContent doc) an)
    (heven : an.content.length % 2 = 0) (hnd : (keysOf an.content).Nodup) :
    (∀ k, (parseResource (updateSplitResource doc hookEvent weight newName envEnabled)).Annotations k
      = if k = annotationHookWeights then none
        else if k = annotationHookWeight then some (itoa weight)
        else if k = annotationHook then some hookEvent
        else (parseResource doc).Annotations k) ∧
    ∃ an2 v, annotationsNode (updateSplitResource doc hookEvent weight newName envEnabled) = some an2 ∧
      lookupKey annotationHookWeight an2.content = some v ∧ v.value = itoa weight ∧
      v.tag = str "!!str" ∧ v.style = DoubleQuotedStyle := by
  have hroot := hat.1
  have hkind : ∀ n : Node,
      ((fun content =>
        let content := setMetadataName content newName
        let content := setAnnotation content annotationHook hookEvent
        let content := setAnnotation content annotationHookWeight (itoa weight)
        let content := removeAnnotation content annotationHookWeights
        if envEnabled then injectEnvVars content hookEvent weight else content) n).kind
        = n.kind := by
    intro n
    dsimp only
    split <;>
      simp only [injectEnvVars_kind, removeAnnotation_kind, setAnnotation_kind,
        setMetadataName_kind]
  have hfinal : AnnotationsAt
      (documentContent (updateSplitResource doc hookEvent weight newName envEnabled))
      (removeAnnotationKey (setAnnotationValue (setAnnotationValue an annotationHook hookEvent)
        annotationHookWeight (itoa weight)) annotationHookWeights) := by
    unfold updateSplitResource
    rw [documentContent_onContent doc _ hroot hkind]
    dsimp only
    have h3 := AnnotationsAt_removeAnnotation_step _ _ annotationHookWeights
      (AnnotationsAt_setAnnotation_step _ _ annotationHookWeight (itoa weight)
        (AnnotationsAt_setAnnotation_step _ _ annotationHook hookEvent
          (AnnotationsAt_setMetadataName _ _ newName hat)))
    split
    · exact AnnotationsAt_injectEnvVars _ _ hookEvent weight h3
    · exact h3
  have hak : an.kind = .MappingNode := by
    obtain ⟨_, md, _, _, _, _, _, hak⟩ := hat
    exact hak
  have hcontent : (removeAnnotationKey (setAnnotationValue
      (setAnnotationValue an annotationHook hookEvent)
      annotationHookWeight (itoa weight)) annotationHookWeights).content =
      removeKeyLoop annotationHookWeights
        (setAnnotationLoop annotationHookWeight (itoa weight)
          (setAnnotationLoop annotationHook hookEvent an.content)) := by
    simp [removeAnnotationKey, setAnnotationValue, hak]
  obtain ⟨n3, l3⟩ := split_annotation_edits an.content hookEvent (itoa weight) heven hnd
  constructor
  · intro k
    rw [parseResource_Annotations_of_at _ _ hfinal, parseResource_Annotations_of_at _ _ hat,
      hcontent, parseAnnotationsLoop_get _ _ _ n3, parseAnnotationsLoop_get _ _ _ hnd, l3]
    have hw1 : ¬ annotationHookWeight = annotationHookWeights := by decide
    have hh1 : ¬ annotationHook = annotationHookWeights := by decide
    have hh2 : ¬ annotationHook = annotationHookWeight := by decide
    by_cases h1 : k = annotationHookWeights
    · subst h1
      rw [if_pos rfl, if_pos rfl]
      rfl
    · by_cases h2 : k = annotationHookWeight
      · subst h2
        rw [if_neg hw1, if_pos rfl, if_neg hw1, if_pos rfl]
        exact congrArg some (written_value _ _).1
      · by_cases h3 : k = annotationHook
        · subst h3
          rw [if_neg hh1, if_neg hh2, if_pos rfl, if_neg hh1, if_neg hh2, if_pos rfl]
          exact congrArg some (written_value _ _).1
        · rw [if_neg h1, if_neg h2, if_neg h3, if_neg h1, if_neg h2, if_neg h3]
  · obtain ⟨_, md, _, hl, _, _, hal, _⟩ := hfinal
    have hwv := written_value (lookupKey annotationHookWeight an.content) (itoa weight)
    refine ⟨removeAnnotationKey (setAnnotationValue (setAnnotationValue an annotationHook hookEvent)
        annotationHookWeight (itoa weight)) annotationHookWeights,
      (match lookupKey annotationHookWeight an.content with
        | some old => old.setQuoted (itoa weight)
        | none => quotedNode (itoa weight)), ?_, ?_, hwv.1, hwv.2.1, hwv.2.2⟩
    · unfold annotationsNode
      rw [hl]
      exact hal
    · rw [hcontent, l3, if_neg (show ¬ annotationHookWeight = annotationHookWeights by decide),
        if_pos rfl]

theorem itoaLoop_eq_decimalLoop (fuel : Nat) :
    ∀ (n : Nat) (acc : GoString), itoaLoop fuel (n : Int) acc = decimalLoop fuel n acc := by
  induction fuel with
  | zero => intro n acc; rfl
  | succ f ih =>
    intro n acc
    unfold itoaLoop decimalLoop
    by_cases hn : n = 0
    · subst hn; simp
    · have hpos : (n : Int) > 0 := by omega
      rw [if_pos hpos, if_neg hn]
      have h1 : (n : Int).tdiv 10 = ((n / 10 : Nat) : Int) := rfl
      have h2 : (n : Int).tmod 10 = ((n % 10 : Nat) : Int) := rfl
      have h3 : ((48 + ((n % 10 : Nat) : Int)) % 256).toNat = 48 + n % 10 := by omega
      rw [h1, h2, h3, ih]

/-- Apart from the least 64-bit integer, the splitter's itoa writes the
decimal string strconv.Itoa writes. -/
theorem itoa_eq_Itoa (n : Int) (h : -9223372036854775808 < n) : itoa n = Itoa n := by
  unfold itoa Itoa
  by_cases h0 : n = 0
  · simp [h0]
  · rw [if_neg h0, if_neg h0]
    by_cases hneg : n < 0
    · have hw : wrapInt64 (-n) = -n := by unfold wrapInt64; omega
      have hcast : (-n) = ((n.natAbs : Nat) : Int) := by omega
      have htn : (-n).toNat = n.natAbs := by omega
      simp only [hneg, decide_True, if_true, hw, htn]
      rw [hcast, itoaLoop_eq_decimalLoop]
    · have hcast : n = ((n.natAbs : Nat) : Int) := by omega
      have htn : n.toNat = n.natAbs := by omega
      simp only [hneg, decide_False, if_false, htn, Bool.false_eq_true]
      conv_lhs => rw [hcast]
      rw [itoaLoop_eq_decimalLoop, Int.natAbs_ofNat]

theorem Atoi_ge (s : GoString) (n : Int) (h : Atoi s = some n) :
    -9223372036854775808 ≤ n := by
  unfold Atoi at h
  cases s with
  | nil => simp at h
  | cons b rest =>
    simp only at h
    split at h
    · split at h
      · split at h
        · simp only [Option.some.injEq] at h; omega
        · simp at h
      · simp at h
    · split at h
      · split at h
        · simp only [Option.some.injEq] at h; omega
        · simp at h
      · simp at h

theorem WeightsInRange_set (m : GoMap Int) (k : GoString) (v : Int) (hm : WeightsInRange m)
    (hv : -9223372036854775808 ≤ v) : WeightsInRange (m.set k v) := by
  intro k2 v2 h
  unfold GoMap.set at h
  split at h
  · simp only [Option.some.injEq] at h; omega
  · exact hm k2 v2 h

theorem WeightsInRange_foldl (hooks : List GoString) (w : Int) (hw : -9223372036854775808 ≤ w) :
    ∀ m : GoMap Int, WeightsInRange m →
      WeightsInRange (hooks.foldl (fun weights h => weights.set h w) m) := by
  induction hooks with
  | nil => intro m hm; exact hm
  | cons a t ih => intro m hm; exact ih _ (WeightsInRange_set m a w hm hw)

theorem WeightsInRange_init (hooks : List GoString) : WeightsInRange (initWeights hooks) := by
  unfold initWeights
  apply WeightsInRange_foldl _ _ (by unfold defaultWeight; omega)
  intro k v h
  simp [GoMap.empty] at h

theorem parsePositionalLoop_range (hooks : List GoString) :
    ∀ (parts : List GoString) (m0 m : GoMap Int), WeightsInRange m0 →
      parsePositionalLoop hooks parts m0 = .ok m → WeightsInRange m := by
  induction hooks with
  | nil =>
    intro parts m0 m h0 h
    cases parts <;> simp [parsePositionalLoop] at h <;> exact h ▸ h0
  | cons a t ih =>
    intro parts m0 m h0 h
    cases parts with
    | nil => simp [parsePositionalLoop] at h; exact h ▸ h0
    | cons p ps =>
      unfold parsePositionalLoop at h
      cases hA : Atoi (TrimSpace p) with
      | none => rw [hA] at h; simp at h
      | some w =>
        rw [hA] at h
        exact ih ps _ m (WeightsInRange_set m0 a w h0 (Atoi_ge _ _ hA)) h

theorem parseExplicitLoop_range (hooks : List GoString) (pairs : List GoString) :
    ∀ (m0 m : GoMap Int), WeightsInRange m0 →
      parseExplicitLoop hooks pairs m0 = .ok m → WeightsInRange m := by
  induction pairs with
  | nil =>
    intro m0 m h0 h
    simp [parseExplicitLoop] at h
    exact h ▸ h0
  | cons p ps ih =>
    intro m0 m h0 h
    unfold parseExplicitLoop at h
    simp only at h
    split at h
    · exact ih _ _ h0 h
    · split at h
      · simp at h
      · split at h
        · simp at h
        · split at h
          · simp at h
          · rename_i w hA
            exact ih _ _ (WeightsInRange_set m0 _ w h0 (Atoi_ge _ _ hA)) h

/-- Every weight parseWeights resolves lies in the range of Atoi: it is never
below the least 64-bit integer. -/
theorem parseWeights_range (annotations : GoMap GoString) (hooks : List GoString)
    (m : GoMap Int) (h : parseWeights annotations hooks = .ok m) (k : GoString) :
    -9223372036854775808 ≤ m.at k := by
  have hr : WeightsInRange m := by
    unfold parseWeights at h
    simp only at h
    split at h
    · exact parseExplicitLoop_range hooks _ _ _ (WeightsInRange_init hooks) h
    · split at h
      · split at h
        · split at h
          · simp at h
          · rename_i w hA
            simp only [Except.ok.injEq] at h
            rw [← h]
            exact WeightsInRange_foldl hooks w (Atoi_ge _ _ hA) _ (WeightsInRange_init hooks)
        · split at h
          · simp at h
          · exact parsePositionalLoop_range hooks _ _ _ (WeightsInRange_init hooks) h
      · simp only [Except.ok.injEq] at h
        exact h ▸ WeightsInRange_init hooks
  unfold GoMap.at
  cases hk : m k with
  | none => simp
  | some v => simpa using hr k v hk

/-- The annotations of the split replicas. For a hook resource that
resolves to two or more events, whose clone has one metadata mapping, one
annotations mapping in it and unique annotation keys, and whose replicas are
all encoded: the i-th replica carries helm.sh/hook with value e_i,
helm.sh/hook-weight with the value itoa(w_i) on a node tagged !!str and
double-quoted, no helm.sh/hook-weights, and every other annotation of the
clone. itoa(w_i) is the decimal string of w_i for every resolved weight but
the least 64-bit integer. -/
theorem processDocument_split_annotations (y : Yaml) (doc c an : Node)
    (hooks : List GoString) (weights : GoMap Int)
    (hc : cloneNode y doc = .ok c)
    (henc : ∀ e ∈ hooks,
      (y.encode (splitReplica (parseResource doc) weights
        (envEnabledOf (parseResource doc).Annotations)
        (nameSuffixEnabledOf (parseResource doc).Annotations) c e)).isSome = true)
    (hat : AnnotationsAt (documentContent c) an)
    (heven : an.content.length % 2 = 0) (hnd : (keysOf an.content).Nodup)
    (hres : resolveHooks (parseResource doc) = .ok hooks)
    (hvalid : validateHooks hooks (parseResource doc).Name = .ok ())
    (hweights : parseWeights (parseResource doc).Annotations hooks = .ok weights)
    (hN : 2 ≤ hooks.length) :
    ∃ docs, processDocument y doc = .ok docs ∧ docs.length = hooks.length ∧
      ∀ (i : Nat) (e : GoString) (d : Node), hooks[i]? = some e → docs[i]? = some d →
        (parseResource d).Annotations annotationHook = some e ∧
        (parseResource d).Annotations annotationHookWeight = some (itoa (weights.at e)) ∧
        (weights.at e ≠ -9223372036854775808 → itoa (weights.at e) = Itoa (weights.at e)) ∧
        (∃ an2 v, annotationsNode d = some an2 ∧
          lookupKey annotationHookWeight an2.content = some v ∧
          v.value = itoa (weights.at e) ∧ v.tag = str "!!str" ∧ v.style = DoubleQuotedStyle) ∧
        (parseResource d).Annotations annotationHookWeights = none ∧
        ∀ k, k ≠ annotationHook → k ≠ annotationHookWeight → k ≠ annotationHookWeights →
          (parseResource d).Annotations k = (parseResource c).Annotations k := by
  refine ⟨_, (processDocument_split y doc hooks weights hres hvalid hweights hN).trans
    (splitResource_ok y doc _ weights _ _ c hc hooks henc), ?_, ?_⟩
  · simp
  · intro i e d hi hd
    rw [List.getElem?_map, hi] at hd
    simp only [Option.map_some', Option.some.injEq] at hd
    subst hd
    unfold splitReplica
    obtain ⟨hget, hnode⟩ := updateSplitResource_Annotations c an e
      (if nameSuffixEnabledOf (parseResource doc).Annotations = true then
        GenerateName (parseResource doc).Name e else (parseResource doc).Name)
      (weights.at e) (envEnabledOf (parseResource doc).Annotations) hat heven hnd
    have hw1 : ¬ annotationHookWeight = annotationHookWeights := by decide
    have hh1 : ¬ annotationHook = annotationHookWeights := by decide
    have hh2 : ¬ annotationHook = annotationHookWeight := by decide
    refine ⟨?_, ?_, ?_, hnode, ?_, ?_⟩
    · rw [hget, if_neg hh1, if_neg hh2, if_pos rfl]
    · rw [hget, if_neg hw1, if_pos rfl]
    · intro hne
      have hge := parseWeights_range _ _ _ hweights e
      exact itoa_eq_Itoa _ (by omega)
    · rw [hget, if_pos rfl]
    · intro k h1 h2 h3
      rw [hget, if_neg h3, if_neg h2, if_neg h1]

theorem processDocument_split_annotations_witness :
    ∃ docs, processDocument exactYaml multiHookJob = .ok docs ∧ docs.length = 2 ∧
      ∀ (i : Nat) (e : GoString) (d : Node),
        [str "pre-install", str "post-upgrade"][i]? = some e → docs[i]? = some d →
        (parseResource d).Annotations annotationHook = some e ∧
        (parseResource d).Annotations annotationHookWeight = some (itoa
          (((initWeights [str "pre-install", str "post-upgrade"]).set (str "pre-install") (-100)
            |>.set (str "post-upgrade") 200).at e)) ∧
        (parseResource d).Annotations annotationHookWeights = none :=
  have h := processDocument_split_annotations exactYaml multiHookJob multiHookJob
    (mappingOf
      [plain "helm.sh/hook", plain "pre-install,post-upgrade",
       plain "helm.sh/hook-weight", plain "-100,200"])
    [str "pre-install", str "post-upgrade"]
    ((initWeights [str "pre-install", str "post-upgrade"]).set (str "pre-install") (-100)
      |>.set (str "post-upgrade") 200)
    rfl (fun _ _ => rfl)
    ⟨by decide, mappingOf
       [plain "name", plain "myapp-migration",
        plain "annotations", mappingOf
          [plain "helm.sh/hook", plain "pre-install,post-upgrade",
           plain "helm.sh/hook-weight", plain "-100,200"]],
      by decide, by rfl, by decide, by decide, by rfl, by decide⟩
    (by decide) (by decide) (by decide) (by decide) (by rfl) (by decide)
  match h with
  | ⟨docs, h1, h2, h3⟩ =>
    ⟨docs, h1, h2, fun i e d hi hd => ⟨(h3 i e d hi hd).1, (h3 i e d hi hd).2.1,
      (h3 i e d hi hd).2.2.2.2.1⟩⟩

/-- C2, the code at the failing input: the first event of minWeightJob
resolves to the weight -9223372036854775808, whose decimal string strconv.Itoa
gives in full, and the splitter's itoa writes "-" as the helm.sh/hook-weight
annotation of the first replica. -/
theorem processDocument_minWeight_annotation :
    (parseWeights (parseResource minWeightJob).Annotations
        [str "pre-install", str "post-upgrade"]).map (fun m => m (str "pre-install"))
      = .ok (some (-9223372036854775808)) ∧
    Itoa (-9223372036854775808) = str "-9223372036854775808" ∧
    itoa (-9223372036854775808) = str "-" ∧
    (processDocument exactYaml minWeightJob).map
        (fun docs => docs.map (fun d => (parseResource d).Annotations annotationHookWeight))
      = .ok [some (str "-"), some (str "200")] := by
  decide

/-! ## Explicit weights (parseExplicitWeights) -/

theorem SplitN2_shape (s : GoString) (sep : Nat) :
    (∃ a, SplitN2 s sep = [a]) ∨ (∃ a b, SplitN2 s sep = [a, b]) := by
  unfold SplitN2
  rcases h : s.span (fun b => b != sep) with ⟨before, _ | ⟨c, after⟩⟩
  · exact Or.inl ⟨before, rfl⟩
  · exact Or.inr ⟨before, after, rfl⟩

/-- One round of the loop of parseExplicitWeights, by the reading of the
pair. -/
theorem parseExplicitLoop_cons (hooks : List GoString) (pair : GoString)
    (rest : List GoString) (weights : GoMap Int) :
    parseExplicitLoop hooks (pair :: rest) weights =
      if TrimSpace pair = [] then parseExplicitLoop hooks rest weights
      else
        match pairKey pair with
        | none => .error (.invalidWeightMapping (TrimSpace pair))
        | some k =>
            if k ∈ hooks then
              match pairInt pair with
              | none => .error (.invalidWeightForHook k)
              | some w => parseExplicitLoop hooks rest (weights.set k w)
            else .error (.unknownHook k) := by
  by_cases he : TrimSpace pair = []
  · simp [parseExplicitLoop, he]
  · rcases SplitN2_shape (TrimSpace pair) equalsSign with ⟨a, ha⟩ | ⟨a, b, hab⟩
    · simp [parseExplicitLoop, pairKey, he, ha]
    · by_cases hk : TrimSpace a ∈ hooks
      · cases hw : Atoi (TrimSpace b) <;>
          simp [parseExplicitLoop, pairKey, pairInt, he, hab, hk, hw]
      · simp [parseExplicitLoop, pairKey, pairInt, he, hab, hk]

theorem parseExplicitLoop_ok_cons (hooks : List GoString) (pair : GoString)
    (rest : List GoString) (m0 m : GoMap Int)
    (h : parseExplicitLoop hooks (pair :: rest) m0 = .ok m) :
    (pairKey pair = none ∧ parseExplicitLoop hooks rest m0 = .ok m) ∨
    (∃ k w, pairKey pair = some k ∧ k ∈ hooks ∧ pairInt pair = some w ∧
      parseExplicitLoop hooks rest (m0.set k w) = .ok m) := by
  rw [parseExplicitLoop_cons] at h
  by_cases he : TrimSpace pair = []
  · rw [if_pos he] at h
    exact Or.inl ⟨by simp [pairKey, he], h⟩
  · rw [if_neg he] at h
    cases hk : pairKey pair with
    | none => rw [hk] at h; simp at h
    | some k =>
        rw [hk] at h
        by_cases hm : k ∈ hooks
        · simp only [if_pos hm] at h
          cases hw : pairInt pair with
          | none => rw [hw] at h; simp at h
          | some w =>
              rw [hw] at h
              exact Or.inr ⟨k, w, rfl, hm, rfl, h⟩
        · simp [if_neg hm] at h

/-- What the loop of parseExplicitWeights leaves in the map: an event no
pair names keeps its entry, an event some pair names gets the integer of the
last pair naming it. -/
theorem parseExplicitLoop_last (hooks : List GoString) :
    ∀ (pairs : List GoString) (m0 m : GoMap Int),
      parseExplicitLoop hooks pairs m0 = .ok m →
      (∀ h, (∀ p ∈ pairs, pairKey p ≠ some h) → m h = m0 h) ∧
      (∀ h pre p post, pairs = pre ++ p :: post → pairKey p = some h →
        (∀ q ∈ post, pairKey q ≠ some h) → ∃ w, pairInt p = some w ∧ m h = some w) := by
  intro pairs
  induction pairs with
  | nil =>
      intro m0 m h
      simp only [parseExplicitLoop, Except.ok.injEq] at h
      subst h
      refine ⟨fun _ _ => rfl, ?_⟩
      intro h pre p post hp
      simp at hp
  | cons pair rest ih =>
      intro m0 m h
      rcases parseExplicitLoop_ok_cons hooks pair rest m0 m h with ⟨hk, hr⟩ | ⟨k, w, hk, _, hw, hr⟩
      · obtain ⟨ih1, ih2⟩ := ih m0 m hr
        refine ⟨fun h hn => ih1 h (fun p hp => hn p (List.mem_cons_of_mem _ hp)), ?_⟩
        intro h pre p post hsplit hpk hpost
        cases pre with
        | nil =>
            simp only [List.nil_append, List.cons.injEq] at hsplit
            rw [← hsplit.1, hk] at hpk
            simp at hpk
        | cons a pre2 =>
            simp only [List.cons_append, List.cons.injEq] at hsplit
            exact ih2 h pre2 p post hsplit.2 hpk hpost
      · obtain ⟨ih1, ih2⟩ := ih (m0.set k w) m hr
        refine ⟨?_, ?_⟩
        · intro h hn
          rw [ih1 h (fun p hp => hn p (List.mem_cons_of_mem _ hp))]
          have hne : h ≠ k := by
            intro e
            exact hn pair (List.mem_cons_self _ _) (by rw [hk, e])
          exact GoMap.set_other m0 k h w hne
        · intro h pre p post hsplit hpk hpost
          cases pre with
          | nil =>
              simp only [List.nil_append, List.cons.injEq] at hsplit
              obtain ⟨h1, h2⟩ := hsplit
              subst h1; subst h2
              rw [hk] at hpk
              simp only [Option.some.injEq] at hpk
              subst hpk
              refine ⟨w, hw, ?_⟩
              rw [ih1 k hpost]
              exact GoMap.set_same m0 k w
          | cons a pre2 =>
              simp only [List.cons_append, List.cons.injEq] at hsplit
              exact ih2 h pre2 p post hsplit.2 hpk hpost

theorem parseWeights_of_weights (annotations : GoMap GoString) (hooks : List GoString)
    (weightsVal : GoString) (hw : annotations annotationHookWeights = some weightsVal) :
    parseWeights annotations hooks = parseExplicitWeights weightsVal hooks := by
  unfold parseWeights
  simp only [hw]

theorem initWeights_get (hooks : List GoString) (h : GoString) :
    initWeights hooks h = if h ∈ hooks then some 0 else none := by
  unfold initWeights
  rw [broadcast_get]
  rfl

/-- C11. With helm.sh/hook-weights present, a successful parseWeights gives
every listed event that no pair of the mapping names the weight 0 and every
event that a pair names the integer of the last pair naming it; the result
is the same for every annotation map with that helm.sh/hook-weights value,
whatever its helm.sh/hook-weight holds. -/
theorem parseWeights_explicit_last (annotations : GoMap GoString) (hooks : List GoString)
    (weightsVal : GoString) (m : GoMap Int)
    (hw : annotations annotationHookWeights = some weightsVal)
    (hok : parseWeights annotations hooks = .ok m) :
    (∀ h ∈ hooks, (∀ p ∈ Split weightsVal comma, pairKey p ≠ some h) → m h = some 0) ∧
    (∀ h pre p post, Split weightsVal comma = pre ++ p :: post → pairKey p = some h →
        (∀ q ∈ post, pairKey q ≠ some h) → ∃ w, pairInt p = some w ∧ m h = some w) ∧
    (∀ other : GoMap GoString, other annotationHookWeights = some weightsVal →
        parseWeights other hooks = .ok m) := by
  rw [parseWeights_of_weights annotations hooks weightsVal hw] at hok
  obtain ⟨h1, h2⟩ := parseExplicitLoop_last hooks _ _ _ hok
  refine ⟨?_, h2, ?_⟩
  · intro h hh hn
    rw [h1 h hn, initWeights_get, if_pos hh]
  · intro other ho
    rw [parseWeights_of_weights other hooks weightsVal ho]
    exact hok

theorem parseWeights_explicit_last_witness :
    ∃ m, parseWeights
        ((GoMap.empty.set annotationHookWeights (str "pre-install=5, pre-install = 7")).set
          annotationHookWeight (str "x,y,z"))
        [str "pre-install", str "pre-delete"] = .ok m ∧
      m (str "pre-delete") = some 0 ∧ m (str "pre-install") = some 7 :=
  have hm : parseWeights
      ((GoMap.empty.set annotationHookWeights (str "pre-install=5, pre-install = 7")).set
        annotationHookWeight (str "x,y,z"))
      [str "pre-install", str "pre-delete"] =
      .ok (((initWeights [str "pre-install", str "pre-delete"]).set (str "pre-install") 5).set
        (str "pre-install") 7) := rfl
  have hall := parseWeights_explicit_last _ _ (str "pre-install=5, pre-install = 7") _ (by decide) hm
  ⟨_, hm, hall.1 (str "pre-delete") (by decide) (by decide),
    by
      obtain ⟨w, hw, hv⟩ := hall.2.1 (str "pre-install") [str "pre-install=5"] (str " pre-install = 7") []
        (by decide) (by decide) (by decide)
      rw [hv, ← hw]
      decide⟩

theorem pairKey_some_ne (pair k : GoString) (h : pairKey pair = some k) : TrimSpace pair ≠ [] := by
  intro he
  simp [pairKey, he] at h

/-- A pair naming an event outside the list stops the loop of
parseExplicitWeights with an error; when every pair before it is passed over,
the error is the unknown-hook error of that pair. -/
theorem parseExplicitLoop_unknown (hooks : List GoString) (p k : GoString) (post : List GoString)
    (hk : pairKey p = some k) (hnot : k ∉ hooks) :
    ∀ (pre : List GoString) (m0 : GoMap Int),
      (∃ e, parseExplicitLoop hooks (pre ++ p :: post) m0 = .error e) ∧
      ((∀ q ∈ pre, pairAccepted hooks q) →
        parseExplicitLoop hooks (pre ++ p :: post) m0 = .error (.unknownHook k)) := by
  intro pre
  induction pre with
  | nil =>
      intro m0
      have h : parseExplicitLoop hooks (p :: post) m0 = .error (.unknownHook k) := by
        rw [parseExplicitLoop_cons, if_neg (pairKey_some_ne p k hk), hk]
        simp only [if_neg hnot]
      exact ⟨⟨_, h⟩, fun _ => h⟩
  | cons a pre ih =>
      intro m0
      simp only [List.cons_append]
      rw [parseExplicitLoop_cons]
      by_cases he : TrimSpace a = []
      · rw [if_pos he]
        exact ⟨(ih m0).1, fun hacc => (ih m0).2 (fun q hq => hacc q (List.mem_cons_of_mem _ hq))⟩
      · rw [if_neg he]
        have ha : ∀ (acc : pairAccepted hooks a), ∃ k2 w, pairKey a = some k2 ∧ k2 ∈ hooks ∧
            pairInt a = some w := by
          intro acc
          rcases acc with h0 | h1
          · exact absurd h0 he
          · exact h1
        cases hka : pairKey a with
        | none =>
            refine ⟨⟨_, rfl⟩, fun hacc => ?_⟩
            obtain ⟨k2, w, h2, _, _⟩ := ha (hacc a (List.mem_cons_self _ _))
            rw [hka] at h2
            simp at h2
        | some k2 =>
            simp only []
            by_cases hm : k2 ∈ hooks
            · rw [if_pos hm]
              cases hwa : pairInt a with
              | none =>
                  refine ⟨⟨_, rfl⟩, fun hacc => ?_⟩
                  obtain ⟨k3, w, _, _, h3⟩ := ha (hacc a (List.mem_cons_self _ _))
                  rw [hwa] at h3
                  simp at h3
              | some w =>
                  exact ⟨(ih _).1, fun hacc => (ih _).2 (fun q hq => hacc q (List.mem_cons_of_mem _ hq))⟩
            · rw [if_neg hm]
              refine ⟨⟨_, rfl⟩, fun hacc => ?_⟩
              obtain ⟨k3, w, h3, h4, _⟩ := ha (hacc a (List.mem_cons_self _ _))
              rw [hka] at h3
              simp only [Option.some.injEq] at h3
              subst h3
              exact absurd h4 hm

/-- C12. A helm.sh/hook-weights value holding a non-empty pair 'k=w' whose
trimmed key k is not in the event list makes parseExplicitWeights fail: no
weight map is returned, and the error is the unknown-hook error for k when
every pair before that one is passed over (empty, or a listed event with an
integer). -/
theorem parseExplicitWeights_unknown_hook (value : GoString) (hooks : List GoString)
    (pre : List GoString) (p : GoString) (post : List GoString) (k : GoString)
    (hsplit : Split value comma = pre ++ p :: post)
    (hk : pairKey p = some k) (hnot : k ∉ hooks) :
    (∀ m, parseExplicitWeights value hooks ≠ .ok m) ∧
    (∃ e, parseExplicitWeights value hooks = .error e) ∧
    ((∀ q ∈ pre, pairAccepted hooks q) →
      parseExplicitWeights value hooks = .error (.unknownHook k)) := by
  unfold parseExplicitWeights
  rw [hsplit]
  obtain ⟨⟨e, he⟩, h2⟩ := parseExplicitLoop_unknown hooks p k post hk hnot pre (initWeights hooks)
  refine ⟨fun m hm => ?_, ⟨e, he⟩, h2⟩
  rw [he] at hm
  cases hm

theorem parseExplicitWeights_unknown_hook_witness :
    parseExplicitWeights (str "pre-install=1, ,post-delete = 2,bad") [str "pre-install"] =
      .error (.unknownHook (str "post-delete")) :=
  (parseExplicitWeights_unknown_hook (str "pre-install=1, ,post-delete = 2,bad") [str "pre-install"]
    [str "pre-install=1", str " "] (str "post-delete = 2") [str "bad"] (str "post-delete")
    (by decide) (by decide) (by decide)).2.2
    (by
      intro q hq
      simp only [List.mem_cons, List.mem_singleton, List.not_mem_nil, or_false] at hq
      rcases hq with rfl | rfl
      · exact Or.inr ⟨str "pre-install", 1, by decide, by decide, by decide⟩
      · exact Or.inl (by decide))

theorem KeysAre_init (hooks : List GoString) : KeysAre (initWeights hooks) hooks := by
  intro k
  rw [initWeights_get]
  by_cases h : k ∈ hooks <;> simp [h]

theorem KeysAre_set (m : GoMap Int) (hooks : List GoString) (k : GoString) (w : Int)
    (hm : KeysAre m hooks) (hk : k ∈ hooks) : KeysAre (m.set k w) hooks := by
  intro k2
  by_cases h : k2 = k
  · subst h
    rw [GoMap.set_same]
    simp [hk]
  · rw [GoMap.set_other m k k2 w h]
    exact hm k2

theorem parseExplicitLoop_keys (hooks : List GoString) :
    ∀ (pairs : List GoString) (m0 m : GoMap Int),
      parseExplicitLoop hooks pairs m0 = .ok m → KeysAre m0 hooks → KeysAre m hooks := by
  intro pairs
  induction pairs with
  | nil =>
      intro m0 m h hk
      simp only [parseExplicitLoop, Except.ok.injEq] at h
      subst h
      exact hk
  | cons pair rest ih =>
      intro m0 m h hk
      rcases parseExplicitLoop_ok_cons hooks pair rest m0 m h with ⟨_, hr⟩ | ⟨k, w, _, hmem, _, hr⟩
      · exact ih m0 m hr hk
      · exact ih _ m hr (KeysAre_set m0 hooks k w hk hmem)

theorem parsePositionalLoop_keys (hooks : List GoString) :
    ∀ (hs parts : List GoString) (m0 m : GoMap Int),
      parsePositionalLoop hs parts m0 = .ok m → (∀ h ∈ hs, h ∈ hooks) →
      KeysAre m0 hooks → KeysAre m hooks := by
  intro hs
  induction hs with
  | nil =>
      intro parts m0 m h _ hk
      simp only [parsePositionalLoop, Except.ok.injEq] at h
      subst h
      exact hk
  | cons a hs ih =>
      intro parts m0 m h hsub hk
      cases parts with
      | nil =>
          simp only [parsePositionalLoop, Except.ok.injEq] at h
          subst h
          exact hk
      | cons part parts =>
          simp only [parsePositionalLoop] at h
          cases hA : Atoi (TrimSpace part) with
          | none => rw [hA] at h; simp at h
          | some w =>
              rw [hA] at h
              exact ih parts _ m h (fun x hx => hsub x (List.mem_cons_of_mem _ hx))
                (KeysAre_set m0 hooks a w hk (hsub a (List.mem_cons_self _ _)))

theorem parseWeights_keys (annotations : GoMap GoString) (hooks : List GoString) (m : GoMap Int)
    (hok : parseWeights annotations hooks = .ok m) : KeysAre m hooks := by
  unfold parseWeights at hok
  cases hW : annotations annotationHookWeights with
  | some weightsVal =>
      simp only [hW] at hok
      exact parseExplicitLoop_keys hooks _ _ m hok (KeysAre_init hooks)
  | none =>
      simp only [hW] at hok
      cases hw : annotations annotationHookWeight with
      | none =>
          simp only [hw, Except.ok.injEq] at hok
          subst hok
          exact KeysAre_init hooks
      | some weightVal =>
          simp only [hw] at hok
          by_cases h1 : (Split weightVal comma).length = 1
          · rw [if_pos h1] at hok
            cases hA : Atoi (TrimSpace ((Split weightVal comma).getD 0 [])) with
            | none => rw [hA] at hok; simp at hok
            | some w =>
                rw [hA] at hok
                simp only [Except.ok.injEq] at hok
                subst hok
                intro k
                rw [broadcast_get]
                by_cases hk : k ∈ hooks
                · simp [hk]
                · rw [if_neg hk]
                  exact KeysAre_init hooks k
          · rw [if_neg h1] at hok
            by_cases h2 : (Split weightVal comma).length ≠ hooks.length
            · rw [if_pos h2] at hok
              simp at hok
            · rw [if_neg h2] at hok
              exact parsePositionalLoop_keys hooks hooks _ _ m hok (fun _ h => h) (KeysAre_init hooks)

/-- C14. When parseWeights succeeds, the keys of the returned weight map are
exactly the listed events: every listed event has a weight, and no string
outside the list has one. -/
theorem parseWeights_key_set (annotations : GoMap GoString) (hooks : List GoString)
    (m : GoMap Int) (hok : parseWeights annotations hooks = .ok m) :
    (∀ k, k ∈ hooks → ∃ w, m k = some w) ∧ (∀ k, k ∉ hooks → m k = none) ∧
    (∀ k, (m k).isSome = true ↔ k ∈ hooks) := by
  have hk := parseWeights_keys annotations hooks m hok
  refine ⟨fun k hin => ?_, fun k hout => ?_, hk⟩
  · exact Option.isSome_iff_exists.mp ((hk k).mpr hin)
  · cases h : m k with
    | none => rfl
    | some w => exact absurd ((hk k).mp (by rw [h]; rfl)) hout

theorem parseWeights_key_set_witness :
    (∃ w, (((initWeights [str "pre-install", str "pre-delete"]).set (str "pre-install") 5).set
        (str "pre-install") 7) (str "pre-delete") = some w) ∧
      (((initWeights [str "pre-install", str "pre-delete"]).set (str "pre-install") 5).set
        (str "pre-install") 7) (str "post-install") = none :=
  have h := parseWeights_key_set
    ((GoMap.empty.set annotationHookWeights (str "pre-install=5, pre-install = 7")).set
      annotationHookWeight (str "x,y,z"))
    [str "pre-install", str "pre-delete"] _ rfl
  ⟨h.1 _ (by decide), h.2.1 _ (by decide)⟩

/-! ## White space, Split and Atoi on written pairs -/

theorem trimLeftSpace_one (b : Nat) (rest : GoString) (h : isSpace1 b = true) :
    trimLeftSpace (b :: rest) = trimLeftSpace rest := by
  simp [trimLeftSpace, spaceWidth, h]

theorem isSpace2_not1 (b c : Nat) (h : isSpace2 b c = true) :
    isSpace1 b = false ∧ isSpace1 c = false := by
  simp only [isSpace2, isSpace1, decide_eq_true_eq, decide_eq_false_iff_not] at h ⊢
  omega

theorem isSpace3_not (b c d : Nat) (h : isSpace3 b c d = true) :
    isSpace1 b = false ∧ isSpace1 d = false ∧ isSpace2 b c = false ∧ isSpace2 c d = false := by
  simp only [isSpace3, isSpace2, isSpace1, decide_eq_true_eq, decide_eq_false_iff_not] at h ⊢
  omega

theorem trimLeftSpace_two (b c : Nat) (rest : GoString) (h : isSpace2 b c = true) :
    trimLeftSpace (b :: c :: rest) = trimLeftSpace rest := by
  simp [trimLeftSpace, spaceWidth, h, (isSpace2_not1 b c h).1]

theorem trimLeftSpace_three (b c d : Nat) (rest : GoString) (h : isSpace3 b c d = true) :
    trimLeftSpace (b :: c :: d :: rest) = trimLeftSpace rest := by
  obtain ⟨h1, _, h2, _⟩ := isSpace3_not b c d h
  simp [trimLeftSpace, spaceWidth, h, h1, h2]

theorem trimLeftSpaceRev_one (b : Nat) (rest : GoString) (h : isSpace1 b = true) :
    trimLeftSpaceRev (b :: rest) = trimLeftSpaceRev rest := by
  simp [trimLeftSpaceRev, spaceWidthRev, h]

theorem trimLeftSpaceRev_two (b c : Nat) (rest : GoString) (h : isSpace2 b c = true) :
    trimLeftSpaceRev (c :: b :: rest) = trimLeftSpaceRev rest := by
  simp [trimLeftSpaceRev, spaceWidthRev, h, (isSpace2_not1 b c h).2]

theorem trimLeftSpaceRev_three (b c d : Nat) (rest : GoString) (h : isSpace3 b c d = true) :
    trimLeftSpaceRev (d :: c :: b :: rest) = trimLeftSpaceRev rest := by
  obtain ⟨_, h1, _, h2⟩ := isSpace3_not b c d h
  simp [trimLeftSpaceRev, spaceWidthRev, h, h1, h2]

theorem plainByte_spec (b : Nat) (h : plainByte b = true) : b < 128 ∧ isSpace1 b = false := by
  simpa [plainByte] using h

theorem isSpace2_ge (b c : Nat) (h : isSpace2 b c = true) : 128 ≤ b ∧ 128 ≤ c := by
  simp only [isSpace2, decide_eq_true_eq] at h
  omega

theorem isSpace3_ge (b c d : Nat) (h : isSpace3 b c d = true) : 128 ≤ b ∧ 128 ≤ d := by
  simp only [isSpace3, decide_eq_true_eq] at h
  omega

theorem spaceWidth_plain (b : Nat) (rest : GoString) (h : plainByte b = true) :
    spaceWidth (b :: rest) = 0 := by
  obtain ⟨hlt, hs⟩ := plainByte_spec b h
  unfold spaceWidth
  simp only [hs]
  cases rest with
  | nil => rfl
  | cons c rest2 =>
      have h2 : isSpace2 b c = false := by
        cases hc : isSpace2 b c with
        | false => rfl
        | true => have := (isSpace2_ge b c hc).1; omega
      simp only [h2]
      cases rest2 with
      | nil => rfl
      | cons d rest3 =>
          have h3 : isSpace3 b c d = false := by
            cases hc : isSpace3 b c d with
            | false => rfl
            | true => have := (isSpace3_ge b c d hc).1; omega
          simp [h3]

theorem spaceWidthRev_plain (b : Nat) (rest : GoString) (h : plainByte b = true) :
    spaceWidthRev (b :: rest) = 0 := by
  obtain ⟨hlt, hs⟩ := plainByte_spec b h
  unfold spaceWidthRev
  simp only [hs]
  cases rest with
  | nil => rfl
  | cons c rest2 =>
      have h2 : isSpace2 c b = false := by
        cases hc : isSpace2 c b with
        | false => rfl
        | true => have := (isSpace2_ge c b hc).2; omega
      simp only [h2]
      cases rest2 with
      | nil => rfl
      | cons d rest3 =>
          have h3 : isSpace3 d c b = false := by
            cases hc : isSpace3 d c b with
            | false => rfl
            | true => have := (isSpace3_ge d c b hc).2; omega
          simp [h3]

theorem trimLeftSpace_plain (b : Nat) (rest : GoString) (h : plainByte b = true) :
    trimLeftSpace (b :: rest) = b :: rest := by
  unfold trimLeftSpace
  rw [spaceWidth_plain b rest h]
  split <;> simp_all

theorem trimLeftSpaceRev_plain (b : Nat) (rest : GoString) (h : plainByte b = true) :
    trimLeftSpaceRev (b :: rest) = b :: rest := by
  unfold trimLeftSpaceRev
  rw [spaceWidthRev_plain b rest h]
  split <;> simp_all

theorem trimLeftSpace_spaces (ws : GoString) (h : Spaces ws) (t : GoString) :
    trimLeftSpace (ws ++ t) = trimLeftSpace t := by
  induction h with
  | nil => rfl
  | one b rest hb _ ih => rw [List.cons_append, trimLeftSpace_one b _ hb, ih]
  | two b c rest hb _ ih =>
      rw [List.cons_append, List.cons_append, trimLeftSpace_two b c _ hb, ih]
  | three b c d rest hb _ ih =>
      rw [List.cons_append, List.cons_append, List.cons_append, trimLeftSpace_three b c d _ hb, ih]

theorem trimLeftSpaceRev_spaces (ws : GoString) (h : Spaces ws) :
    ∀ t : GoString, trimLeftSpaceRev (ws.reverse ++ t) = trimLeftSpaceRev t := by
  induction h with
  | nil => intro t; rfl
  | one b rest hb _ ih =>
      intro t
      rw [List.reverse_cons, List.append_assoc, ih, List.singleton_append,
        trimLeftSpaceRev_one b _ hb]
  | two b c rest hb _ ih =>
      intro t
      rw [List.reverse_cons, List.reverse_cons, List.append_assoc, List.append_assoc, ih,
        List.singleton_append, List.singleton_append, trimLeftSpaceRev_two b c _ hb]
  | three b c d rest hb _ ih =>
      intro t
      rw [List.reverse_cons, List.reverse_cons, List.reverse_cons, List.append_assoc,
        List.append_assoc, List.append_assoc, ih, List.singleton_append, List.singleton_append,
        List.singleton_append, trimLeftSpaceRev_three b c d _ hb]

theorem plainEnds_spec (s : GoString) (h : plainEnds s = true) :
    (∃ x, s.head? = some x ∧ plainByte x = true) ∧
      (∃ y, s.getLast? = some y ∧ plainByte y = true) := by
  unfold plainEnds at h
  rw [Bool.and_eq_true] at h
  obtain ⟨h1, h2⟩ := h
  constructor
  · cases hh : s.head? with
    | none => rw [hh] at h1; simp at h1
    | some x => rw [hh] at h1; exact ⟨x, rfl, by simpa using h1⟩
  · cases hh : s.getLast? with
    | none => rw [hh] at h2; simp at h2
    | some y => rw [hh] at h2; exact ⟨y, rfl, by simpa using h2⟩

/-- Go strings.TrimSpace takes the white space off both ends of a padded
string whose core begins and ends with a plain byte. -/
theorem TrimSpace_padded (ws1 core ws2 : GoString) (h1 : Spaces ws1) (h2 : Spaces ws2)
    (hc : plainEnds core = true) : TrimSpace (ws1 ++ core ++ ws2) = core := by
  obtain ⟨⟨x, hx, px⟩, ⟨y, hy, py⟩⟩ := plainEnds_spec core hc
  obtain ⟨r, hr⟩ : ∃ r, core = x :: r := by
    cases core with
    | nil => simp at hx
    | cons a r => simp only [List.head?_cons, Option.some.injEq] at hx; exact ⟨r, by rw [hx]⟩
  obtain ⟨q, hq⟩ : ∃ q, core.reverse = y :: q := by
    cases hrev : core.reverse with
    | nil =>
        rw [List.reverse_eq_nil_iff] at hrev
        rw [hrev] at hx
        simp at hx
    | cons a q =>
        have : core.getLast? = some a := by
          rw [← List.head?_reverse, hrev]
          rfl
        rw [this] at hy
        simp only [Option.some.injEq] at hy
        exact ⟨q, by rw [hy]⟩
  unfold TrimSpace
  rw [List.append_assoc, trimLeftSpace_spaces ws1 h1]
  have e1 : trimLeftSpace (core ++ ws2) = core ++ ws2 := by
    rw [hr, List.cons_append, trimLeftSpace_plain x _ px]
  rw [e1, List.reverse_append, trimLeftSpaceRev_spaces ws2 h2, hq, trimLeftSpaceRev_plain y q py,
    ← hq, List.reverse_reverse]

theorem Spaces_bytes (ws : GoString) (h : Spaces ws) : ∀ b ∈ ws, b ≠ comma ∧ b ≠ equalsSign := by
  induction h with
  | nil => intro b hb; simp at hb
  | one b rest hb _ ih =>
      intro x hx
      rcases List.mem_cons.mp hx with rfl | hx
      · simp only [isSpace1, decide_eq_true_eq] at hb
        simp only [comma, equalsSign]
        omega
      · exact ih x hx
  | two b c rest hb _ ih =>
      intro x hx
      simp only [List.mem_cons] at hx
      simp only [isSpace2, decide_eq_true_eq] at hb
      rcases hx with rfl | rfl | hx
      · simp only [comma, equalsSign]; omega
      · simp only [comma, equalsSign]; omega
      · exact ih x hx
  | three b c d rest hb _ ih =>
      intro x hx
      simp only [List.mem_cons] at hx
      simp only [isSpace3, decide_eq_true_eq] at hb
      rcases hx with rfl | rfl | rfl | hx
      · simp only [comma, equalsSign]; omega
      · simp only [comma, equalsSign]; omega
      · simp only [comma, equalsSign]; omega
      · exact ih x hx

theorem SplitN2_append (a b : GoString) (sep : Nat) (h : sep ∉ a) :
    SplitN2 (a ++ sep :: b) sep = [a, b] := by
  unfold SplitN2
  have : (a ++ sep :: b).span (fun x => x != sep) = (a, sep :: b) := by
    rw [List.span_eq_take_drop]
    induction a with
    | nil => simp
    | cons x a ih =>
        have hx : x ≠ sep := fun e => h (by rw [e]; exact List.mem_cons_self _ _)
        have ha : sep ∉ a := fun e => h (List.mem_cons_of_mem _ e)
        have := ih ha
        simp only [Prod.mk.injEq] at this
        simp [List.takeWhile_cons, List.dropWhile_cons, hx, this.1, this.2]
  rw [this]

theorem Split_no_sep (a : GoString) (sep : Nat) (h : sep ∉ a) : Split a sep = [a] := by
  induction a with
  | nil => rfl
  | cons x a ih =>
      have hx : x ≠ sep := fun e => h (by rw [e]; exact List.mem_cons_self _ _)
      have ha : sep ∉ a := fun e => h (List.mem_cons_of_mem _ e)
      simp [Split, hx, ih ha]

theorem Split_append (a rest : GoString) (sep : Nat) (h : sep ∉ a) :
    Split (a ++ sep :: rest) sep = a :: Split rest sep := by
  induction a with
  | nil => simp [Split]
  | cons x a ih =>
      have hx : x ≠ sep := fun e => h (by rw [e]; exact List.mem_cons_self _ _)
      have ha : sep ∉ a := fun e => h (List.mem_cons_of_mem _ e)
      simp [Split, hx, ih ha]

theorem Split_joinComma (pieces : List GoString) (hne : pieces ≠ [])
    (h : ∀ t ∈ pieces, comma ∉ t) : Split (joinComma pieces) comma = pieces := by
  induction pieces with
  | nil => exact absurd rfl hne
  | cons a rest ih =>
      cases rest with
      | nil => exact Split_no_sep a comma (h a (List.mem_cons_self _ _))
      | cons b rest =>
          simp only [joinComma]
          rw [Split_append a _ comma (h a (List.mem_cons_self _ _)),
            ih (by simp) (fun t ht => h t (List.mem_cons_of_mem _ ht))]

theorem plainEnds_append (a mid b : GoString) (ha : plainEnds a = true) (hb : plainEnds b = true) :
    plainEnds (a ++ mid ++ b) = true := by
  obtain ⟨⟨x, hx, px⟩, _⟩ := plainEnds_spec a ha
  obtain ⟨_, ⟨y, hy, py⟩⟩ := plainEnds_spec b hb
  have h1 : (a ++ mid ++ b).head? = some x := by
    cases a with
    | nil => simp at hx
    | cons c a => simpa using hx
  have h2 : (a ++ mid ++ b).getLast? = some y := by
    rw [List.getLast?_append, hy]
    rfl
  unfold plainEnds
  rw [h1, h2]
  simp [px, py]

theorem foldl_digits_none (s : GoString) :
    s.foldl
      (fun acc b =>
        match acc with
        | none => none
        | some n => if 48 ≤ b ∧ b ≤ 57 then some (n * 10 + (b - 48)) else none)
      (none : Option Nat) = none := by
  induction s with
  | nil => rfl
  | cons b s ih => simpa using ih

theorem foldl_digits_some (s : GoString) :
    ∀ (a n : Nat), s.foldl
      (fun acc b =>
        match acc with
        | none => none
        | some n => if 48 ≤ b ∧ b ≤ 57 then some (n * 10 + (b - 48)) else none)
      (some a) = some n → ∀ b ∈ s, 48 ≤ b ∧ b ≤ 57 := by
  induction s with
  | nil => intro a n _ b hb; simp at hb
  | cons c s ih =>
      intro a n h b hb
      rw [List.foldl_cons] at h
      by_cases hc : 48 ≤ c ∧ c ≤ 57
      · simp only [hc, and_self, ite_true] at h
        rcases List.mem_cons.mp hb with rfl | hb
        · exact hc
        · exact ih _ n h b hb
      · simp only [hc, ite_false] at h
        rw [foldl_digits_none] at h
        cases h

theorem parseDigits_bytes (s : GoString) (n : Nat) (h : parseDigits s = some n) :
    s ≠ [] ∧ ∀ b ∈ s, 48 ≤ b ∧ b ≤ 57 := by
  cases s with
  | nil => simp [parseDigits] at h
  | cons c s =>
      refine ⟨by simp, ?_⟩
      simp only [parseDigits] at h
      exact foldl_digits_some (c :: s) 0 n h

theorem digit_plain (b : Nat) (h : 48 ≤ b ∧ b ≤ 57) : plainByte b = true := by
  simp only [plainByte, isSpace1, Bool.and_eq_true, decide_eq_true_eq, Bool.not_eq_true',
    decide_eq_false_iff_not]
  omega

theorem digits_last (s : GoString) (hne : s ≠ []) (h : ∀ b ∈ s, 48 ≤ b ∧ b ≤ 57) :
    ∃ y, s.getLast? = some y ∧ plainByte y = true := by
  refine ⟨s.getLast hne, List.getLast?_eq_getLast _ hne, digit_plain _ (h _ (List.getLast_mem hne))⟩

/-- A string that Atoi reads holds only a sign and digits: it begins and
ends with a plain byte and has neither ',' nor '='. -/
theorem Atoi_bytes (s : GoString) (w : Int) (h : Atoi s = some w) :
    plainEnds s = true ∧ comma ∉ s ∧ equalsSign ∉ s := by
  cases s with
  | nil => simp [Atoi] at h
  | cons b rest =>
      have key : ∀ (t : GoString) (n : Nat), parseDigits t = some n →
          (b = 45 ∨ b = 43) → rest = t →
          plainEnds (b :: rest) = true ∧ comma ∉ (b :: rest) ∧ equalsSign ∉ (b :: rest) := by
        intro t n ht hb hrest
        subst hrest
        obtain ⟨hne, hd⟩ := parseDigits_bytes rest n ht
        obtain ⟨y, hy, py⟩ := digits_last rest hne hd
        refine ⟨?_, ?_, ?_⟩
        · unfold plainEnds
          have hl : (b :: rest).getLast? = some y := by
            rw [show b :: rest = [b] ++ rest from rfl, List.getLast?_append, hy]
            rfl
          rw [hl]
          have pb : plainByte b = true := by rcases hb with rfl | rfl <;> decide
          simp [py, pb]
        · intro hm
          rcases List.mem_cons.mp hm with e | hm
          · rcases hb with rfl | rfl <;> simp [comma] at e
          · have := hd _ hm; simp only [comma] at this; omega
        · intro hm
          rcases List.mem_cons.mp hm with e | hm
          · rcases hb with rfl | rfl <;> simp [equalsSign] at e
          · have := hd _ hm; simp only [equalsSign] at this; omega
      simp only [Atoi] at h
      by_cases h45 : b = 45
      · rw [if_pos h45] at h
        cases hp : parseDigits rest with
        | none => rw [hp] at h; simp at h
        | some n => exact key rest n hp (Or.inl h45) rfl
      · rw [if_neg h45] at h
        by_cases h43 : b = 43
        · rw [if_pos h43] at h
          cases hp : parseDigits rest with
          | none => rw [hp] at h; simp at h
          | some n => exact key rest n hp (Or.inr h43) rfl
        · rw [if_neg h43] at h
          cases hp : parseDigits (b :: rest) with
          | none => rw [hp] at h; simp at h
          | some n =>
              obtain ⟨hne, hd⟩ := parseDigits_bytes (b :: rest) n hp
              obtain ⟨y, hy, py⟩ := digits_last (b :: rest) hne hd
              refine ⟨?_, ?_, ?_⟩
              · unfold plainEnds
                simp [hy, py, digit_plain b (hd b (List.mem_cons_self _ _))]
              · intro hm
                have := hd _ hm; simp only [comma] at this; omega
              · intro hm
                have := hd _ hm; simp only [equalsSign] at this; omega

theorem validHooks_bytes (e : GoString) (h : e ∈ validHooks) :
    plainEnds e = true ∧ comma ∉ e ∧ equalsSign ∉ e := by
  have : ∀ x ∈ validHooks, plainEnds x = true ∧ comma ∉ x ∧ equalsSign ∉ x := by decide
  exact this e h

theorem plainEnds_ne_nil (s : GoString) (h : plainEnds s = true) : s ≠ [] := by
  intro e
  subst e
  simp [plainEnds] at h

/-- How the source reads a well-written pair: the trimmed pair, its key and
its weight. -/
theorem WeightPair.reading (p : WeightPair) (hp : p.WellFormed) :
    TrimSpace p.text ≠ [] ∧
      SplitN2 (TrimSpace p.text) equalsSign = [p.event ++ p.gap1, p.gap2 ++ p.digits] ∧
      TrimSpace (p.event ++ p.gap1) = p.event ∧ TrimSpace (p.gap2 ++ p.digits) = p.digits ∧
      p.event ≠ [] ∧ comma ∉ p.text := by
  obtain ⟨hl, hg1, hg2, ht, he, hd⟩ := hp
  obtain ⟨pe, ce, qe⟩ := validHooks_bytes p.event he
  obtain ⟨pd, cd, qd⟩ := Atoi_bytes p.digits p.weight hd
  have hcore : plainEnds (p.event ++ (p.gap1 ++ [equalsSign] ++ p.gap2) ++ p.digits) = true :=
    plainEnds_append _ _ _ pe pd
  have htrim : TrimSpace p.text = p.event ++ p.gap1 ++ equalsSign :: (p.gap2 ++ p.digits) := by
    have := TrimSpace_padded p.lead _ p.trail hl ht hcore
    unfold WeightPair.text
    simpa [List.append_assoc] using this
  have hsep : equalsSign ∉ p.event ++ p.gap1 := by
    intro hm
    rcases List.mem_append.mp hm with h | h
    · exact qe h
    · exact (Spaces_bytes _ hg1 _ h).2 rfl
  refine ⟨?_, ?_, ?_, ?_, plainEnds_ne_nil _ pe, ?_⟩
  · rw [htrim]
    have := plainEnds_ne_nil _ pe
    simp [this]
  · rw [htrim]
    exact SplitN2_append _ _ _ hsep
  · have := TrimSpace_padded [] p.event p.gap1 Spaces.nil hg1 pe
    simpa using this
  · have := TrimSpace_padded p.gap2 p.digits [] hg2 Spaces.nil pd
    simpa using this
  · unfold WeightPair.text
    intro hm
    simp only [List.mem_append, List.mem_singleton] at hm
    rcases hm with (((((h | h) | h) | h) | h) | h) | h
    · exact (Spaces_bytes _ hl _ h).1 rfl
    · exact ce h
    · exact (Spaces_bytes _ hg1 _ h).1 rfl
    · simp [comma, equalsSign] at h
    · exact (Spaces_bytes _ hg2 _ h).1 rfl
    · exact cd h
    · exact (Spaces_bytes _ ht _ h).1 rfl

theorem WeightPair.pairKey_text (p : WeightPair) (hp : p.WellFormed) :
    pairKey p.text = some p.event := by
  obtain ⟨h1, h2, h3, _, _, _⟩ := p.reading hp
  simp [pairKey, h1, h2, h3]

theorem WeightPair.pairInt_text (p : WeightPair) (hp : p.WellFormed) :
    pairInt p.text = some p.weight := by
  obtain ⟨_, h2, _, h4, _, _⟩ := p.reading hp
  simp [pairInt, h2, h4, hp.2.2.2.2.2]

theorem extractHooksLoop_texts :
    ∀ (ps : List WeightPair) (acc : List GoString), (∀ p ∈ ps, p.WellFormed) →
      extractHooksLoop (ps.map WeightPair.text) acc = .ok (acc ++ ps.map (fun p => p.event)) := by
  intro ps
  induction ps with
  | nil => intro acc _; simp [extractHooksLoop]
  | cons p ps ih =>
      intro acc h
      obtain ⟨h1, h2, h3, _, h5, _⟩ := p.reading (h p (List.mem_cons_self _ _))
      simp only [List.map_cons, extractHooksLoop, h1, h2, h3, h5]
      simp only [List.length_cons, List.length_nil, List.getD_cons_zero]
      simp only [ne_eq, not_true_eq_false, not_false_eq_true, ite_true, ite_false,
        Nat.reduceAdd]
      rw [ih _ (fun q hq => h q (List.mem_cons_of_mem _ hq))]
      simp [h3, h5]

theorem parseExplicitLoop_accepted (hooks : List GoString) :
    ∀ (pairs : List GoString) (m0 : GoMap Int), (∀ q ∈ pairs, pairAccepted hooks q) →
      ∃ m, parseExplicitLoop hooks pairs m0 = .ok m := by
  intro pairs
  induction pairs with
  | nil => intro m0 _; exact ⟨m0, rfl⟩
  | cons a rest ih =>
      intro m0 h
      have hrest : ∀ q ∈ rest, pairAccepted hooks q := fun q hq => h q (List.mem_cons_of_mem _ hq)
      rw [parseExplicitLoop_cons]
      rcases h a (List.mem_cons_self _ _) with he | ⟨k, w, hk, hm, hw⟩
      · rw [if_pos he]
        exact ih m0 hrest
      · rw [if_neg (pairKey_some_ne a k hk), hk]
        simp only [if_pos hm, hw]
        exact ih _ hrest

/-- C13. A resource without helm.sh/hook whose helm.sh/hook-weights value is
the comma-joined text of n ≥ 1 well-written pairs (pairwise-distinct events
of the vocabulary, integer texts, white space allowed around each event and
each integer) resolves to exactly that plan: extractHooksFromWeights returns
the events in order of appearance, these are the resolved hooks, and
parseWeights over them succeeds and gives each event the integer of its
pair. -/
theorem hookWeights_plan (ps : List WeightPair) (res : Resource)
    (hne : ps ≠ []) (hwf : ∀ p ∈ ps, p.WellFormed)
    (hnodup : (ps.map (fun p => p.event)).Nodup)
    (hnh : res.Annotations annotationHook = none)
    (hw : res.Annotations annotationHookWeights = some (joinComma (ps.map WeightPair.text))) :
    extractHooksFromWeights (joinComma (ps.map WeightPair.text)) =
        .ok (ps.map (fun p => p.event)) ∧
      resolveHooks res = .ok (ps.map (fun p => p.event)) ∧
      ∃ m, parseWeights res.Annotations (ps.map (fun p => p.event)) = .ok m ∧
        ∀ p ∈ ps, m p.event = some p.weight := by
  have hsplit : Split (joinComma (ps.map WeightPair.text)) comma = ps.map WeightPair.text := by
    apply Split_joinComma
    · simpa using hne
    · intro t ht
      obtain ⟨p, hp, rfl⟩ := List.mem_map.mp ht
      exact (p.reading (hwf p hp)).2.2.2.2.2
  have hext : extractHooksFromWeights (joinComma (ps.map WeightPair.text)) =
      .ok (ps.map (fun p => p.event)) := by
    unfold extractHooksFromWeights
    rw [hsplit, extractHooksLoop_texts ps [] hwf]
    simp [hne]
  refine ⟨hext, ?_, ?_⟩
  · unfold resolveHooks
    simp only [hnh, hw, hext]
  · rw [parseWeights_of_weights _ _ _ hw]
    unfold parseExplicitWeights
    rw [hsplit]
    have hacc : ∀ q ∈ ps.map WeightPair.text, pairAccepted (ps.map (fun p => p.event)) q := by
      intro q hq
      obtain ⟨p, hp, rfl⟩ := List.mem_map.mp hq
      exact Or.inr ⟨p.event, p.weight, p.pairKey_text (hwf p hp),
        List.mem_map.mpr ⟨p, hp, rfl⟩, p.pairInt_text (hwf p hp)⟩
    obtain ⟨m, hm⟩ := parseExplicitLoop_accepted _ _ (initWeights (ps.map (fun p => p.event))) hacc
    refine ⟨m, hm, ?_⟩
    intro p hp
    obtain ⟨pre, post, hpp⟩ := List.append_of_mem hp
    obtain ⟨_, hlast⟩ := parseExplicitLoop_last _ _ _ _ hm
    have hpost : ∀ q ∈ post.map WeightPair.text, pairKey q ≠ some p.event := by
      intro q hq
      obtain ⟨p2, hp2, rfl⟩ := List.mem_map.mp hq
      have hp2mem : p2 ∈ ps := by rw [hpp]; simp [hp2]
      rw [p2.pairKey_text (hwf p2 hp2mem)]
      intro e
      simp only [Option.some.injEq] at e
      rw [hpp] at hnodup
      simp only [List.map_append, List.map_cons] at hnodup
      have h2 := (List.nodup_append.mp hnodup).2.1
      have h3 := (List.nodup_cons.mp h2).1
      exact h3 (List.mem_map.mpr ⟨p2, hp2, e⟩)
    obtain ⟨w, hw1, hw2⟩ := hlast p.event (pre.map WeightPair.text) p.text (post.map WeightPair.text)
      (by rw [hpp]; simp) (p.pairKey_text (hwf p hp)) hpost
    rw [p.pairInt_text (hwf p hp)] at hw1
    simp only [Option.some.injEq] at hw1
    rw [hw2, hw1]

theorem hookWeights_plan_witness :
    extractHooksFromWeights (str " pre-install = -5,post-install=10 ") =
        .ok [str "pre-install", str "post-install"] ∧
      ∃ m, parseWeights (GoMap.empty.set annotationHookWeights (str " pre-install = -5,post-install=10 "))
          [str "pre-install", str "post-install"] = .ok m ∧
        m (str "pre-install") = some (-5) ∧ m (str "post-install") = some 10 :=
  have h := hookWeights_plan
    [⟨[32], str "pre-install", [32], [32], str "-5", [], -5⟩,
     ⟨[], str "post-install", [], [], str "10", [32], 10⟩]
    ⟨str "Job", str "demo",
      GoMap.empty.set annotationHookWeights (str " pre-install = -5,post-install=10 ")⟩
    (List.cons_ne_nil _ _)
    (by
      have sp : Spaces [32] := Spaces.one 32 [] (by decide) Spaces.nil
      intro p hp
      simp only [List.mem_cons, List.mem_singleton, List.not_mem_nil, or_false] at hp
      rcases hp with rfl | rfl
      · exact ⟨sp, sp, sp, Spaces.nil, by decide, by decide⟩
      · exact ⟨Spaces.nil, Spaces.nil, Spaces.nil, sp, by decide, by decide⟩)
    (by decide) (by decide) (by decide)
  ⟨h.1, by
    obtain ⟨m, hm, hv⟩ := h.2.2
    exact ⟨m, hm, hv _ (List.mem_cons_self _ _),
      hv _ (List.mem_cons_of_mem _ (List.mem_cons_self _ _))⟩⟩

/-! ## Pass-through, the fast path and the env toggle -/

theorem EnvOnly_list_refl (c : List Node) : List.Forall₂ EnvOnly c c := by
  induction c with
  | nil => exact List.Forall₂.nil
  | cons a t ih => exact List.Forall₂.cons (EnvOnly.same a) ih

/-- The relation never touches the node itself: kind, style, tag and value
of related nodes agree. -/
theorem EnvOnly_header (a b : Node) (h : EnvOnly a b) :
    a.kind = b.kind ∧ a.style = b.style ∧ a.tag = b.tag ∧ a.value = b.value := by
  cases h with
  | same => exact ⟨rfl, rfl, rfl, rfl⟩
  | children kind style tag value info c1 c2 hc => exact ⟨rfl, rfl, rfl, rfl⟩
  | envValue e hk => cases a; exact ⟨rfl, rfl, rfl, rfl⟩
  | envAdded e hk => cases a; exact ⟨rfl, rfl, rfl, rfl⟩

theorem EnvOnly_setContent (n : Node) (c2 : List Node) (h : List.Forall₂ EnvOnly n.content c2) :
    EnvOnly n (n.setContent c2) := by
  cases n with
  | mk kind style tag value info content => exact EnvOnly.children _ _ _ _ _ _ _ h

theorem EnvOnly_updateFirst (key : GoString) (f : Node → Node) (hf : ∀ v, EnvOnly v (f v))
    (c : List Node) : List.Forall₂ EnvOnly c (updateFirst key f c) := by
  induction c using pairs_induction with
  | h0 => exact List.Forall₂.nil
  | h1 k => exact EnvOnly_list_refl _
  | h2 k v rest ih =>
    unfold updateFirst
    by_cases hk : k.value = key
    · rw [if_pos hk]
      exact List.Forall₂.cons (EnvOnly.same k) (List.Forall₂.cons (hf v) (EnvOnly_list_refl _))
    · rw [if_neg hk]
      exact List.Forall₂.cons (EnvOnly.same k) (List.Forall₂.cons (EnvOnly.same v) ih)

theorem hasKey_lookupKey (key : GoString) (c : List Node) (h : hasKey key c = true) :
    ∃ v, lookupKey key c = some v := by
  induction c using pairs_induction with
  | h0 => simp [hasKey] at h
  | h1 k => simp [hasKey] at h
  | h2 k v rest ih =>
    by_cases hk : k.value = key
    · exact ⟨v, by simp [lookupKey, hk]⟩
    · simp only [hasKey, hk, decide_False, Bool.false_or] at h
      obtain ⟨w, hw⟩ := ih h
      exact ⟨w, by simp [lookupKey, hk, hw]⟩

theorem updateFirst_const (key : GoString) (f : Node → Node) (c : List Node) (v0 : Node)
    (h : lookupKey key c = some v0) :
    updateFirst key f c = updateFirst key (fun _ => f v0) c := by
  induction c using pairs_induction with
  | h0 => rfl
  | h1 k => rfl
  | h2 k v rest ih =>
    unfold updateFirst
    by_cases hk : k.value = key
    · simp only [lookupKey, hk, if_true, Option.some.injEq] at h
      rw [if_pos hk, if_pos hk, h]
    · simp only [lookupKey, hk, if_false] at h
      rw [if_neg hk, if_neg hk, ih h]

theorem EnvOnly_injectEnvInContainer (c : Node) (hookEvent : GoString) (weight : Int)
    (hc : c.kind = .MappingNode) : EnvOnly c (injectEnvInContainer c hookEvent weight) := by
  unfold injectEnvInContainer
  by_cases hk : hasKey (str "env") c.content = true
  · rw [if_pos hk]
    obtain ⟨v0, hv0⟩ := hasKey_lookupKey _ _ hk
    rw [updateFirst_const _ _ _ v0 hv0]
    exact EnvOnly.envValue c _ hc
  · rw [if_neg hk]
    exact EnvOnly.envAdded c _ hc

theorem EnvOnly_injectEnvInContainers (cs : Node) (hookEvent : GoString) (weight : Int) :
    EnvOnly cs (injectEnvInContainers cs hookEvent weight) := by
  unfold injectEnvInContainers
  split
  · exact EnvOnly.same cs
  · apply EnvOnly_setContent
    generalize cs.content = l
    induction l with
    | nil => exact List.Forall₂.nil
    | cons a t ih =>
        refine List.Forall₂.cons ?_ ih
        by_cases ha : a.kind = .MappingNode
        · simp only [ha, if_true]
          exact EnvOnly_injectEnvInContainer a hookEvent weight ha
        · simp only [ha, if_false]
          exact EnvOnly.same a

theorem EnvOnly_injectEnvInPodSpec (ps : Node) (hookEvent : GoString) (weight : Int) :
    EnvOnly ps (injectEnvInPodSpec ps hookEvent weight) := by
  unfold injectEnvInPodSpec
  split
  · exact EnvOnly.same ps
  · apply EnvOnly_setContent
    generalize ps.content = l
    induction l using pairs_induction with
    | h0 => exact List.Forall₂.nil
    | h1 k => exact EnvOnly_list_refl _
    | h2 k v rest ih =>
      unfold injectEnvInPodSpecLoop
      split
      · exact List.Forall₂.cons (EnvOnly.same k)
          (List.Forall₂.cons (EnvOnly_injectEnvInContainers v hookEvent weight) ih)
      · exact List.Forall₂.cons (EnvOnly.same k) (List.Forall₂.cons (EnvOnly.same v) ih)

theorem EnvOnly_injectEnvInPodTemplate (t : Node) (hookEvent : GoString) (weight : Int) :
    EnvOnly t (injectEnvInPodTemplate t hookEvent weight) := by
  unfold injectEnvInPodTemplate
  split
  · exact EnvOnly.same t
  · exact EnvOnly_setContent _ _
      (EnvOnly_updateFirst _ _ (fun v => EnvOnly_injectEnvInPodSpec v hookEvent weight) _)

theorem EnvOnly_injectEnvInSpec (hookEvent : GoString) (weight : Int) (sp : Node) :
    EnvOnly sp (injectEnvInSpec hookEvent weight sp) := by
  apply injectEnvInSpec.induct hookEvent weight
    (fun n => EnvOnly n (injectEnvInSpec hookEvent weight n))
    (fun l => List.Forall₂ EnvOnly l (injectEnvInSpecLoop hookEvent weight l))
    (fun n => EnvOnly n (injectEnvInJobTemplate hookEvent weight n))
    (fun l => List.Forall₂ EnvOnly l (injectEnvInJobTemplateLoop hookEvent weight l))
  · intro kind style tag value info content hk
    rw [injectEnvInSpec, if_pos hk]
    exact EnvOnly.same _
  · intro kind style tag value info content hk ih
    rw [injectEnvInSpec, if_neg hk]
    exact EnvOnly.children _ _ _ _ _ _ _ ih
  · intro kind style tag value info content hk
    rw [injectEnvInJobTemplate, if_pos hk]
    exact EnvOnly.same _
  · intro kind style tag value info content hk ih
    rw [injectEnvInJobTemplate, if_neg hk]
    exact EnvOnly.children _ _ _ _ _ _ _ ih
  · intro k v rest hk
    rw [injectEnvInSpecLoop, if_pos hk]
    exact List.Forall₂.cons (EnvOnly.same k)
      (List.Forall₂.cons (EnvOnly_injectEnvInPodTemplate v hookEvent weight) (EnvOnly_list_refl _))
  · intro k v rest hk1 hk2 ih
    rw [injectEnvInSpecLoop, if_neg hk1, if_pos hk2]
    exact List.Forall₂.cons (EnvOnly.same k) (List.Forall₂.cons ih (EnvOnly_list_refl _))
  · intro k v rest hk1 hk2 hk3 ih
    rw [injectEnvInSpecLoop, if_neg hk1, if_neg hk2, if_pos hk3]
    exact List.Forall₂.cons (EnvOnly.same k)
      (List.Forall₂.cons (EnvOnly_injectEnvInContainers v hookEvent weight) ih)
  · intro k v rest hk1 hk2 hk3 ih
    rw [injectEnvInSpecLoop, if_neg hk1, if_neg hk2, if_neg hk3]
    exact List.Forall₂.cons (EnvOnly.same k) (List.Forall₂.cons (EnvOnly.same v) ih)
  · intro rest hrest
    have : injectEnvInSpecLoop hookEvent weight rest = rest := by
      cases rest with
      | nil => rfl
      | cons a t =>
          cases t with
          | nil => rfl
          | cons b t2 => exact absurd rfl (hrest a b t2)
    rw [this]
    exact EnvOnly_list_refl _
  · intro k v rest hk ih
    rw [injectEnvInJobTemplateLoop, if_pos hk]
    exact List.Forall₂.cons (EnvOnly.same k) (List.Forall₂.cons ih (EnvOnly_list_refl _))
  · intro k v rest hk ih
    rw [injectEnvInJobTemplateLoop, if_neg hk]
    exact List.Forall₂.cons (EnvOnly.same k) (List.Forall₂.cons (EnvOnly.same v) ih)
  · intro rest hrest
    have : injectEnvInJobTemplateLoop hookEvent weight rest = rest := by
      cases rest with
      | nil => rfl
      | cons a t =>
          cases t with
          | nil => rfl
          | cons b t2 => exact absurd rfl (hrest a b t2)
    rw [this]
    exact EnvOnly_list_refl _

theorem EnvOnly_injectEnvVars (root : Node) (hookEvent : GoString) (weight : Int) :
    EnvOnly root (injectEnvVars root hookEvent weight) := by
  unfold injectEnvVars
  split
  · exact EnvOnly.same root
  · exact EnvOnly_setContent _ _
      (EnvOnly_updateFirst _ _ (fun v => EnvOnly_injectEnvInSpec hookEvent weight v) _)

theorem EnvOnly_injectEnvVarsOnly (doc : Node) (hookEvent : GoString) (weight : Int) :
    EnvOnly doc (injectEnvVarsOnly doc hookEvent weight) := by
  unfold injectEnvVarsOnly onContent
  split
  · rename_i c cs hkind hcontent
    apply EnvOnly_setContent
    rw [hcontent]
    exact List.Forall₂.cons (EnvOnly_injectEnvVars c hookEvent weight) (EnvOnly_list_refl _)
  · exact EnvOnly_injectEnvVars doc hookEvent weight

theorem processDocument_of_no_hook (y : Yaml) (doc : Node)
    (h1 : (parseResource doc).Annotations annotationHook = none)
    (h2 : (parseResource doc).Annotations annotationHookWeights = none) :
    processDocument y doc = .ok [doc] := by
  unfold processDocument
  simp [h1, h2]

theorem parseResource_not_mapping (doc : Node) (h : (documentContent doc).kind ≠ .MappingNode) :
    (parseResource doc).Annotations = GoMap.empty := by
  unfold parseResource
  simp only [h, ne_eq, not_false_eq_true, ite_true]

theorem parseResource_some_mapping (doc : Node) (k v : GoString)
    (h : (parseResource doc).Annotations k = some v) : (documentContent doc).kind = .MappingNode := by
  by_contra hc
  rw [parseResource_not_mapping doc hc] at h
  cases h

theorem parseResourceLoop_metadata_no_annotations (md : Node) (c : List Node) :
    ∀ res : Resource, countKey (str "metadata") c = 1 →
      lookupKey (str "metadata") c = some md → countKey (str "annotations") md.content = 0 →
      (parseResourceLoop c res).Annotations = res.Annotations := by
  induction c using pairs_induction with
  | h0 => intro res hc; simp [countKey] at hc
  | h1 k => intro res hc; simp [countKey] at hc
  | h2 k v rest ih =>
    intro res hc hl hac
    unfold countKey at hc
    unfold lookupKey at hl
    by_cases hk : k.value = str "metadata"
    · rw [if_pos hk] at hc hl
      have hkk : k.value ≠ str "kind" := by rw [hk]; decide
      have hv : v = md := Option.some.inj hl
      subst hv
      unfold parseResourceLoop
      rw [if_neg hkk, if_pos hk, parseResourceLoop_no_metadata_Annotations _ _ (by omega)]
      unfold parseMetadata
      split
      · rfl
      · exact parseMetadataLoop_no_annotations _ _ hac
    · rw [if_neg hk] at hc hl
      unfold parseResourceLoop
      rw [if_neg hk]
      split
      · rw [ih _ (by omega) hl hac]
      · exact ih _ (by omega) hl hac

/-- C15. A document with neither helm.sh/hook nor helm.sh/hook-weights among
the annotations the descriptor reads comes back from processDocument as
exactly one document, the input tree itself. This covers every document
whose root is not a mapping, every document without a metadata entry, every
document whose metadata has no annotations entry, and the documents that
carry only helm.sh/hook-weight. -/
theorem processDocument_non_hook (y : Yaml) (doc : Node) :
    ((parseResource doc).Annotations annotationHook = none →
        (parseResource doc).Annotations annotationHookWeights = none →
        processDocument y doc = .ok [doc]) ∧
      ((documentContent doc).kind ≠ .MappingNode → processDocument y doc = .ok [doc]) ∧
      (countKey (str "metadata") (documentContent doc).content = 0 →
        processDocument y doc = .ok [doc]) ∧
      (∀ md, countKey (str "metadata") (documentContent doc).content = 1 →
        lookupKey (str "metadata") (documentContent doc).content = some md →
        countKey (str "annotations") md.content = 0 → processDocument y doc = .ok [doc]) := by
  refine ⟨processDocument_of_no_hook y doc, fun h => ?_, fun h => ?_, fun md h1 h2 h3 => ?_⟩
  · apply processDocument_of_no_hook <;> rw [parseResource_not_mapping doc h] <;> rfl
  · by_cases hk : (documentContent doc).kind = .MappingNode
    · apply processDocument_of_no_hook <;>
        rw [parseResource_of_mapping doc hk, parseResourceLoop_no_metadata_Annotations _ _ h] <;> rfl
    · apply processDocument_of_no_hook <;> rw [parseResource_not_mapping doc hk] <;> rfl
  · by_cases hk : (documentContent doc).kind = .MappingNode
    · have : (parseResource doc).Annotations = GoMap.empty := by
        rw [parseResource_of_mapping doc hk]
        exact parseResourceLoop_metadata_no_annotations md _ _ h1 h2 h3
      apply processDocument_of_no_hook <;> rw [this] <;> rfl
    · apply processDocument_of_no_hook <;> rw [parseResource_not_mapping doc hk] <;> rfl

theorem processDocument_non_hook_witness :
    processDocument exactYaml weightOnlyConfigMap = .ok [weightOnlyConfigMap] ∧
      processDocument exactYaml (sequenceOf [plain "a", plain "b"]) = .ok [sequenceOf [plain "a", plain "b"]] :=
  ⟨(processDocument_non_hook exactYaml weightOnlyConfigMap).1 (by decide) (by decide),
    (processDocument_non_hook exactYaml (sequenceOf [plain "a", plain "b"])).2.1 (by decide)⟩

theorem validateHooks_single (h name : GoString) (hv : h ∈ validHooks) :
    validateHooks [h] name = .ok () := by
  unfold validateHooks
  rw [validateHooksLoop_ok_iff]
  simp [hv]

theorem isSingleValidWeight_of_Atoi (v : GoString) (w : Int) (h : Atoi (TrimSpace v) = some w) :
    isSingleValidWeight v = true := by
  unfold isSingleValidWeight
  have hc : Contains (TrimSpace v) comma = false := by
    unfold Contains
    have := (Atoi_bytes _ w h).2.1
    simpa using this
  simp [hc, h]

/-- The fast path of processDocument: one valid event from helm.sh/hook, no
helm.sh/hook-weights, and helm.sh/hook-weight absent or a single integer. -/
theorem processDocument_fast (y : Yaml) (doc : Node) (hookValue h : GoString)
    (hw : (parseResource doc).Annotations annotationHookWeights = none)
    (hh : (parseResource doc).Annotations annotationHook = some hookValue)
    (hev : parseHookEvents hookValue = [h]) (hvalid : h ∈ validHooks)
    (hweight : ∀ v, (parseResource doc).Annotations annotationHookWeight = some v →
      ∃ w, Atoi (TrimSpace v) = some w) :
    processDocument y doc = .ok
      [if envEnabledOf (parseResource doc).Annotations then
        injectEnvVarsOnly doc h
          (((parseResource doc).Annotations annotationHookWeight).elim 0
            (fun v => (Atoi (TrimSpace v)).getD 0))
       else doc] := by
  have hres : resolveHooks (parseResource doc) = .ok [h] := by
    unfold resolveHooks
    simp [hh, hw, hev]
  unfold processDocument
  simp only [hh, hw, hres, validateHooks_single h _ hvalid]
  cases hwv : (parseResource doc).Annotations annotationHookWeight with
  | none =>
      by_cases he : envEnabledOf (parseResource doc).Annotations = true <;> simp [he]
  | some v =>
      obtain ⟨w, hwa⟩ := hweight v hwv
      by_cases he : envEnabledOf (parseResource doc).Annotations = true <;>
        simp [he, isSingleValidWeight_of_Atoi v w hwa]

theorem lookupKey_injectEnvVars_other (root : Node) (hookEvent : GoString) (weight : Int)
    (key : GoString) (hk : key ≠ str "spec") :
    lookupKey key (injectEnvVars root hookEvent weight).content = lookupKey key root.content := by
  unfold injectEnvVars
  split
  · rfl
  · rw [Node.content_setContent]
    exact lookupKey_updateFirst_other _ _ _ _ hk

theorem documentContent_injectEnvVarsOnly (doc : Node) (hookEvent : GoString) (weight : Int)
    (hroot : (documentContent doc).kind = .MappingNode) :
    documentContent (injectEnvVarsOnly doc hookEvent weight) =
      injectEnvVars (documentContent doc) hookEvent weight :=
  documentContent_onContent doc _ hroot (fun n => injectEnvVars_kind n hookEvent weight)

/-- C16. With exactly one valid event from helm.sh/hook, no
helm.sh/hook-weights, and helm.sh/hook-weight absent or a single integer,
processDocument returns exactly one document. Every entry of its root other
than spec, the metadata subtree among them, is the input's node for node;
the document is the input up to the env entries of mappings; and with env
injection disabled it is the input tree itself. -/
theorem processDocument_fast_frame (y : Yaml) (doc : Node) (hookValue h : GoString)
    (hw : (parseResource doc).Annotations annotationHookWeights = none)
    (hh : (parseResource doc).Annotations annotationHook = some hookValue)
    (hev : parseHookEvents hookValue = [h]) (hvalid : h ∈ validHooks)
    (hweight : ∀ v, (parseResource doc).Annotations annotationHookWeight = some v →
      ∃ w, Atoi (TrimSpace v) = some w) :
    ∃ d, processDocument y doc = .ok [d] ∧
      lookupKey (str "metadata") (documentContent d).content =
        lookupKey (str "metadata") (documentContent doc).content ∧
      (∀ key, key ≠ str "spec" →
        lookupKey key (documentContent d).content = lookupKey key (documentContent doc).content) ∧
      EnvOnly doc d ∧
      (envEnabledOf (parseResource doc).Annotations = false → d = doc) := by
  have hroot := parseResource_some_mapping doc _ _ hh
  refine ⟨_, processDocument_fast y doc hookValue h hw hh hev hvalid hweight, ?_⟩
  by_cases he : envEnabledOf (parseResource doc).Annotations = true
  · simp only [he, if_true]
    refine ⟨?_, ?_, EnvOnly_injectEnvVarsOnly _ _ _, fun hc => by simp at hc⟩
    · rw [documentContent_injectEnvVarsOnly _ _ _ hroot]
      exact lookupKey_injectEnvVars_other _ _ _ _ (by decide)
    · intro key hk
      rw [documentContent_injectEnvVarsOnly _ _ _ hroot]
      exact lookupKey_injectEnvVars_other _ _ _ _ hk
  · simp only [he, if_false]
    exact ⟨rfl, fun _ _ => rfl, EnvOnly.same doc, fun _ => rfl⟩

theorem processDocument_fast_frame_witness :
    ∃ d, processDocument exactYaml singleHookJob = .ok [d] ∧
      lookupKey (str "metadata") (documentContent d).content =
        lookupKey (str "metadata") (documentContent singleHookJob).content ∧
      EnvOnly singleHookJob d := by
  obtain ⟨d, h1, h2, _, h4, _⟩ := processDocument_fast_frame exactYaml singleHookJob (str "pre-install")
    (str "pre-install") (by decide) (by decide) (by decide) (by decide)
    (by
      intro v hv
      have h5 : (parseResource singleHookJob).Annotations annotationHookWeight = some (str " 5") := by
        decide
      rw [h5] at hv
      injection hv with hv
      subst hv
      exact ⟨5, by decide⟩)
  exact ⟨d, h1, h2, h4⟩

theorem lookupKey_setAnnotation_other (n : Node) (k v key : GoString)
    (h : key ≠ str "metadata") :
    lookupKey key ( setAnnotation n k v).content = lookupKey key n.content := by
  unfold setAnnotation
  split
  · rfl
  · rw [Node.content_setContent]
    exact lookupKey_updateFirst_other _ _ _ _ h

theorem lookupKey_removeAnnotation_other (n : Node) (k key : GoString)
    (h : key ≠ str "metadata") :
    lookupKey key ( removeAnnotation n k).content = lookupKey key n.content := by
  unfold removeAnnotation
  split
  · rfl
  · rw [Node.content_setContent]
    exact lookupKey_updateFirst_other _ _ _ _ h

theorem lookupKey_setMetadataName_other (n : Node) (name key : GoString)
    (h : key ≠ str "metadata") :
    lookupKey key (setMetadataName n name).content = lookupKey key n.content := by
  unfold setMetadataName
  split
  · rfl
  · rw [Node.content_setContent]
    exact lookupKey_updateFirst_other _ _ _ _ h

theorem lookupKey_injectEnvVars_spec (root : Node) (hookEvent : GoString) (weight : Int)
    (hroot : root.kind = .MappingNode) :
    lookupKey (str "spec") (injectEnvVars root hookEvent weight).content =
      (lookupKey (str "spec") root.content).map (injectEnvInSpec hookEvent weight) := by
  unfold injectEnvVars
  rw [if_neg (by simp [hroot]), Node.content_setContent]
  exact lookupKey_updateFirst_same _ _ _

/-- The root of the single-event rewrite, entry by entry outside metadata. -/
theorem enhanceResource_root (doc : Node) (hookEvent : GoString) (weight : Int) (envEnabled : Bool)
    (hroot : (documentContent doc).kind = .MappingNode) :
    (envEnabled = false → ∀ key, key ≠ str "metadata" →
      lookupKey key (documentContent (enhanceResource doc hookEvent weight envEnabled)).content =
        lookupKey key (documentContent doc).content) ∧
    (envEnabled = true →
      lookupKey (str "spec") (documentContent (enhanceResource doc hookEvent weight envEnabled)).content =
        (lookupKey (str "spec") (documentContent doc).content).map
          (injectEnvInSpec hookEvent weight)) := by
  unfold enhanceResource
  rw [documentContent_onContent doc _ hroot (by
    intro n
    cases envEnabled <;>
      simp [injectEnvVars_kind, setAnnotation_kind, removeAnnotation_kind])]
  constructor
  · intro he key hk
    subst he
    simp only [Bool.false_eq_true, if_false]
    rw [lookupKey_removeAnnotation_other _ _ _ hk, lookupKey_setAnnotation_other _ _ _ _ hk,
      lookupKey_setAnnotation_other _ _ _ _ hk]
  · intro he
    subst he
    simp only [if_true]
    rw [lookupKey_injectEnvVars_spec _ _ _ (by
        rw [removeAnnotation_kind, setAnnotation_kind, setAnnotation_kind]; exact hroot),
      lookupKey_removeAnnotation_other _ _ _ (by decide),
      lookupKey_setAnnotation_other _ _ _ _ (by decide),
      lookupKey_setAnnotation_other _ _ _ _ (by decide)]

/-- The root of a split replica, entry by entry outside metadata. -/
theorem updateSplitResource_root (doc : Node) (hookEvent newName : GoString) (weight : Int)
    (envEnabled : Bool) (hroot : (documentContent doc).kind = .MappingNode) :
    (envEnabled = false → ∀ key, key ≠ str "metadata" →
      lookupKey key
          (documentContent (updateSplitResource doc hookEvent weight newName envEnabled)).content =
        lookupKey key (documentContent doc).content) ∧
    (envEnabled = true →
      lookupKey (str "spec")
          (documentContent (updateSplitResource doc hookEvent weight newName envEnabled)).content =
        (lookupKey (str "spec") (documentContent doc).content).map
          (injectEnvInSpec hookEvent weight)) := by
  unfold updateSplitResource
  rw [documentContent_onContent doc _ hroot (by
    intro n
    cases envEnabled <;>
      simp [injectEnvVars_kind, setAnnotation_kind, removeAnnotation_kind, setMetadataName_kind])]
  constructor
  · intro he key hk
    subst he
    simp only [Bool.false_eq_true, if_false]
    rw [lookupKey_removeAnnotation_other _ _ _ hk, lookupKey_setAnnotation_other _ _ _ _ hk,
      lookupKey_setAnnotation_other _ _ _ _ hk, lookupKey_setMetadataName_other _ _ _ hk]
  · intro he
    subst he
    simp only [if_true]
    rw [lookupKey_injectEnvVars_spec _ _ _ (by
        rw [removeAnnotation_kind, setAnnotation_kind, setAnnotation_kind, setMetadataName_kind]
        exact hroot),
      lookupKey_removeAnnotation_other _ _ _ (by decide),
      lookupKey_setAnnotation_other _ _ _ _ (by decide),
      lookupKey_setAnnotation_other _ _ _ _ (by decide),
      lookupKey_setMetadataName_other _ _ _ (by decide)]

/-! ## Environment injection: idempotence and the injected variables -/



theorem pairedList_iff (l : List Node) : pairedList l = true ↔ ∀ n ∈ l, n.paired = true := by
  induction l with
  | nil => simp [pairedList]
  | cons a t ih => simp [pairedList, ih]

theorem Node.paired_iff (n : Node) :
    n.paired = true ↔
      (n.kind = .MappingNode → n.content.length % 2 = 0) ∧ ∀ c ∈ n.content, c.paired = true := by
  cases n with
  | mk kind style tag value info content =>
      simp only [Node.paired, Node.kind, Node.content, Bool.and_eq_true, Bool.or_eq_true,
        bne_iff_ne, ne_eq, beq_iff_eq, pairedList_iff]
      constructor
      · rintro ⟨h1, h2⟩
        exact ⟨fun hk => by rcases h1 with h | h; exact absurd hk h; exact h, h2⟩
      · rintro ⟨h1, h2⟩
        refine ⟨?_, h2⟩
        by_cases hk : kind = .MappingNode
        · exact Or.inr (h1 hk)
        · exact Or.inl hk

theorem Node.paired_even (n : Node) (h : n.paired = true) (hk : n.kind = .MappingNode) :
    n.content.length % 2 = 0 := ((Node.paired_iff n).mp h).1 hk

theorem Node.paired_child (n c : Node) (h : n.paired = true) (hc : c ∈ n.content) :
    c.paired = true := ((Node.paired_iff n).mp h).2 c hc

theorem lookupKey_mem (key : GoString) (c : List Node) (v : Node)
    (h : lookupKey key c = some v) : v ∈ c := by
  induction c using pairs_induction with
  | h0 => simp [lookupKey] at h
  | h1 k => simp [lookupKey] at h
  | h2 k v2 rest ih =>
    unfold lookupKey at h
    by_cases hk : k.value = key
    · rw [if_pos hk] at h
      simp only [Option.some.injEq] at h
      subst h
      simp
    · rw [if_neg hk] at h
      exact List.mem_cons_of_mem _ (List.mem_cons_of_mem _ (ih h))

/-! ### One env item -/

theorem Node.setQuoted_setQuoted (n : Node) (a b : GoString) :
    (n.setQuoted a).setQuoted b = n.setQuoted b := by
  cases n; rfl

theorem Node.setContent_setContent (n : Node) (a b : List Node) :
    (n.setContent a).setContent b = n.setContent b := by
  cases n; rfl

theorem Node.setContent_content (n : Node) : n.setContent n.content = n := by
  cases n; rfl

theorem even_tail (k v : Node) (rest : List Node) (h : (k :: v :: rest).length % 2 = 0) :
    rest.length % 2 = 0 := by
  simp only [List.length_cons] at h
  omega

theorem setEnvValueLoop_twice (a b : GoString) (c : List Node) (hc : c.length % 2 = 0) :
    setEnvValueLoop b (setEnvValueLoop a c) = setEnvValueLoop b c := by
  induction c using pairs_induction with
  | h0 =>
    simp only [setEnvValueLoop, List.nil_append]
    rw [if_pos (by rfl)]
    rfl
  | h1 k => simp at hc
  | h2 k v rest ih =>
    have hr := even_tail k v rest hc
    unfold setEnvValueLoop
    by_cases hk : k.value = str "value"
    · rw [if_pos hk]
      simp only [setEnvValueLoop, if_pos hk, Node.setQuoted_setQuoted]
    · rw [if_neg hk]
      simp only [setEnvValueLoop, if_neg hk, ih hr]

theorem itemHasName_setEnvValueLoop (name value : GoString) (c : List Node)
    (hc : c.length % 2 = 0) :
    itemHasName name (setEnvValueLoop value c) = itemHasName name c := by
  induction c using pairs_induction with
  | h0 =>
    simp only [setEnvValueLoop, List.nil_append, itemHasName]
    have : (scalarNode (str "value")).value ≠ str "name" := by decide
    simp [this]
  | h1 k => simp at hc
  | h2 k v rest ih =>
    have hr := even_tail k v rest hc
    unfold setEnvValueLoop
    by_cases hk : k.value = str "value"
    · rw [if_pos hk]
      have : k.value ≠ str "name" := by rw [hk]; decide
      simp [itemHasName, this]
    · rw [if_neg hk]
      simp only [itemHasName, ih hr]

theorem setEnvValueLoop_even (value : GoString) (c : List Node) (hc : c.length % 2 = 0) :
    (setEnvValueLoop value c).length % 2 = 0 := by
  induction c using pairs_induction with
  | h0 => simp [setEnvValueLoop]
  | h1 k => simp at hc
  | h2 k v rest ih =>
    have hr := even_tail k v rest hc
    unfold setEnvValueLoop
    split
    · simpa using hc
    · have := ih hr
      simp only [List.length_cons]
      omega

theorem lookupKey_setEnvValueLoop (value : GoString) (c : List Node) (hc : c.length % 2 = 0) :
    (lookupKey (str "value") (setEnvValueLoop value c)).map Node.value = some value := by
  induction c using pairs_induction with
  | h0 =>
    simp only [setEnvValueLoop, List.nil_append, lookupKey]
    rw [if_pos (by rfl)]
    rfl
  | h1 k => simp at hc
  | h2 k v rest ih =>
    have hr := even_tail k v rest hc
    unfold setEnvValueLoop
    by_cases hk : k.value = str "value"
    · rw [if_pos hk]
      simp only [lookupKey, if_pos hk, Option.map_some', Node.value_setQuoted]
    · rw [if_neg hk]
      simp only [lookupKey, if_neg hk, ih hr]

theorem addOrUpdateLoop_nil (name value : GoString) :
    addOrUpdateLoop name value [] = [newEnvItem name value] := rfl

theorem addOrUpdateLoop_pos (name value : GoString) (item : Node) (rest : List Node)
    (h : itemNamed name item) :
    addOrUpdateLoop name value (item :: rest) = withEnvValue value item :: rest := by
  rw [addOrUpdateLoop]
  exact if_pos h

theorem addOrUpdateLoop_neg (name value : GoString) (item : Node) (rest : List Node)
    (h : ¬ itemNamed name item) :
    addOrUpdateLoop name value (item :: rest) = item :: addOrUpdateLoop name value rest := by
  rw [addOrUpdateLoop]
  exact if_neg h

theorem itemNamed_newEnvItem (name other value : GoString) :
    itemNamed other (newEnvItem name value) ↔ name = other := by
  unfold itemNamed newEnvItem
  have h1 : (scalarNode (str "name")).value = str "name" := rfl
  have h2 : (scalarNode (str "value")).value ≠ str "name" := by decide
  have h3 : (scalarNode name).value = name := rfl
  simp [itemHasName, Node.kind, Node.content, h1, h2, h3]

theorem withEnvValue_newEnvItem (name a b : GoString) :
    withEnvValue b (newEnvItem name a) = newEnvItem name b := by
  unfold withEnvValue newEnvItem
  have h1 : (scalarNode (str "name")).value ≠ str "value" := by decide
  have h2 : (scalarNode (str "value")).value = str "value" := rfl
  simp [setEnvValueLoop, Node.content, Node.setContent, h1, h2, quotedNode, Node.setQuoted]

theorem withEnvValue_twice (a b : GoString) (item : Node) (h : item.content.length % 2 = 0) :
    withEnvValue b (withEnvValue a item) = withEnvValue b item := by
  unfold withEnvValue
  rw [Node.content_setContent, Node.setContent_setContent, setEnvValueLoop_twice a b _ h]

theorem itemNamed_withEnvValue (name value : GoString) (item : Node)
    (h : item.kind = .MappingNode → item.content.length % 2 = 0) :
    itemNamed name (withEnvValue value item) ↔ itemNamed name item := by
  unfold itemNamed withEnvValue
  rw [Node.kind_setContent, Node.content_setContent]
  constructor
  · rintro ⟨hk, hn⟩
    exact ⟨hk, by rw [← itemHasName_setEnvValueLoop name value _ (h hk)]; exact hn⟩
  · rintro ⟨hk, hn⟩
    exact ⟨hk, by rw [itemHasName_setEnvValueLoop name value _ (h hk)]; exact hn⟩

/-- A second addOrUpdateEnvVar for the same variable overwrites the first. -/
theorem addOrUpdateLoop_twice (name a b : GoString) (x : List Node)
    (hx : ∀ item ∈ x, item.kind = .MappingNode → item.content.length % 2 = 0) :
    addOrUpdateLoop name b (addOrUpdateLoop name a x) = addOrUpdateLoop name b x := by
  induction x with
  | nil =>
      rw [addOrUpdateLoop_nil, addOrUpdateLoop_nil,
        addOrUpdateLoop_pos _ _ _ _ ((itemNamed_newEnvItem name name a).mpr rfl),
        withEnvValue_newEnvItem]
  | cons item rest ih =>
      have hi := hx item (List.mem_cons_self _ _)
      have hr : ∀ i ∈ rest, i.kind = .MappingNode → i.content.length % 2 = 0 :=
        fun i h => hx i (List.mem_cons_of_mem _ h)
      by_cases hn : itemNamed name item
      · rw [addOrUpdateLoop_pos _ _ _ _ hn, addOrUpdateLoop_pos _ _ _ _ hn,
          addOrUpdateLoop_pos _ _ _ _ ((itemNamed_withEnvValue name a item hi).mpr hn),
          withEnvValue_twice a b item (hi hn.1)]
      · rw [addOrUpdateLoop_neg _ _ _ _ hn, addOrUpdateLoop_neg _ _ _ _ hn,
          addOrUpdateLoop_neg _ _ _ _ hn, ih hr]

theorem addOrUpdateLoop_paired (name a : GoString) (x : List Node)
    (hx : ∀ item ∈ x, item.kind = .MappingNode → item.content.length % 2 = 0) :
    ∀ item ∈ addOrUpdateLoop name a x, item.kind = .MappingNode → item.content.length % 2 = 0 := by
  induction x with
  | nil =>
      intro item hi _
      rw [addOrUpdateLoop_nil, List.mem_singleton] at hi
      subst hi
      simp [newEnvItem, Node.content]
  | cons i rest ih =>
      have hr : ∀ i ∈ rest, i.kind = .MappingNode → i.content.length % 2 = 0 :=
        fun i h => hx i (List.mem_cons_of_mem _ h)
      by_cases hn : itemNamed name i
      · rw [addOrUpdateLoop_pos _ _ _ _ hn]
        intro item hi hk
        rcases List.mem_cons.mp hi with rfl | hi
        · unfold withEnvValue
          rw [Node.content_setContent]
          exact setEnvValueLoop_even _ _ (hx i (List.mem_cons_self _ _) hn.1)
        · exact hr item hi hk
      · rw [addOrUpdateLoop_neg _ _ _ _ hn]
        intro item hi hk
        rcases List.mem_cons.mp hi with rfl | hi
        · exact hx _ (List.mem_cons_self _ _) hk
        · exact ih hr item hi hk

/-- The two upserts of injectEnvInContainer, applied again, change nothing. -/
theorem addOrUpdateLoop_pair_idem (n m a b : GoString) (hnm : n ≠ m) (x : List Node)
    (hx : ∀ item ∈ x, item.kind = .MappingNode → item.content.length % 2 = 0) :
    addOrUpdateLoop m b (addOrUpdateLoop n a (addOrUpdateLoop m b (addOrUpdateLoop n a x))) =
      addOrUpdateLoop m b (addOrUpdateLoop n a x) := by
  induction x with
  | nil =>
      have h1 : ¬ itemNamed m (newEnvItem n a) := fun h => hnm ((itemNamed_newEnvItem n m a).mp h)
      have h2 : itemNamed n (newEnvItem n a) := (itemNamed_newEnvItem n n a).mpr rfl
      have h3 : itemNamed m (newEnvItem m b) := (itemNamed_newEnvItem m m b).mpr rfl
      rw [addOrUpdateLoop_nil, addOrUpdateLoop_neg _ _ _ _ h1, addOrUpdateLoop_nil,
        addOrUpdateLoop_pos _ _ _ _ h2, withEnvValue_newEnvItem, addOrUpdateLoop_neg _ _ _ _ h1,
        addOrUpdateLoop_pos _ _ _ _ h3, withEnvValue_newEnvItem]
  | cons item rest ih =>
      have hi := hx item (List.mem_cons_self _ _)
      have hr : ∀ i ∈ rest, i.kind = .MappingNode → i.content.length % 2 = 0 :=
        fun i h => hx i (List.mem_cons_of_mem _ h)
      by_cases hn : itemNamed n item
      · have hev := hi hn.1
        rw [addOrUpdateLoop_pos n a _ _ hn]
        by_cases hm : itemNamed m item
        · have hm1 : itemNamed m (withEnvValue a item) := (itemNamed_withEnvValue m a item hi).mpr hm
          have hn2 : itemNamed n (withEnvValue b item) := (itemNamed_withEnvValue n b item hi).mpr hn
          have hm2 : itemNamed m (withEnvValue a (withEnvValue b item)) :=
            (itemNamed_withEnvValue m a _ (fun _ => by
              unfold withEnvValue
              rw [Node.content_setContent]
              exact setEnvValueLoop_even _ _ hev)).mpr
              ((itemNamed_withEnvValue m b item hi).mpr hm)
          rw [addOrUpdateLoop_pos m b _ _ hm1, withEnvValue_twice a b item hev,
            addOrUpdateLoop_pos n a _ _ hn2, addOrUpdateLoop_pos m b _ _ hm2,
            withEnvValue_twice b a item hev, withEnvValue_twice a b item hev]
        · have hm1 : ¬ itemNamed m (withEnvValue a item) :=
            fun h => hm ((itemNamed_withEnvValue m a item hi).mp h)
          have hn1 : itemNamed n (withEnvValue a item) := (itemNamed_withEnvValue n a item hi).mpr hn
          rw [addOrUpdateLoop_neg m b _ _ hm1, addOrUpdateLoop_pos n a _ _ hn1,
            withEnvValue_twice a a item hev, addOrUpdateLoop_neg m b _ _ hm1,
            addOrUpdateLoop_twice m b b rest hr]
      · rw [addOrUpdateLoop_neg n a _ _ hn]
        by_cases hm : itemNamed m item
        · have hev := hi hm.1
          have hn1 : ¬ itemNamed n (withEnvValue b item) :=
            fun h => hn ((itemNamed_withEnvValue n b item hi).mp h)
          have hm1 : itemNamed m (withEnvValue b item) := (itemNamed_withEnvValue m b item hi).mpr hm
          rw [addOrUpdateLoop_pos m b _ _ hm, addOrUpdateLoop_neg n a _ _ hn1,
            addOrUpdateLoop_pos m b _ _ hm1, withEnvValue_twice b b item hev,
            addOrUpdateLoop_twice n a a rest hr]
        · rw [addOrUpdateLoop_neg m b _ _ hm, addOrUpdateLoop_neg n a _ _ hn,
            addOrUpdateLoop_neg m b _ _ hm, ih hr]

theorem updateFirst_idem (key : GoString) (f : Node → Node) (c : List Node)
    (h : ∀ v, lookupKey key c = some v → f (f v) = f v) :
    updateFirst key f (updateFirst key f c) = updateFirst key f c := by
  induction c using pairs_induction with
  | h0 => rfl
  | h1 k => rfl
  | h2 k v rest ih =>
    by_cases hk : k.value = key
    · simp only [updateFirst, if_pos hk]
      rw [h v (by simp [lookupKey, hk])]
    · simp only [updateFirst, if_neg hk]
      rw [ih (fun v2 hv => h v2 (by simp [lookupKey, hk, hv]))]

theorem hasKey_updateFirst (key key2 : GoString) (f : Node → Node) (c : List Node) :
    hasKey key2 (updateFirst key f c) = hasKey key2 c := by
  induction c using pairs_induction with
  | h0 => rfl
  | h1 k => rfl
  | h2 k v rest ih =>
    unfold updateFirst
    split
    · simp [hasKey]
    · simp [hasKey, ih]

theorem hasKey_append_pair (key : GoString) (c : List Node) (k v : Node)
    (hc : c.length % 2 = 0) (hk : k.value = key) : hasKey key (c ++ [k, v]) = true := by
  induction c using pairs_induction with
  | h0 => simp [hasKey, hk]
  | h1 k => simp at hc
  | h2 k2 v2 rest ih =>
    rw [List.cons_append, List.cons_append]
    simp only [hasKey, ih (even_tail k2 v2 rest hc), Bool.or_true]

theorem updateFirst_append_pair (key : GoString) (f : Node → Node) (c : List Node) (k v : Node)
    (hc : c.length % 2 = 0) (hk : k.value = key) (hno : hasKey key c = false) :
    updateFirst key f (c ++ [k, v]) = c ++ [k, f v] := by
  induction c using pairs_induction with
  | h0 => simp [updateFirst, hk]
  | h1 k => simp at hc
  | h2 k2 v2 rest ih =>
    simp only [hasKey, Bool.or_eq_false_iff, decide_eq_false_iff_not] at hno
    rw [List.cons_append, List.cons_append]
    simp only [updateFirst, if_neg hno.1, ih (even_tail k2 v2 rest hc) hno.2, List.cons_append]

/-- The env node after the two upserts of injectEnvInContainer. -/
theorem injectEnvEntries_eq (env : Node) (hookEvent : GoString) (weight : Int) :
    injectEnvEntries env hookEvent weight =
      if env.kind ≠ .SequenceNode then env
      else env.setContent
        (addOrUpdateLoop (str "HELM_HOOK_WEIGHT") (Itoa weight)
          (addOrUpdateLoop (str "HELM_HOOK_EVENT") hookEvent env.content)) := by
  unfold injectEnvEntries addOrUpdateEnvVar
  by_cases hk : env.kind = .SequenceNode
  · simp [hk, Node.setContent_setContent]
  · simp [hk]

theorem injectEnvEntries_kind (env : Node) (hookEvent : GoString) (weight : Int) :
    (injectEnvEntries env hookEvent weight).kind = env.kind := by
  rw [injectEnvEntries_eq]
  split <;> simp

theorem injectEnvEntries_idem (env : Node) (hookEvent : GoString) (weight : Int)
    (hx : ∀ item ∈ env.content, item.kind = .MappingNode → item.content.length % 2 = 0) :
    injectEnvEntries (injectEnvEntries env hookEvent weight) hookEvent weight =
      injectEnvEntries env hookEvent weight := by
  rw [injectEnvEntries_eq (injectEnvEntries env hookEvent weight), injectEnvEntries_kind]
  by_cases hk : env.kind = .SequenceNode
  · rw [if_neg (by simp [hk]), injectEnvEntries_eq env, if_neg (by simp [hk]),
      Node.content_setContent, Node.setContent_setContent,
      addOrUpdateLoop_pair_idem _ _ _ _ (by decide) _ hx]
  · rw [if_pos hk]

theorem paired_items_even (env : Node) (h : env.paired = true) :
    ∀ item ∈ env.content, item.kind = .MappingNode → item.content.length % 2 = 0 :=
  fun item hi hk => Node.paired_even item (Node.paired_child env item h hi) hk

theorem injectEnvInContainer_kind (c : Node) (hookEvent : GoString) (weight : Int) :
    (injectEnvInContainer c hookEvent weight).kind = c.kind := by
  unfold injectEnvInContainer
  split <;> simp

theorem injectEnvInContainer_idem (c : Node) (hookEvent : GoString) (weight : Int)
    (hp : c.paired = true) (hk : c.kind = .MappingNode) :
    injectEnvInContainer (injectEnvInContainer c hookEvent weight) hookEvent weight =
      injectEnvInContainer c hookEvent weight := by
  have hev := Node.paired_even c hp hk
  by_cases he : hasKey (str "env") c.content = true
  · have h1 : injectEnvInContainer c hookEvent weight = c.setContent
        (updateFirst (str "env") (fun e => injectEnvEntries e hookEvent weight) c.content) := by
      unfold injectEnvInContainer
      rw [if_pos he]
    rw [h1]
    unfold injectEnvInContainer
    rw [Node.content_setContent, hasKey_updateFirst, if_pos he, Node.setContent_setContent,
      updateFirst_idem]
    intro v hv
    exact injectEnvEntries_idem v hookEvent weight
      (paired_items_even v (Node.paired_child c v hp (lookupKey_mem _ _ _ hv)))
  · have hno : hasKey (str "env") c.content = false := by simpa using he
    have h1 : injectEnvInContainer c hookEvent weight = c.setContent
        (c.content ++ [scalarNode (str "env"),
          injectEnvEntries (.mk .SequenceNode 0 [] [] NodeInfo.zero []) hookEvent weight]) := by
      unfold injectEnvInContainer
      rw [if_neg he]
    rw [h1]
    unfold injectEnvInContainer
    rw [Node.content_setContent,
      hasKey_append_pair (str "env") c.content (scalarNode (str "env")) _ hev rfl, if_pos rfl,
      Node.setContent_setContent,
      updateFirst_append_pair (str "env") _ c.content (scalarNode (str "env")) _ hev rfl hno,
      injectEnvEntries_idem]
    intro item hi
    simp [Node.content] at hi

theorem injectEnvInContainers_idem (cs : Node) (hookEvent : GoString) (weight : Int)
    (hp : cs.paired = true) :
    injectEnvInContainers (injectEnvInContainers cs hookEvent weight) hookEvent weight =
      injectEnvInContainers cs hookEvent weight := by
  by_cases hk : cs.kind = .SequenceNode
  · have h1 : injectEnvInContainers cs hookEvent weight = cs.setContent
        (cs.content.map
          (fun c => if c.kind = .MappingNode then injectEnvInContainer c hookEvent weight else c)) := by
      unfold injectEnvInContainers
      rw [if_neg (by simp [hk])]
    rw [h1]
    unfold injectEnvInContainers
    rw [Node.kind_setContent, if_neg (by simp [hk]), Node.content_setContent,
      Node.setContent_setContent, List.map_map]
    congr 1
    apply List.map_congr_left
    intro c hc
    by_cases hm : c.kind = .MappingNode
    · simp only [Function.comp, hm, if_true, injectEnvInContainer_kind]
      exact injectEnvInContainer_idem c hookEvent weight (Node.paired_child cs c hp hc) hm
    · simp only [Function.comp, hm, if_false]
  · have h1 : injectEnvInContainers cs hookEvent weight = cs := by
      unfold injectEnvInContainers
      rw [if_pos hk]
    rw [h1, h1]

theorem pairedList_tail (k v : Node) (rest : List Node) (h : pairedList (k :: v :: rest) = true) :
    v.paired = true ∧ pairedList rest = true := by
  simp only [pairedList, Bool.and_eq_true] at h
  exact ⟨h.2.1, h.2.2⟩

theorem injectEnvInPodSpecLoop_idem (hookEvent : GoString) (weight : Int) (l : List Node)
    (hp : pairedList l = true) :
    injectEnvInPodSpecLoop hookEvent weight (injectEnvInPodSpecLoop hookEvent weight l) =
      injectEnvInPodSpecLoop hookEvent weight l := by
  induction l using pairs_induction with
  | h0 => rfl
  | h1 k => rfl
  | h2 k v rest ih =>
    obtain ⟨hv, hr⟩ := pairedList_tail k v rest hp
    by_cases hk : k.value = str "containers" ∨ k.value = str "initContainers"
    · simp only [injectEnvInPodSpecLoop, if_pos hk, ih hr,
        injectEnvInContainers_idem v hookEvent weight hv]
    · simp only [injectEnvInPodSpecLoop, if_neg hk, ih hr]

theorem Node.paired_content (n : Node) (h : n.paired = true) : pairedList n.content = true :=
  (pairedList_iff _).mpr ((Node.paired_iff n).mp h).2

theorem injectEnvInPodSpec_idem (ps : Node) (hookEvent : GoString) (weight : Int)
    (hp : ps.paired = true) :
    injectEnvInPodSpec (injectEnvInPodSpec ps hookEvent weight) hookEvent weight =
      injectEnvInPodSpec ps hookEvent weight := by
  by_cases hk : ps.kind = .MappingNode
  · have h1 : injectEnvInPodSpec ps hookEvent weight =
        ps.setContent (injectEnvInPodSpecLoop hookEvent weight ps.content) := by
      unfold injectEnvInPodSpec
      rw [if_neg (by simp [hk])]
    rw [h1]
    unfold injectEnvInPodSpec
    rw [Node.kind_setContent, if_neg (by simp [hk]), Node.content_setContent,
      Node.setContent_setContent, injectEnvInPodSpecLoop_idem _ _ _ (Node.paired_content ps hp)]
  · have h1 : injectEnvInPodSpec ps hookEvent weight = ps := by
      unfold injectEnvInPodSpec
      rw [if_pos hk]
    rw [h1, h1]

theorem injectEnvInPodTemplate_idem (t : Node) (hookEvent : GoString) (weight : Int)
    (hp : t.paired = true) :
    injectEnvInPodTemplate (injectEnvInPodTemplate t hookEvent weight) hookEvent weight =
      injectEnvInPodTemplate t hookEvent weight := by
  by_cases hk : t.kind = .MappingNode
  · have h1 : injectEnvInPodTemplate t hookEvent weight = t.setContent
        (updateFirst (str "spec") (fun p => injectEnvInPodSpec p hookEvent weight) t.content) := by
      unfold injectEnvInPodTemplate
      rw [if_neg (by simp [hk])]
    rw [h1]
    unfold injectEnvInPodTemplate
    rw [Node.kind_setContent, if_neg (by simp [hk]), Node.content_setContent,
      Node.setContent_setContent, updateFirst_idem]
    intro v hv
    exact injectEnvInPodSpec_idem v hookEvent weight
      (Node.paired_child t v hp (lookupKey_mem _ _ _ hv))
  · have h1 : injectEnvInPodTemplate t hookEvent weight = t := by
      unfold injectEnvInPodTemplate
      rw [if_pos hk]
    rw [h1, h1]

theorem injectEnvInSpecLoop_short (hookEvent : GoString) (weight : Int) (rest : List Node)
    (hrest : ∀ (k v : Node) (rest_1 : List Node), rest = k :: v :: rest_1 → False) :
    injectEnvInSpecLoop hookEvent weight rest = rest := by
  cases rest with
  | nil => rfl
  | cons a t =>
      cases t with
      | nil => rfl
      | cons b t2 => exact absurd rfl (hrest a b t2)

theorem injectEnvInJobTemplateLoop_short (hookEvent : GoString) (weight : Int) (rest : List Node)
    (hrest : ∀ (k v : Node) (rest_1 : List Node), rest = k :: v :: rest_1 → False) :
    injectEnvInJobTemplateLoop hookEvent weight rest = rest := by
  cases rest with
  | nil => rfl
  | cons a t =>
      cases t with
      | nil => rfl
      | cons b t2 => exact absurd rfl (hrest a b t2)

/-- A second injectEnvInSpec changes nothing. -/
theorem injectEnvInSpec_idem (hookEvent : GoString) (weight : Int) (sp : Node) :
    sp.paired = true →
      injectEnvInSpec hookEvent weight (injectEnvInSpec hookEvent weight sp) =
        injectEnvInSpec hookEvent weight sp := by
  apply injectEnvInSpec.induct hookEvent weight
    (fun n => n.paired = true →
      injectEnvInSpec hookEvent weight (injectEnvInSpec hookEvent weight n) =
        injectEnvInSpec hookEvent weight n)
    (fun l => pairedList l = true →
      injectEnvInSpecLoop hookEvent weight (injectEnvInSpecLoop hookEvent weight l) =
        injectEnvInSpecLoop hookEvent weight l)
    (fun n => n.paired = true →
      injectEnvInJobTemplate hookEvent weight (injectEnvInJobTemplate hookEvent weight n) =
        injectEnvInJobTemplate hookEvent weight n)
    (fun l => pairedList l = true →
      injectEnvInJobTemplateLoop hookEvent weight (injectEnvInJobTemplateLoop hookEvent weight l) =
        injectEnvInJobTemplateLoop hookEvent weight l)
  · intro kind style tag value info content hk _
    rw [injectEnvInSpec, if_pos hk, injectEnvInSpec, if_pos hk]
  · intro kind style tag value info content hk ih hp
    rw [injectEnvInSpec, if_neg hk, injectEnvInSpec, if_neg hk,
      ih (Node.paired_content _ hp)]
  · intro kind style tag value info content hk _
    rw [injectEnvInJobTemplate, if_pos hk, injectEnvInJobTemplate, if_pos hk]
  · intro kind style tag value info content hk ih hp
    rw [injectEnvInJobTemplate, if_neg hk, injectEnvInJobTemplate, if_neg hk,
      ih (Node.paired_content _ hp)]
  · intro k v rest hk hp
    rw [injectEnvInSpecLoop, if_pos hk, injectEnvInSpecLoop, if_pos hk,
      injectEnvInPodTemplate_idem v hookEvent weight (pairedList_tail k v rest hp).1]
  · intro k v rest hk1 hk2 ih hp
    rw [injectEnvInSpecLoop, if_neg hk1, if_pos hk2, injectEnvInSpecLoop, if_neg hk1, if_pos hk2,
      ih (pairedList_tail k v rest hp).1]
  · intro k v rest hk1 hk2 hk3 ih hp
    rw [injectEnvInSpecLoop, if_neg hk1, if_neg hk2, if_pos hk3, injectEnvInSpecLoop,
      if_neg hk1, if_neg hk2, if_pos hk3, ih (pairedList_tail k v rest hp).2,
      injectEnvInContainers_idem v hookEvent weight (pairedList_tail k v rest hp).1]
  · intro k v rest hk1 hk2 hk3 ih hp
    rw [injectEnvInSpecLoop, if_neg hk1, if_neg hk2, if_neg hk3, injectEnvInSpecLoop,
      if_neg hk1, if_neg hk2, if_neg hk3, ih (pairedList_tail k v rest hp).2]
  · intro rest hrest _
    rw [injectEnvInSpecLoop_short _ _ rest hrest, injectEnvInSpecLoop_short _ _ rest hrest]
  · intro k v rest hk ih hp
    rw [injectEnvInJobTemplateLoop, if_pos hk, injectEnvInJobTemplateLoop, if_pos hk,
      ih (pairedList_tail k v rest hp).1]
  · intro k v rest hk ih hp
    rw [injectEnvInJobTemplateLoop, if_neg hk, injectEnvInJobTemplateLoop, if_neg hk,
      ih (pairedList_tail k v rest hp).2]
  · intro rest hrest _
    rw [injectEnvInJobTemplateLoop_short _ _ rest hrest,
      injectEnvInJobTemplateLoop_short _ _ rest hrest]

theorem injectEnvVars_idem (root : Node) (hookEvent : GoString) (weight : Int)
    (hp : root.paired = true) :
    injectEnvVars (injectEnvVars root hookEvent weight) hookEvent weight =
      injectEnvVars root hookEvent weight := by
  by_cases hk : root.kind = .MappingNode
  · have h1 : injectEnvVars root hookEvent weight = root.setContent
        (updateFirst (str "spec") (fun sp => injectEnvInSpec hookEvent weight sp) root.content) := by
      unfold injectEnvVars
      rw [if_neg (by simp [hk])]
    rw [h1]
    unfold injectEnvVars
    rw [Node.kind_setContent, if_neg (by simp [hk]), Node.content_setContent,
      Node.setContent_setContent, updateFirst_idem]
    intro v hv
    exact injectEnvInSpec_idem hookEvent weight v
      (Node.paired_child root v hp (lookupKey_mem _ _ _ hv))
  · have h1 : injectEnvVars root hookEvent weight = root := by
      unfold injectEnvVars
      rw [if_pos hk]
    rw [h1, h1]

/-- C20. injectEnvVars is idempotent on every tree whose mappings hold their
keys and values in pairs (every tree the decoder builds): applied a second
time with the same event and weight, it leaves the tree as the first
application made it. -/
theorem injectEnvVars_idempotent (doc : Node) (hookEvent : GoString) (weight : Int)
    (hp : doc.paired = true) :
    injectEnvVars (injectEnvVars doc hookEvent weight) hookEvent weight =
      injectEnvVars doc hookEvent weight :=
  injectEnvVars_idem doc hookEvent weight hp

theorem Node.kind_setQuoted (n : Node) (v : GoString) : (n.setQuoted v).kind = n.kind := by
  cases n; rfl

theorem Node.content_setQuoted (n : Node) (v : GoString) :
    (n.setQuoted v).content = n.content := by
  cases n; rfl

/-- The inner loop of addOrUpdateEnvVar is the annotation loop for the key
value. -/
theorem setEnvValueLoop_eq (value : GoString) (c : List Node) :
    setEnvValueLoop value c = setAnnotationLoop (str "value") value c := by
  induction c using pairs_induction with
  | h0 => rfl
  | h1 k => rfl
  | h2 k v rest ih =>
    unfold setEnvValueLoop setAnnotationLoop
    rw [ih]

/-- An entry that is not named for the variable stays in the list. -/
theorem addOrUpdateLoop_keeps (name value : GoString) (x : List Node) (item : Node)
    (hi : item ∈ x) (hn : ¬ itemNamed name item) : item ∈ addOrUpdateLoop name value x := by
  induction x with
  | nil => simp at hi
  | cons i rest ih =>
      by_cases hni : itemNamed name i
      · rw [addOrUpdateLoop_pos _ _ _ _ hni]
        rcases List.mem_cons.mp hi with rfl | hi
        · exact absurd hni hn
        · exact List.mem_cons_of_mem _ hi
      · rw [addOrUpdateLoop_neg _ _ _ _ hni]
        rcases List.mem_cons.mp hi with rfl | hi
        · exact List.mem_cons_self _ _
        · exact List.mem_cons_of_mem _ (ih hi)

theorem hasKey_eq_isSome (key : GoString) (c : List Node) :
    hasKey key c = (lookupKey key c).isSome := by
  induction c using pairs_induction with
  | h0 => rfl
  | h1 k => rfl
  | h2 k v rest ih =>
    unfold hasKey lookupKey
    by_cases hk : k.value = key
    · simp [hk]
    · simp [hk, ih]

theorem injectEnvInSpec_eq (hookEvent : GoString) (weight : Int) (n : Node) :
    injectEnvInSpec hookEvent weight n =
      if n.kind ≠ .MappingNode then n
      else n.setContent (injectEnvInSpecLoop hookEvent weight n.content) := by
  cases n with
  | mk kind style tag value info content =>
      rw [injectEnvInSpec]
      rfl

theorem hasKey_injectEnvInSpecLoop (hookEvent : GoString) (weight : Int) (key : GoString)
    (c : List Node) : hasKey key (injectEnvInSpecLoop hookEvent weight c) = hasKey key c := by
  induction c using pairs_induction with
  | h0 => rfl
  | h1 k => rfl
  | h2 k v rest ih =>
    rw [injectEnvInSpecLoop]
    split
    · simp [hasKey]
    · split
      · simp [hasKey]
      · split <;> simp [hasKey, ih]

theorem child_map_of_kind (key : GoString) (n : Node) (f g : Node → Node) (c2 : List Node)
    (hk : n.kind = .MappingNode → lookupKey key c2 = (lookupKey key n.content).map g)
    (hn : n.kind ≠ .MappingNode → f n = n)
    (hm : n.kind = .MappingNode → f n = n.setContent c2) :
    child key (f n) = (child key n).map g := by
  unfold child
  by_cases h : n.kind = .MappingNode
  · rw [hm h]
    simp [h, hk h]
  · rw [hn h]
    simp [h]

theorem hasKey_injectEnvInSpec (sp : Node) (hookEvent : GoString) (weight : Int)
    (key : GoString) :
    hasKey key (injectEnvInSpec hookEvent weight sp).content = hasKey key sp.content := by
  rw [injectEnvInSpec_eq]
  split
  · rfl
  · rw [Node.content_setContent, hasKey_injectEnvInSpecLoop]

/-- A containers list that stands after a template entry of spec is never
reached: the loop of injectEnvInSpec returns at template. -/
theorem injectEnvVars_template_first_example :
    ¬ ∀ c ∈ containerTargets (injectEnvVars templateFirstPod (str "pre-install") 5),
        hasEnvVar c (str "HELM_HOOK_EVENT") (str "pre-install") = true ∧
          hasEnvVar c (str "HELM_HOOK_WEIGHT") (Itoa 5) = true := by
  decide

/-- An env entry that carries both names is written twice: the weight
overwrites the event. -/
theorem injectEnvVars_double_name_example :
    ¬ ∀ c ∈ containerTargets (injectEnvVars doubleNamePod (str "pre-install") 5),
        hasEnvVar c (str "HELM_HOOK_EVENT") (str "pre-install") = true ∧
          hasEnvVar c (str "HELM_HOOK_WEIGHT") (Itoa 5) = true := by
  decide

theorem injectEnvVars_idempotent_witness :
    injectEnvVars (injectEnvVars cronJobSample (str "pre-install") 5) (str "pre-install") 5 =
      injectEnvVars cronJobSample (str "pre-install") 5 :=
  injectEnvVars_idempotent cronJobSample (str "pre-install") 5 (by decide)

/-- A container of a Job whose env entry carries both names ends with the
weight as the value of its HELM_HOOK_EVENT entry. -/
theorem processDocument_double_name_example :
    ∃ d, processDocument exactYaml doubleNameJob = .ok [d] ∧
      ¬ ∀ c ∈ jobContainers (documentContent d),
          hasEnvVar c (str "HELM_HOOK_EVENT") (str "pre-install") = true ∧
            hasEnvVar c (str "HELM_HOOK_WEIGHT") (str "0") = true :=
  ⟨injectEnvVarsOnly doubleNameJob (str "pre-install") 0, rfl, by decide⟩

/-- With SHA-256 for the digest, GenerateNameBy is the source's GenerateName. -/
theorem GenerateNameBy_sha256 (base event : GoString) :
    GenerateNameBy (fun s => hexEncodeToString (sha256Sum256 s)) base event =
      GenerateName base event := rfl

theorem HexDigest_sha256 : HexDigest (fun s => hexEncodeToString (sha256Sum256 s)) :=
  fun s => ⟨hashStr_length s, hashStr_hex s⟩

theorem truncateWithHashBy_shape (hash : GoString → GoString) (hh : HexDigest hash)
    (base event : GoString) (hev : event.length ≤ 52)
    (hlong : 63 < base.length + 1 + event.length) :
    truncateWithHashBy hash base event =
      trimRightDash (base.take (53 - event.length)) ++ [dash] ++ event ++ [dash] ++
        (hash (base ++ str "-" ++ event)).take hashLength := by
  unfold truncateWithHashBy
  dsimp only
  have hl := (hh (base ++ str "-" ++ event)).1
  have hx := (hh (base ++ str "-" ++ event)).2
  generalize (hash (base ++ str "-" ++ event)).take hashLength = hs at hl hx
  simp only [str_dash, List.length_append, List.length_singleton, List.length_cons, List.length_nil, Nat.zero_add, hl, maxNameLength]
  have h1 : ¬ (((63 : Nat) : Int) - (((1 + event.length : Nat) : Int) + ((1 + 8 : Nat) : Int)) < 1) := by
    push_cast; omega
  rw [if_neg h1]
  have h2 : (((63 : Nat) : Int) - (((1 + event.length : Nat) : Int) + ((1 + 8 : Nat) : Int))).toNat
      = 53 - event.length := by
    push_cast; omega
  have h3 : ¬ ((base.length : Int) ≤ ((63 : Nat) : Int) - (((1 + event.length : Nat) : Int) + ((1 + 8 : Nat) : Int))) := by
    push_cast; omega
  unfold truncateName
  rw [if_neg h3, h2]
  have hle := trimRightDash_length_le (base.take (53 - event.length))
  rw [List.length_take] at hle
  have h4 : ¬ ((trimRightDash (List.take (53 - event.length) base)).length + (1 + event.length) + (1 + 8) > 63) := by
    omega
  rw [if_neg h4]
  have := trimRightDash_of_hex_end
    (trimRightDash (List.take (53 - event.length) base) ++ ([dash] ++ event) ++ [dash]) hs hl hx
  simpa [List.append_assoc] using this

theorem GenerateNameBy_vocab_shape (hash : GoString → GoString) (hh : HexDigest hash)
    (base e : GoString) (he : e ∈ validHooks) :
    GenerateNameBy hash base e = base ++ [dash] ++ e ∨
      ∃ p h, GenerateNameBy hash base e = p ++ [dash] ++ e ++ [dash] ++ h ∧ h.length = 8 ∧
        ∀ c ∈ h, isHexChar c = true := by
  have hl := validHooks_length e he
  have heq : GenerateNameBy hash base e =
      if (base ++ str "-" ++ e).length ≤ maxNameLength then base ++ str "-" ++ e
      else truncateWithHashBy hash base e := rfl
  by_cases hshort : base.length + 1 + e.length ≤ 63
  · left
    have h2 : (base ++ str "-" ++ e).length ≤ maxNameLength := by
      simp only [str_dash, maxNameLength, List.length_append, List.length_singleton]; omega
    rw [heq, if_pos h2, str_dash]
  · right
    have hlen : ¬ (base ++ str "-" ++ e).length ≤ maxNameLength := by
      simp only [str_dash, maxNameLength, List.length_append, List.length_singleton]; omega
    refine ⟨trimRightDash (base.take (53 - e.length)),
      (hash (base ++ str "-" ++ e)).take hashLength, ?_,
      (hh _).1, (hh _).2⟩
    rw [heq, if_neg hlen]
    exact truncateWithHashBy_shape hash hh base e (by omega) (by omega)

/-- C26. For every base and every two distinct events of the fixed hook
vocabulary the generated names differ, on the short path and on the
truncate-and-hash path alike, and whatever the digest: the proof is for
every digest function whose eight-character prefix is hexadecimal, of which
the source's SHA-256 is one. -/
theorem GenerateName_distinct_any_digest (base e1 e2 : GoString)
    (he1 : e1 ∈ validHooks) (he2 : e2 ∈ validHooks) (hne : e1 ≠ e2) :
    GenerateName base e1 ≠ GenerateName base e2 ∧
      ∀ hash : GoString → GoString, HexDigest hash →
        GenerateNameBy hash base e1 ≠ GenerateNameBy hash base e2 := by
  have key : ∀ hash : GoString → GoString, HexDigest hash →
      GenerateNameBy hash base e1 ≠ GenerateNameBy hash base e2 := by
    intro hash hh
    rcases GenerateNameBy_vocab_shape hash hh base e1 he1 with hs1 | ⟨p1, h1, hs1, hl1, hx1⟩ <;>
      rcases GenerateNameBy_vocab_shape hash hh base e2 he2 with hs2 | ⟨p2, h2, hs2, hl2, hx2⟩ <;>
      rw [hs1, hs2]
    · intro heq
      exact hne (List.append_cancel_left heq)
    · exact short_ne_long base p2 e1 e2 h2 he1 hl2 hx2
    · exact (short_ne_long base p1 e2 e1 h1 he2 hl1 hx1).symm
    · exact long_ne_long p1 p2 e1 e2 h1 h2 he1 he2 hne hl1 hl2
  refine ⟨?_, key⟩
  have := key _ HexDigest_sha256
  rwa [GenerateNameBy_sha256, GenerateNameBy_sha256] at this

theorem GenerateName_distinct_any_digest_witness :
    GenerateName (List.replicate 70 97) (str "test") ≠
        GenerateName (List.replicate 70 97) (str "test-success") ∧
      GenerateNameBy (fun _ => List.replicate 64 48) (List.replicate 70 97) (str "test") ≠
        GenerateNameBy (fun _ => List.replicate 64 48) (List.replicate 70 97) (str "test-success") :=
  have h := GenerateName_distinct_any_digest (List.replicate 70 97) (str "test")
    (str "test-success") (by decide) (by decide) (by decide)
  have hd : ((List.replicate 64 48).take hashLength).length = 8 ∧
      ∀ c ∈ (List.replicate 64 48).take hashLength, isHexChar c = true := by decide
  ⟨h.1, h.2 (fun _ => List.replicate 64 48) (fun _ => hd)⟩

/-! ## The splitter's itoa and strconv -/

theorem decimalLoop_zero (fuel : Nat) (acc : GoString) : decimalLoop fuel 0 acc = acc := by
  cases fuel <;> simp [decimalLoop]

/-- Reading the digits decimalLoop writes in front of acc continues the
number read so far with the digits of n. -/
theorem decimalLoop_foldl (fuel : Nat) :
    ∀ (n : Nat) (acc : GoString), n ≤ fuel →
      ∃ k, ∀ a : Nat,
        (decimalLoop fuel n acc).foldl
          (fun acc b =>
            match acc with
            | none => none
            | some n => if 48 ≤ b ∧ b ≤ 57 then some (n * 10 + (b - 48)) else none)
          (some a) =
        acc.foldl
          (fun acc b =>
            match acc with
            | none => none
            | some n => if 48 ≤ b ∧ b ≤ 57 then some (n * 10 + (b - 48)) else none)
          (some (a * 10 ^ k + n)) := by
  induction fuel with
  | zero =>
      intro n acc hn
      have h0 : n = 0 := by omega
      subst h0
      exact ⟨0, fun a => by simp [decimalLoop]⟩
  | succ f ih =>
      intro n acc hn
      by_cases h0 : n = 0
      · subst h0
        exact ⟨0, fun a => by simp [decimalLoop]⟩
      · have hdiv : n / 10 ≤ f := by omega
        obtain ⟨k, hk⟩ := ih (n / 10) ((48 + n % 10) :: acc) hdiv
        refine ⟨k + 1, fun a => ?_⟩
        rw [decimalLoop, if_neg h0, hk a, List.foldl_cons]
        have hd : 48 ≤ 48 + n % 10 ∧ 48 + n % 10 ≤ 57 := by omega
        simp only [hd, and_self, if_true]
        congr 2
        have : 48 + n % 10 - 48 = n % 10 := by omega
        rw [this, pow_succ]
        have := Nat.div_add_mod n 10
        nlinarith [Nat.div_add_mod n 10]

theorem decimalLoop_head (fuel : Nat) :
    ∀ (n : Nat) (acc : GoString), (∃ b rest, acc = b :: rest ∧ 48 ≤ b ∧ b ≤ 57) →
      ∃ b rest, decimalLoop fuel n acc = b :: rest ∧ 48 ≤ b ∧ b ≤ 57 := by
  induction fuel with
  | zero => intro n acc h; simpa [decimalLoop] using h
  | succ f ih =>
      intro n acc h
      rw [decimalLoop]
      split
      · exact h
      · exact ih _ _ ⟨48 + n % 10, acc, rfl, by omega, by omega⟩

theorem decimalLoop_digits (n : Nat) (hn : 0 < n) :
    (∃ b rest, decimalLoop n n [] = b :: rest ∧ 48 ≤ b ∧ b ≤ 57) ∧
      parseDigits (decimalLoop n n []) = some n := by
  have hhead : ∃ b rest, decimalLoop n n [] = b :: rest ∧ 48 ≤ b ∧ b ≤ 57 := by
    obtain ⟨f, rfl⟩ : ∃ f, n = f + 1 := ⟨n - 1, by omega⟩
    rw [decimalLoop, if_neg (by omega)]
    exact decimalLoop_head f _ _ ⟨48 + (f + 1) % 10, [], rfl, by omega, by omega⟩
  refine ⟨hhead, ?_⟩
  obtain ⟨b, rest, hb, _⟩ := hhead
  obtain ⟨k, hk⟩ := decimalLoop_foldl n n [] (le_refl n)
  have h0 := hk 0
  simp only [List.foldl_nil, Nat.zero_mul, Nat.zero_add] at h0
  unfold parseDigits
  rw [hb] at h0 ⊢
  exact h0

/-- Parsing the canonical decimal string of a 64-bit integer gives the
integer back. -/
theorem Atoi_Itoa (n : Int) (hlo : -9223372036854775808 ≤ n) (hhi : n < 9223372036854775808) :
    Atoi (Itoa n) = some n := by
  unfold Itoa
  by_cases h0 : n = 0
  · subst h0; decide
  · rw [if_neg h0]
    have hpos : 0 < n.natAbs := Int.natAbs_pos.mpr h0
    obtain ⟨⟨b, rest, hb, hb1, hb2⟩, hp⟩ := decimalLoop_digits n.natAbs hpos
    by_cases hneg : n < 0
    · rw [if_pos hneg]
      have : str "-" ++ decimalLoop n.natAbs n.natAbs [] = 45 :: decimalLoop n.natAbs n.natAbs [] := rfl
      rw [this]
      simp only [Atoi, if_true, hp]
      rw [if_pos (by omega)]
      congr 1
      omega
    · rw [if_neg hneg, hb]
      have h45 : b ≠ 45 := by omega
      have h43 : b ≠ 43 := by omega
      simp only [Atoi, if_neg h45, if_neg h43]
      rw [← hb, hp]
      simp only []
      rw [if_pos (by omega)]
      congr 1
      omega

/-- Apart from the least 64-bit integer, the splitter's itoa writes the
canonical decimal string, and parsing it back gives the integer. -/
theorem itoa_canonical (n : Int) (hlo : -9223372036854775808 < n) (hhi : n < 9223372036854775808) :
    itoa n = Itoa n ∧ Atoi (itoa n) = some n := by
  rw [itoa_eq_Itoa n hlo]
  exact ⟨rfl, Atoi_Itoa n (le_of_lt hlo) hhi⟩

/-- C29, the code at the failing input: for the least 64-bit integer, which
strconv.Atoi returns for "-9223372036854775808", the splitter's itoa writes
"-", not the canonical decimal string strconv.Itoa writes; "-" does not parse
back; and the first replica of minWeightJob carries "-" as its
helm.sh/hook-weight annotation while its container gets the canonical string
as HELM_HOOK_WEIGHT. -/
theorem itoa_least_int64 :
    Atoi (str "-9223372036854775808") = some (-9223372036854775808) ∧
      itoa (-9223372036854775808) = str "-" ∧
      Itoa (-9223372036854775808) = str "-9223372036854775808" ∧
      Atoi (itoa (-9223372036854775808)) = none ∧
      (processDocument exactYaml minWeightJob).map
          (fun docs => docs.map (fun d =>
            ((parseResource d).Annotations annotationHookWeight,
              (jobContainers (documentContent d)).map
                (fun c => hasEnvVar c (str "HELM_HOOK_WEIGHT") (str "-9223372036854775808")))))
        = .ok [(some (str "-"), [true]), (some (str "200"), [false])] := by
  decide

/-! ## Process over a stream of decoded documents -/

theorem failed_of_failedOtherThanWeightValue {α : Type} (r : Except HookError α)
    (h : failedOtherThanWeightValue r = true) : failed r = true := by
  cases r with
  | error e => rfl
  | ok _ => simp [failedOtherThanWeightValue] at h

theorem parseExplicitLoop_failure (hooks : List GoString) (pairs : List GoString) :
    ∀ weights : GoMap Int,
      failedOtherThanWeightValue (parseExplicitLoop hooks pairs weights) =
        failed (parseExplicitLoop hooks pairs weights) := by
  induction pairs with
  | nil => intro weights; rfl
  | cons pair rest ih =>
      intro weights
      rw [parseExplicitLoop]
      dsimp only
      split
      · exact ih weights
      · split
        · rfl
        · split
          · rfl
          · split
            · rfl
            · exact ih _

theorem parsePositionalLoop_failure (hooks : List GoString) :
    ∀ (parts : List GoString) (weights : GoMap Int),
      failedOtherThanWeightValue (parsePositionalLoop hooks parts weights) = false := by
  induction hooks with
  | nil => intro parts weights; cases parts <;> rfl
  | cons h hooks ih =>
      intro parts weights
      cases parts with
      | nil => rfl
      | cons part parts =>
          rw [parsePositionalLoop]
          split
          · rfl
          · exact ih _ _

/-- The weight half of ValidateAnnotations fails exactly when parseWeights
fails with an error other than the invalid-weight error. -/
theorem parseWeights_failure (annotations : GoMap GoString) (hooks : List GoString) :
    failedOtherThanWeightValue (parseWeights annotations hooks) =
      match annotations annotationHookWeights with
      | some weightsVal => failed (parseExplicitWeights weightsVal hooks)
      | none =>
          match annotations annotationHookWeight with
          | some weightVal =>
              decide ((Split weightVal comma).length > 1 ∧
                (Split weightVal comma).length ≠ hooks.length)
          | none => false := by
  unfold parseWeights
  dsimp only
  cases annotations annotationHookWeights with
  | some weightsVal =>
      simp only []
      exact parseExplicitLoop_failure hooks _ _
  | none =>
      cases annotations annotationHookWeight with
      | none => rfl
      | some weightVal =>
          simp only []
          have hpos := Split_length_pos weightVal comma
          by_cases h1 : (Split weightVal comma).length = 1
          · rw [if_pos h1]
            have : ¬ ((Split weightVal comma).length > 1 ∧
                (Split weightVal comma).length ≠ hooks.length) := by omega
            rw [decide_eq_false this]
            split <;> rfl
          · rw [if_neg h1]
            by_cases h2 : (Split weightVal comma).length ≠ hooks.length
            · rw [if_pos h2]
              have : (Split weightVal comma).length > 1 ∧
                  (Split weightVal comma).length ≠ hooks.length := ⟨by omega, h2⟩
              rw [decide_eq_true this]
              rfl
            · rw [if_neg h2]
              have : ¬ ((Split weightVal comma).length > 1 ∧
                  (Split weightVal comma).length ≠ hooks.length) := fun h => h2 h.2
              rw [decide_eq_false this]
              exact parsePositionalLoop_failure _ _ _

/-- C25, amended: for an annotation map that contains helm.sh/hook,
ValidateAnnotations returns an error exactly when parseHookEvents yields no
event, or validateHooks rejects the events, or parseWeights returns an error
other than the invalid-weight error; so an error of ValidateAnnotations
always means that resolution of the map fails. -/
theorem ValidateAnnotations_error_iff (annotations : GoMap GoString)
    (resourceName hookValue : GoString)
    (hhook : annotations annotationHook = some hookValue) :
    (ValidateAnnotations annotations resourceName).isSome =
        (decide ((parseHookEvents hookValue).length = 0) ||
          failed (validateHooks (parseHookEvents hookValue) resourceName) ||
          failedOtherThanWeightValue (parseWeights annotations (parseHookEvents hookValue))) ∧
      ((ValidateAnnotations annotations resourceName).isSome = true →
        resolutionFails annotations resourceName hookValue = true) := by
  have key : (ValidateAnnotations annotations resourceName).isSome =
      (decide ((parseHookEvents hookValue).length = 0) ||
        failed (validateHooks (parseHookEvents hookValue) resourceName) ||
        failedOtherThanWeightValue (parseWeights annotations (parseHookEvents hookValue))) := by
    rw [parseWeights_failure]
    unfold ValidateAnnotations
    rw [hhook]
    dsimp only
    by_cases h0 : (parseHookEvents hookValue).length = 0
    · rw [if_pos h0]
      simp [h0]
    · rw [if_neg h0, decide_eq_false h0]
      cases hv : validateHooks (parseHookEvents hookValue) resourceName with
      | error e => simp [failed]
      | ok u =>
          simp only [failed, Bool.false_or]
          cases annotations annotationHookWeights with
          | some weightsVal =>
              simp only []
              cases parseExplicitWeights weightsVal (parseHookEvents hookValue) <;> rfl
          | none =>
              cases annotations annotationHookWeight with
              | none => rfl
              | some weightVal =>
                  simp only []
                  by_cases h : (Split weightVal comma).length > 1 ∧
                      (Split weightVal comma).length ≠ (parseHookEvents hookValue).length
                  · rw [if_pos h, decide_eq_true h]; rfl
                  · rw [if_neg h, decide_eq_false h]; rfl
  refine ⟨key, ?_⟩
  rw [key]
  unfold resolutionFails
  dsimp only
  intro h
  rcases Bool.or_eq_true _ _ |>.mp h with h | h
  · rw [h]; rfl
  · rw [failed_of_failedOtherThanWeightValue _ h]
    simp

theorem ValidateAnnotations_error_iff_witness :
    ((ValidateAnnotations (parseResource multiHookJob).Annotations (str "r")).isSome =
        (decide ((parseHookEvents (str "pre-install,post-upgrade")).length = 0) ||
          failed (validateHooks (parseHookEvents (str "pre-install,post-upgrade")) (str "r")) ||
          failedOtherThanWeightValue (parseWeights (parseResource multiHookJob).Annotations
            (parseHookEvents (str "pre-install,post-upgrade")))) ∧
      ((ValidateAnnotations (parseResource multiHookJob).Annotations (str "r")).isSome = true →
        resolutionFails (parseResource multiHookJob).Annotations (str "r")
          (str "pre-install,post-upgrade") = true)) ∧
      ValidateAnnotations (parseResource multiHookJob).Annotations (str "r") = none ∧
      ValidateAnnotations
          ((parseResource multiHookJob).Annotations.set annotationHookWeight (str "1,2,3"))
          (str "r") = some (.inResource (str "r") (.countMismatch 2 3)) :=
  ⟨ValidateAnnotations_error_iff (parseResource multiHookJob).Annotations (str "r")
      (str "pre-install,post-upgrade") (by decide),
    by decide, by decide⟩

/-- C25, the claim as worded fails: with one valid event and the
helm.sh/hook-weight "abc", or two valid events and the weights "1,x",
ValidateAnnotations returns no error, while parseWeights on the same map and
events returns the invalid-weight error, and processDocument fails with it. -/
theorem ValidateAnnotations_accepts_word_weight :
    (parseResource wordWeightConfigMap).Annotations annotationHook = some (str "pre-install") ∧
      ValidateAnnotations (parseResource wordWeightConfigMap).Annotations (str "cfg") = none ∧
      resolutionFails (parseResource wordWeightConfigMap).Annotations (str "cfg")
        (str "pre-install") = true ∧
      parseWeights (parseResource wordWeightConfigMap).Annotations
          (parseHookEvents (str "pre-install")) = .error (.invalidWeight (str "abc")) ∧
      processDocument exactYaml wordWeightConfigMap =
        .error (.inResource (str "cfg") (.invalidWeight (str "abc"))) ∧
      ValidateAnnotations (parseResource wordWeightsConfigMap).Annotations (str "cfg") = none ∧
      resolutionFails (parseResource wordWeightsConfigMap).Annotations (str "cfg")
        (str "pre-install,post-install") = true ∧
      processDocument exactYaml wordWeightsConfigMap =
        .error (.inResource (str "cfg") (.invalidWeight (str "x"))) :=
  ⟨by decide, by decide, by decide, rfl, rfl, by decide, by decide, rfl⟩

/-! ## The single-event path without helm.sh/hook-weights -/

/-- An edit of a root entry other than kind and metadata leaves the whole
descriptor. -/
theorem parseResourceLoop_updateFirst_eq (key : GoString) (g : Node → Node)
    (hk1 : key ≠ str "kind") (hk2 : key ≠ str "metadata") (c : List Node) :
    ∀ res : Resource, parseResourceLoop (updateFirst key g c) res = parseResourceLoop c res := by
  induction c using pairs_induction with
  | h0 => intro res; rfl
  | h1 k => intro res; rfl
  | h2 k v rest ih =>
    intro res
    unfold updateFirst
    by_cases hk : k.value = key
    · rw [if_pos hk]
      have hkn : k.value ≠ str "metadata" := hk ▸ hk2
      have hkk : k.value ≠ str "kind" := hk ▸ hk1
      unfold parseResourceLoop
      rw [if_neg hkn, if_neg hkn, if_neg hkk, if_neg hkk]
    · rw [if_neg hk]
      unfold parseResourceLoop
      split
      · exact ih _
      · split <;> exact ih _

theorem parseResource_injectEnvVarsOnly (doc : Node) (hookEvent : GoString) (weight : Int)
    (hroot : (documentContent doc).kind = .MappingNode) :
    parseResource (injectEnvVarsOnly doc hookEvent weight) = parseResource doc := by
  have hk : (documentContent (injectEnvVarsOnly doc hookEvent weight)).kind = .MappingNode := by
    rw [documentContent_injectEnvVarsOnly _ _ _ hroot, injectEnvVars_kind]; exact hroot
  rw [parseResource_of_mapping _ hk, parseResource_of_mapping _ hroot,
    documentContent_injectEnvVarsOnly _ _ _ hroot]
  unfold injectEnvVars
  rw [if_neg (by simp [hroot]), Node.content_setContent]
  exact parseResourceLoop_updateFirst_eq _ _ (by decide) (by decide) _ _

theorem Split_length_one (s : GoString) (sep : Nat) (h : (Split s sep).length = 1) :
    Split s sep = [s] := by
  induction s with
  | nil => rfl
  | cons b rest ih =>
      unfold Split at h ⊢
      have hpos := Split_length_pos rest sep
      by_cases hb : b = sep
      · rw [if_pos hb] at h
        simp only [List.length_cons] at h
        omega
      · rw [if_neg hb] at h ⊢
        cases hs : Split rest sep with
        | nil => rw [hs] at hpos; simp at hpos
        | cons piece pieces =>
            rw [hs] at h ih
            simp only [List.length_cons] at h ih
            have hp : pieces = [] := List.length_eq_zero.mp (by omega)
            subst hp
            have := ih rfl
            simp only [List.cons.injEq, and_true] at this
            simp [this]

/-- With one event and no helm.sh/hook-weights, a helm.sh/hook-weight that is
not a single integer makes parseWeights fail. -/
theorem parseWeights_single_error (annotations : GoMap GoString) (h v : GoString)
    (hw : annotations annotationHookWeights = none)
    (hv : annotations annotationHookWeight = some v) (hbad : Atoi (TrimSpace v) = none) :
    ∃ e, parseWeights annotations [h] = .error e := by
  unfold parseWeights
  simp only [hw, hv]
  by_cases h1 : (Split v comma).length = 1
  · rw [if_pos h1, Split_length_one v comma h1]
    simp only [List.getD_cons_zero, hbad]
    exact ⟨_, rfl⟩
  · rw [if_neg h1, if_pos (by simpa using h1)]
    exact ⟨_, rfl⟩

theorem resolveHooks_single (res : Resource) (h : GoString)
    (hw : res.Annotations annotationHookWeights = none) (hres : resolveHooks res = .ok [h]) :
    ∃ hookValue, res.Annotations annotationHook = some hookValue ∧
      parseHookEvents hookValue = [h] := by
  unfold resolveHooks at hres
  rw [hw] at hres
  cases hh : res.Annotations annotationHook with
  | none =>
      rw [hh] at hres
      simp only [Option.getD_none] at hres
      have : (parseHookEvents []).length = 0 := by decide
      rw [if_pos this] at hres
      cases hres
  | some hookValue =>
      rw [hh] at hres
      simp only [Option.getD_some] at hres
      refine ⟨hookValue, rfl, ?_⟩
      split at hres
      · cases hres
      · exact Except.ok.inj hres

/-- C28. For a document that resolves to exactly one valid event and has no
helm.sh/hook-weights annotation, processDocument either fails or returns
exactly one document, which is the input itself or injectEnvVarsOnly of the
input (never enhanceResource of it), and whose descriptor, the annotations
and the name among it, and whose metadata node are the input's. -/
theorem processDocument_single_event_annotations (y : Yaml) (doc : Node) (h : GoString)
    (hw : (parseResource doc).Annotations annotationHookWeights = none)
    (hres : resolveHooks (parseResource doc) = .ok [h]) (hvalid : h ∈ validHooks) :
    (∃ e, processDocument y doc = .error e) ∨
      ∃ d, processDocument y doc = .ok [d] ∧
        (d = doc ∨ ∃ w, d = injectEnvVarsOnly doc h w) ∧
        (parseResource d).Annotations = (parseResource doc).Annotations ∧
        parseResource d = parseResource doc ∧
        lookupKey (str "metadata") (documentContent d).content =
          lookupKey (str "metadata") (documentContent doc).content := by
  obtain ⟨hookValue, hh, hev⟩ := resolveHooks_single _ h hw hres
  have hroot := parseResource_some_mapping doc _ _ hh
  by_cases hweight : ∀ v, (parseResource doc).Annotations annotationHookWeight = some v →
      ∃ w, Atoi (TrimSpace v) = some w
  · right
    refine ⟨_, processDocument_fast y doc hookValue h hw hh hev hvalid hweight, ?_⟩
    by_cases he : envEnabledOf (parseResource doc).Annotations = true
    · simp only [he, if_true]
      refine ⟨Or.inr ⟨_, rfl⟩, ?_, parseResource_injectEnvVarsOnly _ _ _ hroot, ?_⟩
      · rw [parseResource_injectEnvVarsOnly _ _ _ hroot]
      · rw [documentContent_injectEnvVarsOnly _ _ _ hroot]
        exact lookupKey_injectEnvVars_other _ _ _ _ (by decide)
    · simp only [he]
      exact ⟨Or.inl rfl, rfl, rfl, rfl⟩
  · left
    push_neg at hweight
    obtain ⟨v, hv, hbad⟩ := hweight
    have hnone : Atoi (TrimSpace v) = none := by
      cases ha : Atoi (TrimSpace v) with
      | none => rfl
      | some w => exact absurd ha (hbad w)
    have hsv : isSingleValidWeight v = false := by
      unfold isSingleValidWeight
      simp only [hnone]
      split <;> rfl
    obtain ⟨e, he⟩ := parseWeights_single_error _ h v hw hv hnone
    refine ⟨.inResource (parseResource doc).Name e, ?_⟩
    unfold processDocument
    simp only [hh, hw, hv, hres, validateHooks_single h _ hvalid, he, hsv]
    simp [hsv]

theorem processDocument_single_event_annotations_witness :
    ((∃ e, processDocument exactYaml singleHookJob = .error e) ∨
      ∃ d, processDocument exactYaml singleHookJob = .ok [d] ∧
        (d = singleHookJob ∨ ∃ w, d = injectEnvVarsOnly singleHookJob (str "pre-install") w) ∧
        (parseResource d).Annotations = (parseResource singleHookJob).Annotations ∧
        parseResource d = parseResource singleHookJob ∧
        lookupKey (str "metadata") (documentContent d).content =
          lookupKey (str "metadata") (documentContent singleHookJob).content) ∧
      processDocument exactYaml singleHookJob =
        .ok [injectEnvVarsOnly singleHookJob (str "pre-install") 5] ∧
      ((∃ e, processDocument exactYaml wordWeightConfigMap = .error e) ∨
        ∃ d, processDocument exactYaml wordWeightConfigMap = .ok [d] ∧
          (d = wordWeightConfigMap ∨
            ∃ w, d = injectEnvVarsOnly wordWeightConfigMap (str "pre-install") w) ∧
          (parseResource d).Annotations = (parseResource wordWeightConfigMap).Annotations ∧
          parseResource d = parseResource wordWeightConfigMap ∧
          lookupKey (str "metadata") (documentContent d).content =
            lookupKey (str "metadata") (documentContent wordWeightConfigMap).content) :=
  ⟨processDocument_single_event_annotations exactYaml singleHookJob (str "pre-install")
      (by decide) rfl (by decide),
    rfl,
    processDocument_single_event_annotations exactYaml wordWeightConfigMap (str "pre-install")
      (by decide) rfl (by decide)⟩

/-! ## The mutators never fail and skip what is missing -/

theorem Node.setContent_self (n : Node) : n.setContent n.content = n := by
  cases n; rfl

/-- An edit of the first entry with a key changes nothing when that entry is
absent or its value is left as it is. -/
theorem updateFirst_fixed (key : GoString) (f : Node → Node) (c : List Node)
    (h : ∀ v, lookupKey key c = some v → f v = v) : updateFirst key f c = c := by
  induction c using pairs_induction with
  | h0 => rfl
  | h1 k => rfl
  | h2 k v rest ih =>
    unfold updateFirst
    unfold lookupKey at h
    by_cases hk : k.value = key
    · rw [if_pos hk] at h ⊢
      rw [h v rfl]
    · rw [if_neg hk] at h ⊢
      rw [ih h]

theorem removeKeyLoop_absent (key : GoString) (c : List Node) (h : hasKey key c = false) :
    removeKeyLoop key c = c := by
  induction c using pairs_induction with
  | h0 => rfl
  | h1 k => rfl
  | h2 k v rest ih =>
    unfold hasKey at h
    unfold removeKeyLoop
    by_cases hk : k.value = key
    · simp [hk] at h
    · rw [if_neg hk]
      simp only [hk, decide_False, Bool.false_or] at h
      rw [ih h]

theorem updateFirst_absent (key : GoString) (f : Node → Node) (c : List Node)
    (h : hasKey key c = false) : updateFirst key f c = c := by
  apply updateFirst_fixed
  intro v hv
  rw [hasKey_eq_isSome, hv] at h
  cases h

theorem injectEnvInPodTemplateErr_none (t : Node) (hookEvent : GoString) (weight : Int) :
    injectEnvInPodTemplateErr t hookEvent weight = none := by
  unfold injectEnvInPodTemplateErr injectEnvInPodSpecErr
  split
  · rfl
  · split
    · split <;> rfl
    · rfl

theorem injectEnvInSpecErr_none (hookEvent : GoString) (weight : Int) (sp : Node) :
    injectEnvInSpecErr hookEvent weight sp = none := by
  apply injectEnvInSpecErr.induct hookEvent weight
    (fun n => injectEnvInSpecErr hookEvent weight n = none)
    (fun l => injectEnvInSpecLoopErr hookEvent weight l = none)
    (fun n => injectEnvInJobTemplateErr hookEvent weight n = none)
    (fun l => injectEnvInJobTemplateLoopErr hookEvent weight l = none)
  all_goals intros
  all_goals
    first
      | (rw [injectEnvInSpecErr]; simp_all)
      | (rw [injectEnvInJobTemplateErr]; simp_all)
      | (rw [injectEnvInSpecLoopErr]; simp_all [injectEnvInPodTemplateErr_none])
      | (rw [injectEnvInJobTemplateLoopErr]; simp_all)

theorem setAnnotationErr_none (node : Node) (key value : GoString) :
    setAnnotationErr node key value = none := by
  unfold setAnnotationErr setAnnotationInMetadataErr setAnnotationValueErr
  repeat (first | rfl | split)

theorem setMetadataNameErr_none (node : Node) (name : GoString) :
    setMetadataNameErr node name = none := by
  unfold setMetadataNameErr setNameInMetadataErr
  repeat (first | rfl | split)

theorem injectEnvVarsErr_none (node : Node) (hookEvent : GoString) (weight : Int) :
    injectEnvVarsErr node hookEvent weight = none := by
  unfold injectEnvVarsErr
  split
  · rfl
  · split
    · exact injectEnvInSpecErr_none _ _ _
    · rfl

/-- What annotationsMapping finds, spelled out. -/
theorem annotationsMapping_eq_some (root an : Node) :
    annotationsMapping root = some an ↔
      root.kind = .MappingNode ∧ an.kind = .MappingNode ∧
        ∃ md, lookupKey (str "metadata") root.content = some md ∧ md.kind = .MappingNode ∧
          lookupKey (str "annotations") md.content = some an := by
  unfold annotationsMapping child
  constructor
  · intro h
    rw [Option.filter_eq_some] at h
    obtain ⟨h1, h2⟩ := h
    obtain ⟨md, hmd, han⟩ := Option.bind_eq_some.mp (Option.mem_def.mp h1)
    by_cases hr : root.kind = .MappingNode
    · rw [if_pos hr] at hmd
      by_cases hm : md.kind = .MappingNode
      · rw [if_pos hm] at han
        exact ⟨hr, by simpa using h2, md, hmd, hm, han⟩
      · rw [if_neg hm] at han; cases han
    · rw [if_neg hr] at hmd; cases hmd
  · rintro ⟨hr, ha, md, hmd, hm, han⟩
    rw [if_pos hr, hmd]
    simp [hm, han, ha]

/-- With no annotations mapping to write to, or none that holds the key,
removeAnnotation returns the tree as it is. -/
theorem removeAnnotation_fixed (node : Node) (key : GoString)
    (h : ∀ an, annotationsMapping node = some an → hasKey key an.content = false) :
    removeAnnotation node key = node := by
  unfold removeAnnotation
  split
  · rfl
  · rename_i hr
    have hr : node.kind = .MappingNode := by simpa using hr
    rw [updateFirst_fixed, Node.setContent_self]
    intro md hmd
    unfold removeAnnotationFromMetadata
    split
    · rfl
    · rename_i hm
      have hm : md.kind = .MappingNode := by simpa using hm
      rw [updateFirst_fixed, Node.setContent_self]
      intro an han
      unfold removeAnnotationKey
      split
      · rfl
      · rename_i ha
        have ha : an.kind = .MappingNode := by simpa using ha
        rw [removeKeyLoop_absent, Node.setContent_self]
        exact h an ((annotationsMapping_eq_some node an).mpr ⟨hr, ha, md, hmd, hm, han⟩)

theorem setAnnotation_fixed (node : Node) (key value : GoString)
    (h : annotationsMapping node = none) : setAnnotation node key value = node := by
  unfold setAnnotation
  split
  · rfl
  · rename_i hr
    have hr : node.kind = .MappingNode := by simpa using hr
    rw [updateFirst_fixed, Node.setContent_self]
    intro md hmd
    unfold setAnnotationInMetadata
    split
    · rfl
    · rename_i hm
      have hm : md.kind = .MappingNode := by simpa using hm
      rw [updateFirst_fixed, Node.setContent_self]
      intro an han
      unfold setAnnotationValue
      split
      · rfl
      · rename_i ha
        have ha : an.kind = .MappingNode := by simpa using ha
        have := (annotationsMapping_eq_some node an).mpr ⟨hr, ha, md, hmd, hm, han⟩
        rw [h] at this
        cases this

theorem setMetadataName_fixed (node : Node) (name : GoString)
    (h : ∀ md, child (str "metadata") node = some md → md.kind = .MappingNode →
      hasKey (str "name") md.content = false) :
    setMetadataName node name = node := by
  unfold setMetadataName
  split
  · rfl
  · rename_i hr
    have hr : node.kind = .MappingNode := by simpa using hr
    rw [updateFirst_fixed, Node.setContent_self]
    intro md hmd
    unfold setNameInMetadata
    split
    · rfl
    · rename_i hm
      have hm : md.kind = .MappingNode := by simpa using hm
      rw [updateFirst_absent, Node.setContent_self]
      exact h md (by unfold child; rw [if_pos hr]; exact hmd) hm

theorem injectEnvInSpec_not_mapping (hookEvent : GoString) (weight : Int) (sp : Node)
    (h : sp.kind ≠ .MappingNode) : injectEnvInSpec hookEvent weight sp = sp := by
  obtain ⟨kind, style, tag, value, info, content⟩ := sp
  have h2 : kind ≠ .MappingNode := h
  rw [injectEnvInSpec, if_pos h2]

theorem injectEnvVars_fixed (node : Node) (hookEvent : GoString) (weight : Int)
    (h : ∀ sp, child (str "spec") node = some sp → sp.kind ≠ .MappingNode) :
    injectEnvVars node hookEvent weight = node := by
  unfold injectEnvVars
  split
  · rfl
  · rename_i hr
    have hr : node.kind = .MappingNode := by simpa using hr
    rw [updateFirst_fixed, Node.setContent_self]
    intro sp hsp
    exact injectEnvInSpec_not_mapping _ _ _ (h sp (by unfold child; rw [if_pos hr]; exact hsp))

/-- C23. The tree mutators never fail and skip what is missing: the error
results of setAnnotation, setMetadataName and injectEnvVars are nil for every
tree (removeAnnotation has none); setAnnotation and removeAnnotation return
the tree as it is when there is no metadata.annotations mapping, and
removeAnnotation also when that mapping has no entry with the key;
setMetadataName returns it as it is when metadata has no name entry; and
injectEnvVars returns it as it is when the root has no spec mapping. -/
theorem mutators_never_fail (node : Node) (key value name hookEvent : GoString)
    (weight : Int) :
    (setAnnotationErr node key value = none ∧ setMetadataNameErr node name = none ∧
        injectEnvVarsErr node hookEvent weight = none) ∧
      (annotationsMapping node = none →
        setAnnotation node key value = node ∧ removeAnnotation node key = node) ∧
      ((∀ an, annotationsMapping node = some an → hasKey key an.content = false) →
        removeAnnotation node key = node) ∧
      ((∀ md, child (str "metadata") node = some md → md.kind = .MappingNode →
          hasKey (str "name") md.content = false) →
        setMetadataName node name = node) ∧
      ((∀ sp, child (str "spec") node = some sp → sp.kind ≠ .MappingNode) →
        injectEnvVars node hookEvent weight = node) := by
  refine ⟨⟨setAnnotationErr_none _ _ _, setMetadataNameErr_none _ _,
    injectEnvVarsErr_none _ _ _⟩, ?_, removeAnnotation_fixed node key,
    setMetadataName_fixed node name, injectEnvVars_fixed node hookEvent weight⟩
  intro h
  refine ⟨setAnnotation_fixed node key value h, removeAnnotation_fixed node key ?_⟩
  intro an han
  rw [h] at han
  cases han

theorem mutators_never_fail_witness :
    (annotationsMapping bareConfigMap = none ∧
        setAnnotation bareConfigMap annotationHook (str "test") = bareConfigMap ∧
        removeAnnotation bareConfigMap annotationHookWeights = bareConfigMap ∧
        setMetadataName bareConfigMap (str "web") = bareConfigMap ∧
        injectEnvVars bareConfigMap (str "test") 0 = bareConfigMap) ∧
      ((annotationsMapping annotatedConfigMap).isSome = true ∧
        removeAnnotation annotatedConfigMap annotationHookWeights = annotatedConfigMap ∧
        setMetadataName annotatedConfigMap (str "web") = annotatedConfigMap ∧
        injectEnvVars annotatedConfigMap (str "test") 0 = annotatedConfigMap) :=
  have h1 := mutators_never_fail bareConfigMap annotationHook (str "test") (str "web")
    (str "test") 0
  have h2 := mutators_never_fail bareConfigMap annotationHookWeights (str "test") (str "web")
    (str "test") 0
  have h3 := mutators_never_fail annotatedConfigMap annotationHookWeights (str "test")
    (str "web") (str "test") 0
  have e1 : annotationsMapping bareConfigMap = none := rfl
  have m1 : child (str "metadata") bareConfigMap =
      some (mappingOf [plain "labels", mappingOf [plain "app", plain "web"]]) := rfl
  have s1 : child (str "spec") bareConfigMap = none := rfl
  have e3 : annotationsMapping annotatedConfigMap =
      some (mappingOf [plain "helm.sh/hook", plain "pre-install"]) := rfl
  have m3 : child (str "metadata") annotatedConfigMap = some (mappingOf
      [plain "annotations", mappingOf [plain "helm.sh/hook", plain "pre-install"]]) := rfl
  have s3 : child (str "spec") annotatedConfigMap = some (plain "none") := rfl
  ⟨⟨e1, (h1.2.1 e1).1, (h2.2.1 e1).2,
      h1.2.2.2.1 (fun md hmd _ => by rw [m1] at hmd; cases hmd; decide),
      h1.2.2.2.2 (fun sp hsp => by rw [s1] at hsp; cases hsp)⟩,
    ⟨by rw [e3]; rfl,
      h3.2.2.1 (fun an han => by rw [e3] at han; cases han; decide),
      h3.2.2.2.1 (fun md hmd _ => by rw [m3] at hmd; cases hmd; decide),
      h3.2.2.2.2 (fun sp hsp => by rw [s3] at hsp; cases hsp; decide)⟩⟩

/-! ## parseHookEvents on a written list -/

theorem Spaces_append (a b : GoString) (ha : Spaces a) (hb : Spaces b) : Spaces (a ++ b) := by
  induction ha with
  | nil => exact hb
  | one x rest hx _ ih => exact Spaces.one x _ hx ih
  | two x y rest hx _ ih => exact Spaces.two x y _ hx ih
  | three x y z rest hx _ ih => exact Spaces.three x y z _ hx ih

/-- The first byte of a string of white-space runes is never a UTF-8
continuation byte. -/
theorem Spaces_head (c : Nat) (rest : GoString) (h : Spaces (c :: rest)) : c < 128 ∨ 192 ≤ c := by
  cases h with
  | one _ _ hx _ =>
      simp only [isSpace1, decide_eq_true_eq] at hx
      omega
  | two _ y _ hx _ =>
      simp only [isSpace2, decide_eq_true_eq] at hx
      omega
  | three _ y z _ hx _ =>
      simp only [isSpace3, decide_eq_true_eq] at hx
      omega

theorem isSpace2_snd (b c : Nat) (h : c < 128 ∨ 192 ≤ c) : isSpace2 b c = false := by
  simp only [isSpace2, decide_eq_false_iff_not]
  omega

theorem isSpace3_snd (b c d : Nat) (h : c < 128 ∨ 192 ≤ c) : isSpace3 b c d = false := by
  simp only [isSpace3, decide_eq_false_iff_not]
  omega

theorem isSpace3_trd (b c d : Nat) (h : d < 128 ∨ 192 ≤ d) : isSpace3 b c d = false := by
  simp only [isSpace3, decide_eq_false_iff_not]
  omega

/-- White space after a string does not make its first rune white space. -/
theorem spaceWidth_append_spaces (core ws : GoString) (hne : core ≠ [])
    (h0 : spaceWidth core = 0) (hws : Spaces ws) : spaceWidth (core ++ ws) = 0 := by
  cases core with
  | nil => exact absurd rfl hne
  | cons b r =>
      unfold spaceWidth at h0
      rw [List.cons_append]
      unfold spaceWidth
      dsimp only at h0 ⊢
      by_cases h1 : isSpace1 b = true
      · rw [if_pos h1] at h0; cases h0
      · rw [if_neg h1] at h0 ⊢
        cases r with
        | nil =>
            cases ws with
            | nil => rfl
            | cons c ws2 =>
                have hc := Spaces_head c ws2 hws
                simp only [List.nil_append, isSpace2_snd b c hc]
                cases ws2 with
                | nil => rfl
                | cons d ws3 => simp [isSpace3_snd b c d hc]
        | cons c r2 =>
            simp only [List.cons_append] at h0 ⊢
            by_cases h2 : isSpace2 b c = true
            · rw [if_pos h2] at h0; cases h0
            · rw [if_neg h2] at h0 ⊢
              cases r2 with
              | nil =>
                  cases ws with
                  | nil => rfl
                  | cons d ws2 =>
                      simp [isSpace3_trd b c d (Spaces_head d ws2 hws)]
              | cons d r3 => simpa using h0

theorem trimLeftSpace_of_width (s : GoString) (h : spaceWidth s = 0) : trimLeftSpace s = s := by
  cases s with
  | nil => rfl
  | cons b rest =>
      unfold trimLeftSpace
      rw [h]
      split <;> simp_all

theorem trimLeftSpaceRev_of_width (s : GoString) (h : spaceWidthRev s = 0) :
    trimLeftSpaceRev s = s := by
  cases s with
  | nil => rfl
  | cons b rest =>
      unfold trimLeftSpaceRev
      rw [h]
      split <;> simp_all

/-- Go strings.TrimSpace takes the white space off both ends of a padded
string whose core neither starts nor ends with a white-space rune. -/
theorem TrimSpace_around (ws1 core ws2 : GoString) (h1 : Spaces ws1) (h2 : Spaces ws2)
    (hne : core ≠ []) (hl : spaceWidth core = 0) (hr : spaceWidthRev core.reverse = 0) :
    TrimSpace (ws1 ++ core ++ ws2) = core := by
  unfold TrimSpace
  rw [List.append_assoc, trimLeftSpace_spaces ws1 h1,
    trimLeftSpace_of_width _ (spaceWidth_append_spaces core ws2 hne hl h2),
    List.reverse_append, trimLeftSpaceRev_spaces ws2 h2, trimLeftSpaceRev_of_width _ hr,
    List.reverse_reverse]

theorem TrimSpace_spaces (ws : GoString) (h : Spaces ws) : TrimSpace ws = [] := by
  unfold TrimSpace
  have := trimLeftSpace_spaces ws h []
  rw [List.append_nil] at this
  rw [this]
  rfl

theorem HookSegment.text_trim (s : HookSegment) (h : s.WellFormed) :
    TrimSpace s.text = s.element.getD [] := by
  obtain ⟨h1, h2, he⟩ := h
  unfold HookSegment.text
  cases hs : s.element with
  | none =>
      simp only [Option.getD_none, List.append_nil]
      exact TrimSpace_spaces _ (Spaces_append _ _ h1 h2)
  | some e =>
      obtain ⟨hne, _, hl, hr⟩ := he e hs
      exact TrimSpace_around _ e _ h1 h2 hne hl hr

theorem HookSegment.text_comma (s : HookSegment) (h : s.WellFormed) : comma ∉ s.text := by
  obtain ⟨h1, h2, he⟩ := h
  unfold HookSegment.text
  intro hc
  rw [List.mem_append, List.mem_append] at hc
  rcases hc with (hc | hc) | hc
  · exact (Spaces_bytes _ h1 _ hc).1 rfl
  · cases hs : s.element with
    | none => rw [hs] at hc; simp at hc
    | some e => rw [hs] at hc; exact (he e hs).2.1 hc
  · exact (Spaces_bytes _ h2 _ hc).1 rfl

theorem parseHookEvents_fold (segments : List HookSegment)
    (h : ∀ s ∈ segments, s.WellFormed) :
    ∀ acc : List GoString,
      (segments.map HookSegment.text).foldl
          (fun hooks h =>
            let h := TrimSpace h
            if h ≠ [] then hooks ++ [h] else hooks)
          acc = acc ++ elementsOf segments := by
  induction segments with
  | nil => intro acc; simp [elementsOf]
  | cons s rest ih =>
      intro acc
      have hs := h s (List.mem_cons_self _ _)
      rw [List.map_cons, List.foldl_cons, ih (fun t ht => h t (List.mem_cons_of_mem _ ht))]
      dsimp only
      rw [HookSegment.text_trim s hs]
      unfold elementsOf
      cases he : s.element with
      | none => simp [he]
      | some e =>
          have hne := (hs.2.2 e he).1
          simp [he, hne]

/-- C27. parseHookEvents inverts comma-joining: for segments joined by ",",
each an element with arbitrary white space around it or white space only,
where every element is non-empty, holds no comma and neither starts nor ends
with a white-space rune, parseHookEvents returns exactly the elements, in
order; and a value made only of commas and white space yields the empty
list. -/
theorem parseHookEvents_joined (segments : List HookSegment)
    (h : ∀ s ∈ segments, s.WellFormed) :
    parseHookEvents (joinComma (segments.map HookSegment.text)) = elementsOf segments ∧
      ((∀ s ∈ segments, s.element = none) →
        parseHookEvents (joinComma (segments.map HookSegment.text)) = []) := by
  have key : parseHookEvents (joinComma (segments.map HookSegment.text)) =
      elementsOf segments := by
    cases segments with
    | nil => decide
    | cons s rest =>
        unfold parseHookEvents
        rw [Split_joinComma _ (by simp)]
        · have := parseHookEvents_fold (s :: rest) h []
          simpa using this
        · intro t ht
          obtain ⟨x, hx, rfl⟩ := List.mem_map.mp ht
          exact HookSegment.text_comma x (h x hx)
  refine ⟨key, fun hnone => ?_⟩
  rw [key]
  unfold elementsOf
  rw [List.filterMap_eq_nil_iff]
  exact hnone

theorem parseHookEvents_joined_witness :
    parseHookEvents (str " pre-install\t,  ,post-install ,") =
        [str "pre-install", str "post-install"] ∧
      parseHookEvents (str " ,\t,,") = [] :=
  have sp : Spaces [32] := Spaces.one 32 [] (by decide) Spaces.nil
  have tb : Spaces [9] := Spaces.one 9 [] (by decide) Spaces.nil
  have sp2 : Spaces [32, 32] := Spaces.one 32 [32] (by decide) sp
  have h1 := parseHookEvents_joined
    [⟨[32], some (str "pre-install"), [9]⟩, ⟨[32, 32], none, []⟩,
     ⟨[], some (str "post-install"), [32]⟩, ⟨[], none, []⟩]
    (by
      intro s hs
      simp only [List.mem_cons, List.mem_singleton, List.not_mem_nil, or_false] at hs
      rcases hs with rfl | rfl | rfl | rfl
      · exact ⟨sp, tb, fun e he => by cases he; decide⟩
      · exact ⟨sp2, Spaces.nil, fun e he => by cases he⟩
      · exact ⟨Spaces.nil, sp, fun e he => by cases he; decide⟩
      · exact ⟨Spaces.nil, Spaces.nil, fun e he => by cases he⟩)
  have h2 := parseHookEvents_joined
    [⟨[32], none, []⟩, ⟨[9], none, []⟩, ⟨[], none, []⟩, ⟨[], none, []⟩]
    (by
      intro s hs
      simp only [List.mem_cons, List.mem_singleton, List.not_mem_nil, or_false] at hs
      rcases hs with rfl | rfl | rfl | rfl
      · exact ⟨sp, Spaces.nil, fun e he => by cases he⟩
      · exact ⟨tb, Spaces.nil, fun e he => by cases he⟩
      · exact ⟨Spaces.nil, Spaces.nil, fun e he => by cases he⟩
      · exact ⟨Spaces.nil, Spaces.nil, fun e he => by cases he⟩)
  ⟨h1.1, h2.2 (by
      intro s hs
      simp only [List.mem_cons, List.mem_singleton, List.not_mem_nil, or_false] at hs
      rcases hs with rfl | rfl | rfl | rfl <;> rfl)⟩

/-! ## addOrUpdateEnvVar as an upsert -/

/-- The outer loop of addOrUpdateEnvVar: the first entry taken for the
variable is written, the entries before and after it are kept. -/
theorem addOrUpdateLoop_first (name value : GoString) (pre : List Node) (a : Node)
    (post : List Node) (hpre : ∀ x ∈ pre, ¬ itemNamed name x) (ha : itemNamed name a) :
    addOrUpdateLoop name value (pre ++ a :: post) = pre ++ withEnvValue value a :: post := by
  induction pre with
  | nil => exact addOrUpdateLoop_pos name value a post ha
  | cons x pre ih =>
      rw [List.cons_append, addOrUpdateLoop_neg name value x _ (hpre x (List.mem_cons_self _ _)),
        ih (fun y hy => hpre y (List.mem_cons_of_mem _ hy)), List.cons_append]

theorem addOrUpdateLoop_absent (name value : GoString) (c : List Node)
    (h : ∀ x ∈ c, ¬ itemNamed name x) :
    addOrUpdateLoop name value c = c ++ [newEnvItem name value] := by
  induction c with
  | nil => rfl
  | cons x c ih =>
      rw [addOrUpdateLoop_neg name value x _ (h x (List.mem_cons_self _ _)),
        ih (fun y hy => h y (List.mem_cons_of_mem _ hy)), List.cons_append]

/-- The entry addOrUpdateEnvVar has written: its value node holds the value
with the tag !!str and the double-quoted style, and keeps the kind of the
node that was there (a new node is a scalar); the other entries of the item
are kept. -/
theorem withEnvValue_spec (value : GoString) (a : Node) (ha : a.content.length % 2 = 0) :
    (withEnvValue value a).kind = a.kind ∧
      (∃ node, lookupKey (str "value") (withEnvValue value a).content = some node ∧
        node.value = value ∧ node.tag = str "!!str" ∧ node.style = DoubleQuotedStyle ∧
        node.kind = ((lookupKey (str "value") a.content).map Node.kind).getD .ScalarNode) ∧
      (∀ k, k ≠ str "value" →
        lookupKey k (withEnvValue value a).content = lookupKey k a.content) ∧
      keysOf (withEnvValue value a).content =
        (if str "value" ∈ keysOf a.content then keysOf a.content
         else keysOf a.content ++ [str "value"]) := by
  unfold withEnvValue
  rw [Node.content_setContent, Node.kind_setContent, setEnvValueLoop_eq]
  obtain ⟨_, hkeys, hlook⟩ := setAnnotationLoop_spec (str "value") value a.content ha
  refine ⟨rfl, ⟨_, by rw [hlook, if_pos rfl], ?_, ?_, ?_, ?_⟩, ?_, hkeys⟩
  · exact (written_value _ value).1
  · exact (written_value _ value).2.1
  · exact (written_value _ value).2.2
  · cases lookupKey (str "value") a.content with
    | none => rfl
    | some old => exact Node.kind_setQuoted old value
  · intro k hk
    rw [hlook, if_neg hk]

/-- For every env sequence, addOrUpdateEnvVar keeps the list up to the first
entry taken for the variable, which it writes in place; with no such entry
it appends one new entry. -/
theorem addOrUpdateEnvVar_upsert (env : Node) (name value : GoString)
    (hk : env.kind = .SequenceNode) :
    (addOrUpdateEnvVar env name value).kind = .SequenceNode ∧
      (∀ pre a post, env.content = pre ++ a :: post → (∀ x ∈ pre, ¬ itemNamed name x) →
        itemNamed name a →
        (addOrUpdateEnvVar env name value).content = pre ++ withEnvValue value a :: post) ∧
      ((∀ x ∈ env.content, ¬ itemNamed name x) →
        (addOrUpdateEnvVar env name value).content = env.content ++ [newEnvItem name value]) := by
  unfold addOrUpdateEnvVar
  rw [if_neg (by simp [hk]), Node.kind_setContent, Node.content_setContent]
  refine ⟨hk, ?_, addOrUpdateLoop_absent name value _⟩
  intro pre a post hc hpre ha
  rw [hc]
  exact addOrUpdateLoop_first name value pre a post hpre ha

/-- C21, the code at the failing input: the first entry of the env list
names HELM_HOOK_EVENT and holds a list as its value; addOrUpdateEnvVar writes
the value, the tag !!str and the double-quoted style into that node and
leaves its kind, so the written value node is a sequence, not a scalar; the
second entry is kept. processDocument does the same to the container of
listValueEnvJob. -/
theorem addOrUpdateEnvVar_list_value :
    envValueHeaders (addOrUpdateEnvVar listValueEnv (str "HELM_HOOK_EVENT") (str "pre-install")) =
        [some (.SequenceNode, str "pre-install", str "!!str", DoubleQuotedStyle),
         some (.ScalarNode, str "x", [], 0)] ∧
      (processDocument exactYaml listValueEnvJob).map
          (fun docs => docs.map (fun d =>
            (jobContainers (documentContent d)).map
              (fun c => (lookupKey (str "env") c.content).map envValueHeaders)))
        = .ok [[some
            [some (.SequenceNode, str "pre-install", str "!!str", DoubleQuotedStyle),
             some (.ScalarNode, str "x", [], 0),
             some (.ScalarNode, str "0", str "!!str", DoubleQuotedStyle)]]] :=
  ⟨rfl, rfl⟩

/-! ## setAnnotation read back -/

theorem documentContent_of_mapping (root : Node) (h : root.kind = .MappingNode) :
    documentContent root = root := by
  obtain ⟨kind, style, tag, value, info, content⟩ := root
  have h2 : kind = .MappingNode := h
  subst h2
  rfl

/-- The loop of setAnnotationValue: the first entry with the key is written
in place, the entries before and after it are kept. -/
theorem setAnnotationLoop_first (key value : GoString) (pre : List Node) (k old : Node)
    (post : List Node) (hpre : pre.length % 2 = 0) (hno : key ∉ keysOf pre)
    (hk : k.value = key) :
    setAnnotationLoop key value (pre ++ k :: old :: post) =
      pre ++ k :: old.setQuoted value :: post := by
  induction pre using pairs_induction with
  | h0 => simp [setAnnotationLoop, hk]
  | h1 x => simp at hpre
  | h2 x y pre ih =>
    have hp : pre.length % 2 = 0 := by simp only [List.length_cons] at hpre; omega
    have hx : x.value ≠ key := by
      intro e
      apply hno
      simp [keysOf, e]
    have hno2 : key ∉ keysOf pre := by
      intro e
      apply hno
      simp [keysOf, e]
    show setAnnotationLoop key value (x :: y :: (pre ++ k :: old :: post)) =
      x :: y :: (pre ++ k :: old.setQuoted value :: post)
    rw [setAnnotationLoop, if_neg hx, ih hp hno2]

theorem setAnnotationLoop_absent (key value : GoString) (c : List Node)
    (hc : c.length % 2 = 0) (hno : key ∉ keysOf c) :
    setAnnotationLoop key value c = c ++ [scalarNode key, quotedNode value] := by
  induction c using pairs_induction with
  | h0 => rfl
  | h1 x => simp at hc
  | h2 x y c ih =>
    have hp : c.length % 2 = 0 := by simp only [List.length_cons] at hc; omega
    have hx : x.value ≠ key := by
      intro e
      apply hno
      simp [keysOf, e]
    have hno2 : key ∉ keysOf c := by
      intro e
      apply hno
      simp [keysOf, e]
    show setAnnotationLoop key value (x :: y :: c) =
      x :: y :: (c ++ [scalarNode key, quotedNode value])
    rw [setAnnotationLoop, if_neg hx, ih hp hno2]

/-- For a root mapping with one metadata mapping that holds one annotations
mapping with unique keys: after setAnnotation the descriptor reads the value
under the key and every other annotation as before; the written node holds
the value with the tag !!str and the double-quoted style and keeps the kind
of the node that was there (a new node is a scalar); the pair of the key is
written in place when the key was there, and appended at the end when it was
not. -/
theorem setAnnotation_read_back (root an : Node) (key value : GoString)
    (hat : AnnotationsAt root an) (heven : an.content.length % 2 = 0)
    (hnd : (keysOf an.content).Nodup) :
    AnnotationsAt ( setAnnotation root key value) (setAnnotationValue an key value) ∧
      (setAnnotationValue an key value).content = setAnnotationLoop key value an.content ∧
      (parseResource ( setAnnotation root key value)).Annotations key = some value ∧
      (∀ k, k ≠ key →
        (parseResource ( setAnnotation root key value)).Annotations k =
          (parseResource root).Annotations k) ∧
      (∃ node, lookupKey key (setAnnotationLoop key value an.content) = some node ∧
        node.value = value ∧ node.tag = str "!!str" ∧ node.style = DoubleQuotedStyle ∧
        node.kind = ((lookupKey key an.content).map Node.kind).getD .ScalarNode) ∧
      (∀ pre k old post, an.content = pre ++ k :: old :: post → pre.length % 2 = 0 →
        key ∉ keysOf pre → k.value = key →
        setAnnotationLoop key value an.content = pre ++ k :: old.setQuoted value :: post) ∧
      (key ∉ keysOf an.content →
        setAnnotationLoop key value an.content =
          an.content ++ [scalarNode key, quotedNode value]) := by
  have hstep := AnnotationsAt_setAnnotation_step root an key value hat
  have hkind : an.kind = .MappingNode := by
    obtain ⟨_, md, _, _, _, _, _, h⟩ := hat
    exact h
  have hcontent : (setAnnotationValue an key value).content =
      setAnnotationLoop key value an.content := by
    unfold setAnnotationValue
    rw [if_neg (by simp [hkind]), Node.content_setContent]
  obtain ⟨_, hkeys, hlook⟩ := setAnnotationLoop_spec key value an.content heven
  have hnd2 : (keysOf (setAnnotationLoop key value an.content)).Nodup := by
    rw [hkeys]; exact nodup_after_set key _ hnd
  have hroot2 : ( setAnnotation root key value).kind = .MappingNode := hstep.1
  have hread : (parseResource ( setAnnotation root key value)).Annotations =
      parseAnnotationsLoop (setAnnotationLoop key value an.content) GoMap.empty := by
    rw [parseResource_Annotations_of_at _ (setAnnotationValue an key value)
      (by rw [documentContent_of_mapping _ hroot2]; exact hstep), hcontent]
  have hread0 : (parseResource root).Annotations =
      parseAnnotationsLoop an.content GoMap.empty :=
    parseResource_Annotations_of_at root an (by rw [documentContent_of_mapping _ hat.1]; exact hat)
  refine ⟨hstep, hcontent, ?_, ?_, ⟨_, by rw [hlook, if_pos rfl], ?_, ?_, ?_, ?_⟩, ?_, ?_⟩
  · rw [hread, parseAnnotationsLoop_get _ _ _ hnd2, hlook, if_pos rfl]
    simp only []
    rw [(written_value _ value).1]
  · intro k hk
    rw [hread, hread0, parseAnnotationsLoop_get _ _ _ hnd2, parseAnnotationsLoop_get _ _ _ hnd,
      hlook, if_neg hk]
  · exact (written_value _ value).1
  · exact (written_value _ value).2.1
  · exact (written_value _ value).2.2
  · cases lookupKey key an.content with
    | none => rfl
    | some old => exact Node.kind_setQuoted old value
  · intro pre k old post hc hpre hno hk
    rw [hc]
    exact setAnnotationLoop_first key value pre k old post hpre hno hk
  · exact setAnnotationLoop_absent key value an.content heven

/-- C22, the code at the failing input: the helm.sh/hook-weight annotation
of listWeightConfigMap holds a list; setAnnotation writes the value, the tag
!!str and the double-quoted style into that node and leaves its kind, so the
descriptor reads the value back but the written value node is a sequence,
not a scalar. processDocument does the same through enhanceResource. -/
theorem setAnnotation_list_value :
    annotationHeader ( setAnnotation listWeightConfigMap annotationHookWeight (str "5"))
        annotationHookWeight =
        some (.SequenceNode, str "5", str "!!str", DoubleQuotedStyle) ∧
      (parseResource ( setAnnotation listWeightConfigMap annotationHookWeight (str "5"))).Annotations
        annotationHookWeight = some (str "5") ∧
      (processDocument exactYaml (documentOf listWeightConfigMap)).map
          (fun docs => docs.map (fun d =>
            (annotationHeader (documentContent d) annotationHookWeight,
              annotationHeader (documentContent d) annotationHook)))
        = .ok [(some (.SequenceNode, str "5", str "!!str", DoubleQuotedStyle),
            some (.ScalarNode, str "pre-install", str "!!str", DoubleQuotedStyle))] :=
  ⟨rfl, rfl, rfl⟩

/-! ## The documents of every path, from the tree they are made from -/

/-- The edit of onContent reaches the root also when the root is not a
mapping, for an edit that keeps the kind and leaves other kinds alone. -/
theorem documentContent_onContent_fixed (c : Node) (f : Node → Node)
    (hkind : ∀ n, (f n).kind = n.kind) (hfix : ∀ n, n.kind ≠ .MappingNode → f n = n) :
    documentContent (onContent c f) = f (documentContent c) := by
  by_cases hroot : (documentContent c).kind = .MappingNode
  · exact documentContent_onContent c f hroot hkind
  · obtain ⟨kind, style, tag, value, info, content⟩ := c
    cases kind <;> cases content <;>
      simp_all [documentContent, onContent, Node.kind, Node.content, Node.setContent]

theorem child_injectEnvVars_other (r : Node) (hookEvent : GoString) (weight : Int)
    (key : GoString) (h : key ≠ str "spec") :
    child key (injectEnvVars r hookEvent weight) = child key r := by
  unfold child
  rw [injectEnvVars_kind, lookupKey_injectEnvVars_other _ _ _ _ h]

theorem child_metadata_setMetadataName (r : Node) (name : GoString) :
    child (str "metadata") (setMetadataName r name) =
      (child (str "metadata") r).map (fun m => setNameInMetadata m name) := by
  apply child_map_of_kind (str "metadata") r (fun n => setMetadataName n name) _
    (updateFirst (str "metadata") (fun m => setNameInMetadata m name) r.content)
  · intro _
    exact lookupKey_updateFirst_same _ _ _
  · intro h
    show setMetadataName r name = r
    unfold setMetadataName
    rw [if_pos h]
  · intro h
    show setMetadataName r name = _
    unfold setMetadataName
    rw [if_neg (by simp [h])]

theorem setAnnotation_child_metadata (r : Node) (k v : GoString) :
    child (str "metadata") ( setAnnotation r k v) =
      (child (str "metadata") r).map (fun m => setAnnotationInMetadata m k v) := by
  apply child_map_of_kind (str "metadata") r (fun n => setAnnotation n k v) _
    (updateFirst (str "metadata") (fun m => setAnnotationInMetadata m k v) r.content)
  · intro _
    exact lookupKey_updateFirst_same _ _ _
  · intro h
    show setAnnotation r k v = r
    unfold setAnnotation
    rw [if_pos h]
  · intro h
    show setAnnotation r k v = _
    unfold setAnnotation
    rw [if_neg (by simp [h])]

theorem removeAnnotation_child_metadata (r : Node) (k : GoString) :
    child (str "metadata") ( removeAnnotation r k) =
      (child (str "metadata") r).map (fun m => removeAnnotationFromMetadata m k) := by
  apply child_map_of_kind (str "metadata") r (fun n => removeAnnotation n k) _
    (updateFirst (str "metadata") (fun m => removeAnnotationFromMetadata m k) r.content)
  · intro _
    exact lookupKey_updateFirst_same _ _ _
  · intro h
    show removeAnnotation r k = r
    unfold removeAnnotation
    rw [if_pos h]
  · intro h
    show removeAnnotation r k = _
    unfold removeAnnotation
    rw [if_neg (by simp [h])]

theorem child_name_setNameInMetadata (md : Node) (name : GoString) :
    child (str "name") (setNameInMetadata md name) =
      (child (str "name") md).map (fun v => v.setValue name) := by
  apply child_map_of_kind (str "name") md (fun n => setNameInMetadata n name) _
    (updateFirst (str "name") (fun v => v.setValue name) md.content)
  · intro _
    exact lookupKey_updateFirst_same _ _ _
  · intro h
    show setNameInMetadata md name = md
    unfold setNameInMetadata
    rw [if_pos h]
  · intro h
    show setNameInMetadata md name = _
    unfold setNameInMetadata
    rw [if_neg (by simp [h])]

theorem child_name_setAnnotationInMetadata (md : Node) (k v : GoString) :
    child (str "name") (setAnnotationInMetadata md k v) = child (str "name") md := by
  unfold child setAnnotationInMetadata
  by_cases h : md.kind = .MappingNode
  · simp only [h, ne_eq, not_true_eq_false, if_false, if_true, Node.kind_setContent,
      Node.content_setContent]
    exact lookupKey_updateFirst_other _ _ _ _ (by decide)
  · simp [h]

theorem child_name_removeAnnotationFromMetadata (md : Node) (k : GoString) :
    child (str "name") (removeAnnotationFromMetadata md k) = child (str "name") md := by
  unfold child removeAnnotationFromMetadata
  by_cases h : md.kind = .MappingNode
  · simp only [h, ne_eq, not_true_eq_false, if_false, if_true, Node.kind_setContent,
      Node.content_setContent]
    exact lookupKey_updateFirst_other _ _ _ _ (by decide)
  · simp [h]

/-- The root of a split replica is the root of the clone after the five
edits of updateSplitResource, whatever the kind of the root. -/
theorem documentContent_updateSplitResource (c : Node) (hookEvent newName : GoString)
    (weight : Int) (envEnabled : Bool) :
    documentContent (updateSplitResource c hookEvent weight newName envEnabled) =
      (fun content =>
        let content := setMetadataName content newName
        let content := setAnnotation content annotationHook hookEvent
        let content := setAnnotation content annotationHookWeight (itoa weight)
        let content := removeAnnotation content annotationHookWeights
        if envEnabled then injectEnvVars content hookEvent weight else content)
        (documentContent c) := by
  unfold updateSplitResource
  apply documentContent_onContent_fixed
  · intro n
    cases envEnabled <;>
      simp [injectEnvVars_kind, setAnnotation_kind, removeAnnotation_kind, setMetadataName_kind]
  · intro n hn
    cases envEnabled <;>
      simp [injectEnvVars, setAnnotation, removeAnnotation, setMetadataName, hn]

/-- The name entry of a split replica is the name entry of the clone with
the new name written into it. -/
theorem nameNode_updateSplitResource (c : Node) (hookEvent newName : GoString) (weight : Int)
    (envEnabled : Bool) :
    nameNode (updateSplitResource c hookEvent weight newName envEnabled) =
      (nameNode c).map (fun n => n.setValue newName) := by
  unfold nameNode
  rw [documentContent_updateSplitResource]
  have h : child (str "metadata")
      ((fun content =>
        let content := setMetadataName content newName
        let content := setAnnotation content annotationHook hookEvent
        let content := setAnnotation content annotationHookWeight (itoa weight)
        let content := removeAnnotation content annotationHookWeights
        if envEnabled then injectEnvVars content hookEvent weight else content)
        (documentContent c)) =
      (child (str "metadata") (documentContent c)).map (fun m =>
        removeAnnotationFromMetadata
          (setAnnotationInMetadata
            (setAnnotationInMetadata (setNameInMetadata m newName) annotationHook hookEvent)
            annotationHookWeight (itoa weight))
          annotationHookWeights) := by
    have h0 : child (str "metadata")
        ( removeAnnotation
          ( setAnnotation
            ( setAnnotation (setMetadataName (documentContent c) newName) annotationHook
              hookEvent)
            annotationHookWeight (itoa weight))
          annotationHookWeights) =
        (child (str "metadata") (documentContent c)).map (fun m =>
          removeAnnotationFromMetadata
            (setAnnotationInMetadata
              (setAnnotationInMetadata (setNameInMetadata m newName) annotationHook hookEvent)
              annotationHookWeight (itoa weight))
            annotationHookWeights) := by
      rw [removeAnnotation_child_metadata, setAnnotation_child_metadata,
        setAnnotation_child_metadata, child_metadata_setMetadataName]
      cases child (str "metadata") (documentContent c) <;> rfl
    cases envEnabled
    · simpa using h0
    · simp only [if_true]
      rw [child_injectEnvVars_other _ _ _ _ (by decide)]
      exact h0
  rw [h]
  cases child (str "metadata") (documentContent c) with
  | none => rfl
  | some md =>
      simp only [Option.map_some', Option.some_bind]
      rw [child_name_removeAnnotationFromMetadata, child_name_setAnnotationInMetadata,
        child_name_setAnnotationInMetadata, child_name_setNameInMetadata]

/-- C1, amended. For a hook resource whose annotations resolve to two or
more events with resolved weights, and whose clone has a root mapping with
exactly one metadata entry, a mapping with exactly one name entry, a scalar:
processDocument returns the error of cloneNode when the clone fails, the
error of the encoder when a replica is not encoded, and otherwise one
document per event, in resolution order; the name entry of the i-th one is
a scalar whose value, the name of that document, is GenerateName(base, e_i),
or base itself when helm.sh/hook-name-suffix lowers to "false"; base is the
name of the source. -/
theorem processDocument_split_names (y : Yaml) (doc : Node) (hooks : List GoString)
    (weights : GoMap Int)
    (hres : resolveHooks (parseResource doc) = .ok hooks)
    (hvalid : validateHooks hooks (parseResource doc).Name = .ok ())
    (hweights : parseWeights (parseResource doc).Annotations hooks = .ok weights)
    (hN : 2 ≤ hooks.length)
    (hcopy : ∀ c, cloneNode y doc = .ok c → NamedOnce c) :
    (∀ err, cloneNode y doc = .error err → processDocument y doc = .error err) ∧
      ∀ c, cloneNode y doc = .ok c →
        ((∃ e ∈ hooks, y.encode (splitReplica (parseResource doc) weights
              (envEnabledOf (parseResource doc).Annotations)
              (nameSuffixEnabledOf (parseResource doc).Annotations) c e) = none) →
            processDocument y doc = .error .yamlError) ∧
        ((∀ e ∈ hooks, (y.encode (splitReplica (parseResource doc) weights
              (envEnabledOf (parseResource doc).Annotations)
              (nameSuffixEnabledOf (parseResource doc).Annotations) c e)).isSome = true) →
          ∃ docs, processDocument y doc = .ok docs ∧ docs.length = hooks.length ∧
            ∀ (i : Nat) (e : GoString) (d : Node), hooks[i]? = some e → docs[i]? = some d →
              (parseResource d).Name =
                  (if ∃ v, (parseResource doc).Annotations annotationHookNameSuffix = some v ∧
                      ToLower v = str "false"
                   then (parseResource doc).Name
                   else GenerateName (parseResource doc).Name e) ∧
                ∃ n, nameNode d = some n ∧ n.kind = .ScalarNode ∧
                  n.value = (parseResource d).Name) := by
  have hsplit := processDocument_split y doc hooks weights hres hvalid hweights hN
  have hne : hooks ≠ [] := by
    intro h
    rw [h] at hN
    simp at hN
  refine ⟨fun err hc => ?_, fun c hc => ⟨fun hbad => ?_, fun henc => ?_⟩⟩
  · rw [hsplit]
    exact splitResource_clone_error y doc _ hooks weights _ _ err hne hc
  · rw [hsplit]
    exact splitResource_encode_error y doc _ weights _ _ c hc hooks hbad
  · refine ⟨_, by rw [hsplit]; exact splitResource_ok y doc _ weights _ _ c hc hooks henc,
      by simp, ?_⟩
    intro i e d hi hd
    rw [List.getElem?_map, hi] at hd
    simp only [Option.map_some', Option.some.injEq] at hd
    subst hd
    obtain ⟨hroot, md, hmeta, hmd, hmdKind, hname, n, hn, hnk⟩ := hcopy c hc
    have hN1 : (parseResource (splitReplica (parseResource doc) weights
        (envEnabledOf (parseResource doc).Annotations)
        (nameSuffixEnabledOf (parseResource doc).Annotations) c e)).Name =
        (if nameSuffixEnabledOf (parseResource doc).Annotations = true
          then GenerateName (parseResource doc).Name e else (parseResource doc).Name) := by
      unfold splitReplica
      exact updateSplitResource_Name c md e _ _ _ hroot hmeta hmd hmdKind hname
    have hnode : nameNode c = some n := by
      unfold nameNode child
      rw [if_pos hroot, hmd]
      simp only [Option.some_bind]
      rw [if_pos hmdKind, hn]
    refine ⟨?_, n.setValue (if nameSuffixEnabledOf (parseResource doc).Annotations = true
      then GenerateName (parseResource doc).Name e else (parseResource doc).Name), ?_, ?_, ?_⟩
    · rw [hN1]
      unfold nameSuffixEnabledOf
      cases hs : (parseResource doc).Annotations annotationHookNameSuffix with
      | none => simp
      | some v =>
        by_cases hv : ToLower v = str "false"
        · simp [hv]
        · simp [hv]
    · unfold splitReplica
      rw [nameNode_updateSplitResource, hnode]
      rfl
    · cases n
      exact hnk
    · rw [hN1]
      cases n
      rfl

theorem processDocument_split_names_witness :
    ∃ docs, processDocument exactYaml multiHookJob = .ok docs ∧ docs.length = 2 ∧
      ∀ (i : Nat) (e : GoString) (d : Node),
        [str "pre-install", str "post-upgrade"][i]? = some e → docs[i]? = some d →
        (parseResource d).Name =
            (if ∃ v, (parseResource multiHookJob).Annotations annotationHookNameSuffix = some v ∧
                ToLower v = str "false"
             then (parseResource multiHookJob).Name
             else GenerateName (parseResource multiHookJob).Name e) ∧
          ∃ n, nameNode d = some n ∧ n.kind = .ScalarNode ∧ n.value = (parseResource d).Name :=
  ((processDocument_split_names exactYaml multiHookJob
    [str "pre-install", str "post-upgrade"]
    ((initWeights [str "pre-install", str "post-upgrade"]).set (str "pre-install") (-100)
      |>.set (str "post-upgrade") 200)
    (by decide) (by decide) (by rfl) (by decide)
    (fun c hc => by
      have h : multiHookJob = c := Except.ok.inj hc
      subst h
      exact ⟨rfl, _, by decide, rfl, rfl, by decide, _, rfl, rfl⟩)).2
    multiHookJob rfl).2 (fun _ _ => rfl)

end HelmHooks
